import Mathlib

/-!
# Red-black tree with parent pointers: a heap-level embedding

The Go program `rbtree.go` stores every node behind a pointer and mutates
the nodes in place.  The embedding keeps that shape: the allocated nodes
live in a list (`Heap`), a pointer is the index of a node in that list or
`none` for Go's `nil`, and each method becomes a function that threads the
tree record (heap, root pointer, counter) explicitly.

* Dereferencing `nil` is a run-time panic in Go; here it is `Err.nilDeref`.
* Go recursion is unbounded.  Every recursive function takes a depth bound
  as its first argument and answers `Err.fuel` when the bound is used up.
  The public operations start each recursion with the bound
  `heap.length + 1`; nothing below is ever concluded from an `Err.fuel`
  answer.
* The counter is a Go `uint`; it is a natural number kept below `2 ^ 64`
  by an explicit reduction at the increment and the decrement.
-/

namespace RBT

/-! ## Data model -/

/-- Node colour, `Red = 0`, `Black = 1` in the source. -/
inductive Color where
  | Red
  | Black
deriving DecidableEq, Repr

/-- Child slot a node occupies in its parent. -/
inductive Direction where
  | DirRoot
  | DirLeft
  | DirRight
deriving DecidableEq, Repr

/-- Pointer to a node: `none` is `nil`, `some a` is the node allocated as number `a`. -/
abbrev Ptr := Option Nat

/-- Record `RBNode[T]` of the source. -/
structure RBNode (K : Type) where
  Val : K
  parent : Ptr
  left : Ptr
  right : Ptr
  color : Color
deriving DecidableEq, Repr

/-- All nodes allocated so far, in allocation order. Nodes are never freed. -/
abbrev Heap (K : Type) := List (RBNode K)

/-- Record `RBTree[T]` of the source, together with the heap its pointers refer to. -/
structure RBTree (K : Type) where
  heap : Heap K
  root : Ptr
  cnt : Nat
deriving DecidableEq, Repr

/-- Ways a call can fail to return. -/
inductive Err where
  | nilDeref
  | fuel
deriving DecidableEq, Repr

/-- Width of the `uint` counter. -/
def uintModulus : Nat := 2 ^ 64

/-- Read the node behind a pointer. -/
def load {K : Type} (h : Heap K) (p : Ptr) : Except Err (RBNode K) :=
  match p with
  | none => .error .nilDeref
  | some a =>
    match h[a]? with
    | some x => .ok x
    | none => .error .nilDeref

/-- Overwrite the node behind a pointer with `f` applied to it. -/
def store {K : Type} (h : Heap K) (p : Ptr) (f : RBNode K → RBNode K) : Except Err (Heap K) :=
  match p with
  | none => .error .nilDeref
  | some a =>
    match h[a]? with
    | some x => .ok (h.set a (f x))
    | none => .error .nilDeref

/-- Constructor `newRBNode`: a Red node without relatives. -/
def newRBNode {K : Type} (v : K) : RBNode K :=
  { Val := v, parent := none, left := none, right := none, color := .Red }

/-- Allocation of a node: it is appended to the heap and its index is the new pointer. -/
def alloc {K : Type} (h : Heap K) (x : RBNode K) : Heap K × Ptr :=
  (h ++ [x], some h.length)

/-! ## Node queries -/

/-- Method `isLeaf`. -/
def isLeaf {K : Type} (h : Heap K) (n : Ptr) : Except Err Bool := do
  let x ← load h n
  pure (x.left == none && x.right == none)

/-- Method `isRoot`. -/
def isRoot {K : Type} (h : Heap K) (n : Ptr) : Except Err Bool := do
  let x ← load h n
  pure (x.parent == none)

/-- Method `isRed`. -/
def isRed {K : Type} (h : Heap K) (n : Ptr) : Except Err Bool := do
  let x ← load h n
  pure (x.color == .Red)

/-- Method `isBlack`. -/
def isBlack {K : Type} (h : Heap K) (n : Ptr) : Except Err Bool := do
  let x ← load h n
  pure (x.color == .Black)

/-- Method `direction`. -/
def direction {K : Type} (h : Heap K) (n : Ptr) : Except Err Direction := do
  let x ← load h n
  if x.parent != none then
    let p ← load h x.parent
    if n == p.left then pure .DirLeft else pure .DirRight
  else
    pure .DirRoot

/-- Method `sibling`. -/
def sibling {K : Type} (h : Heap K) (n : Ptr) : Except Err Ptr := do
  let d ← direction h n
  let x ← load h n
  let p ← load h x.parent
  if d == .DirLeft then pure p.right else pure p.left

/-- Method `hasSibling`. -/
def hasSibling {K : Type} (h : Heap K) (n : Ptr) : Except Err Bool := do
  let r ← isRoot h n
  if r then pure false
  else
    let s ← sibling h n
    pure (s != none)

/-- Method `uncle`. -/
def uncle {K : Type} (h : Heap K) (n : Ptr) : Except Err Ptr := do
  let x ← load h n
  sibling h x.parent

/-- Method `hasUncle`. -/
def hasUncle {K : Type} (h : Heap K) (n : Ptr) : Except Err Bool := do
  let r ← isRoot h n
  if r then pure false
  else
    let x ← load h n
    hasSibling h x.parent

/-- Method `grandParent`. -/
def grandParent {K : Type} (h : Heap K) (n : Ptr) : Except Err Ptr := do
  let x ← load h n
  let p ← load h x.parent
  pure p.parent

/-- Method `hasGrandParent`. -/
def hasGrandParent {K : Type} (h : Heap K) (n : Ptr) : Except Err Bool := do
  let r ← isRoot h n
  if r then pure false
  else
    let x ← load h n
    let pr ← isRoot h x.parent
    pure (!pr)

/-- Method `release`. -/
def release {K : Type} : Nat → Heap K → Ptr → Except Err (Heap K)
  | 0, _, _ => .error .fuel
  | fuel + 1, h, n => do
    let h1 ← store h n (fun x => { x with parent := none })
    let x ← load h1 n
    let h2 ← if x.left != none then release fuel h1 x.left else pure h1
    let y ← load h2 n
    if y.right != none then release fuel h2 y.right else pure h2

/-! ## Tree operations -/

/-- Constructor `NewRBTree`. -/
def NewRBTree {K : Type} : RBTree K :=
  { heap := [], root := none, cnt := 0 }

/-- Method `Size`. -/
def Size {K : Type} (t : RBTree K) : Nat := t.cnt

/-- Method `Empty`. -/
def Empty {K : Type} (t : RBTree K) : Bool := t.cnt == 0

/-- Method `Clear`. -/
def Clear {K : Type} (t : RBTree K) : Except Err (RBTree K) := do
  if t.root != none then
    let h1 ← release (t.heap.length + 1) t.heap t.root
    pure { heap := h1, root := none, cnt := 0 }
  else
    pure { t with cnt := 0 }

/-- Function `search`. -/
def search {K : Type} [LinearOrder K] : Nat → Heap K → Ptr → K → Except Err (Ptr × Bool)
  | 0, _, _, _ => .error .fuel
  | fuel + 1, h, n, v =>
    match n with
    | none => pure (none, false)
    | some _ => do
      let x ← load h n
      if x.Val = v then pure (n, true)
      else if x.Val < v then search fuel h x.right v
      else search fuel h x.left v

/-- Method `Get`. -/
def Get {K : Type} [LinearOrder K] (t : RBTree K) (v : K) : Except Err (Ptr × Bool) :=
  search (t.heap.length + 1) t.heap t.root v

/-- Method `Has`. -/
def Has {K : Type} [LinearOrder K] (t : RBTree K) (v : K) : Except Err Bool := do
  let r ← search (t.heap.length + 1) t.heap t.root v
  pure r.2

/-- Method `maintainRelationship`. -/
def maintainRelationship {K : Type} (h : Heap K) (n : Ptr) : Except Err (Heap K) := do
  let x ← load h n
  let h1 ← if x.left != none then store h x.left (fun c => { c with parent := n }) else pure h
  let y ← load h1 n
  if y.right != none then store h1 y.right (fun c => { c with parent := n }) else pure h1

/-- Method `leftRotate`. -/
def leftRotate {K : Type} (t : RBTree K) (n : Ptr) : Except Err (RBTree K) :=
  match n with
  | none => pure t
  | some _ => do
    let x ← load t.heap n
    if x.right == none then pure t
    else
      let parent := x.parent
      let dir ← direction t.heap n
      let successor := x.right
      let s ← load t.heap successor
      let h1 ← store t.heap n (fun c => { c with right := s.left })
      let h2 ← store h1 successor (fun c => { c with left := n })
      let h3 ← maintainRelationship h2 n
      let h4 ← maintainRelationship h3 successor
      let t1 ←
        match dir with
        | .DirRoot => pure { t with heap := h4, root := successor }
        | .DirLeft => do
          let h5 ← store h4 parent (fun c => { c with left := successor })
          pure { t with heap := h5 }
        | .DirRight => do
          let h5 ← store h4 parent (fun c => { c with right := successor })
          pure { t with heap := h5 }
      let h6 ← store t1.heap successor (fun c => { c with parent := parent })
      pure { t1 with heap := h6 }

/-- Method `rightRotate`. -/
def rightRotate {K : Type} (t : RBTree K) (n : Ptr) : Except Err (RBTree K) :=
  match n with
  | none => pure t
  | some _ => do
    let x ← load t.heap n
    if x.left == none then pure t
    else
      let parent := x.parent
      let dir ← direction t.heap n
      let successor := x.left
      let s ← load t.heap successor
      let h1 ← store t.heap n (fun c => { c with left := s.right })
      let h2 ← store h1 successor (fun c => { c with right := n })
      let h3 ← maintainRelationship h2 n
      let h4 ← maintainRelationship h3 successor
      let t1 ←
        match dir with
        | .DirRoot => pure { t with heap := h4, root := successor }
        | .DirLeft => do
          let h5 ← store h4 parent (fun c => { c with left := successor })
          pure { t with heap := h5 }
        | .DirRight => do
          let h5 ← store h4 parent (fun c => { c with right := successor })
          pure { t with heap := h5 }
      let h6 ← store t1.heap successor (fun c => { c with parent := parent })
      pure { t1 with heap := h6 }

/-- Overwrite the colour of a node: the assignment `p.color = c`. -/
def setColor {K : Type} (t : RBTree K) (p : Ptr) (c : Color) : Except Err (RBTree K) := do
  let h1 ← store t.heap p (fun x => { x with color := c })
  pure { t with heap := h1 }

/-- Method `insertFixUp`. -/
def insertFixUp {K : Type} : Nat → RBTree K → Ptr → Except Err (RBTree K)
  | 0, _, _ => .error .fuel
  | fuel + 1, t, n => do
    let r ← isRoot t.heap n
    if r then setColor t n .Black
    else
      let x ← load t.heap n
      let pb ← isBlack t.heap x.parent
      if pb then pure t
      else
        let pr ← isRoot t.heap x.parent
        if pr then setColor t x.parent .Black
        else
          let hu ← hasUncle t.heap n
          let c2a ← if !hu then pure true else do
            let u ← uncle t.heap n
            isBlack t.heap u
          if c2a then
            -- case 2a: uncle is nil or black
            let dn ← direction t.heap n
            let dp ← direction t.heap x.parent
            let (t1, n1) ←
              if dn != dp then do
                let parent := x.parent
                let t1 ← if dn == .DirLeft then rightRotate t x.parent else leftRotate t x.parent
                pure (t1, parent)
              else pure (t, n)
            let x1 ← load t1.heap n1
            let dp1 ← direction t1.heap x1.parent
            let g ← grandParent t1.heap n1
            let t2 ← if dp1 == .DirLeft then rightRotate t1 g else leftRotate t1 g
            let x2 ← load t2.heap n1
            let t3 ← setColor t2 x2.parent .Black
            let s ← sibling t3.heap n1
            setColor t3 s .Red
          else
            let hu2 ← hasUncle t.heap n
            let c2b ← if hu2 then do
                let u ← uncle t.heap n
                isRed t.heap u
              else pure false
            if c2b then
              -- case 2b: uncle is red
              let t1 ← setColor t x.parent .Black
              let u ← uncle t1.heap n
              let t2 ← setColor t1 u .Black
              let g ← grandParent t2.heap n
              let t3 ← setColor t2 g .Red
              let g1 ← grandParent t3.heap n
              insertFixUp fuel t3 g1
            else pure t

/-- Method `insert`. -/
def insert {K : Type} [LinearOrder K] : Nat → RBTree K → Ptr → K → Except Err (RBTree K)
  | 0, _, _, _ => .error .fuel
  | fuel + 1, t, n, v => do
    let x ← load t.heap n
    if x.Val = v then pure t
    else if v < x.Val then
      if x.left == none then
        let (h1, fresh) := alloc t.heap (newRBNode v)
        let h2 ← store h1 n (fun c => { c with left := fresh })
        let y ← load h2 n
        let h3 ← store h2 y.left (fun c => { c with parent := n })
        let z ← load h3 n
        let t1 ← insertFixUp (h3.length + 1) { t with heap := h3 } z.left
        pure { t1 with cnt := (t1.cnt + 1) % uintModulus }
      else insert fuel t x.left v
    else
      if x.right == none then
        let (h1, fresh) := alloc t.heap (newRBNode v)
        let h2 ← store h1 n (fun c => { c with right := fresh })
        let y ← load h2 n
        let h3 ← store h2 y.right (fun c => { c with parent := n })
        let z ← load h3 n
        let t1 ← insertFixUp (h3.length + 1) { t with heap := h3 } z.right
        pure { t1 with cnt := (t1.cnt + 1) % uintModulus }
      else insert fuel t x.right v

/-- Method `Insert`. -/
def Insert {K : Type} [LinearOrder K] (t : RBTree K) (v : K) : Except Err (RBTree K) :=
  if t.root == none then do
    let (h1, fresh) := alloc t.heap (newRBNode v)
    let t1 : RBTree K := { t with heap := h1, root := fresh }
    let t2 ← setColor t1 t1.root .Black
    pure { t2 with cnt := (t2.cnt + 1) % uintModulus }
  else insert (t.heap.length + 1) t t.root v

/-- Method `deleteFixUp`. -/
def deleteFixUp {K : Type} : Nat → RBTree K → Ptr → Except Err (RBTree K)
  | 0, _, _ => .error .fuel
  | fuel + 1, t, n => do
    let r ← isRoot t.heap n
    if r then setColor t n .Black
    else
      let dir ← direction t.heap n
      let sibling0 ← sibling t.heap n
      let sr ← isRed t.heap sibling0
      let (t1, sibling1) ←
        if sr then do
          -- case 1: current is black and sibling is red
          let x ← load t.heap n
          let parent := x.parent
          let ta ← setColor t parent .Red
          let tb ← setColor ta sibling0 .Black
          let tc ← if dir == .DirLeft then leftRotate tb parent else rightRotate tb parent
          let s ← sibling tc.heap n
          pure (tc, s)
        else pure (t, sibling0)
      let sn ← load t1.heap sibling1
      let closeNephew := if dir == .DirLeft then sn.left else sn.right
      let distantNephew := if dir == .DirLeft then sn.right else sn.left
      let isCloseNephewBlack ←
        if closeNephew == none then pure true else isBlack t1.heap closeNephew
      let isDistantNephewBlack ←
        if distantNephew == none then pure true else isBlack t1.heap distantNephew
      if isCloseNephewBlack && isDistantNephewBlack then
        -- case 2: sibling is black and has two black childs
        let x ← load t1.heap n
        let pred ← isRed t1.heap x.parent
        if pred then
          let ta ← setColor t1 x.parent .Black
          setColor ta sibling1 .Red
        else
          let ta ← setColor t1 sibling1 .Red
          let y ← load ta.heap n
          deleteFixUp fuel ta y.parent
      else
        let cr ← if closeNephew != none then isRed t1.heap closeNephew else pure false
        let (t2, sibling2, distantNephew2) ←
          if cr then do
            -- case 3: sibling is black and close nephew is red
            let ta ← setColor t1 closeNephew .Black
            let tb ← setColor ta sibling1 .Red
            let tc ← if dir == .DirLeft then rightRotate tb sibling1 else leftRotate tb sibling1
            let s ← sibling tc.heap n
            let sn2 ← load tc.heap s
            let dn := if dir == .DirLeft then sn2.right else sn2.left
            pure (tc, s, dn)
          else pure (t1, sibling1, distantNephew)
        -- case 4: sibling is black and distant nephew is red
        let x ← load t2.heap n
        let p ← load t2.heap x.parent
        let ta ← setColor t2 sibling2 p.color
        let xa ← load ta.heap n
        let tb ← setColor ta xa.parent .Black
        let tc ← if distantNephew2 != none then setColor tb distantNephew2 .Black else pure tb
        let xc ← load tc.heap n
        let td ← if dir == .DirLeft then leftRotate tc xc.parent else rightRotate tc xc.parent
        setColor td td.root .Black

/-- Loop of `delete` that walks to the leftmost node below `successor`:
returns the final `(parent, successor)` pair. -/
def findSuccessor {K : Type} : Nat → Heap K → Ptr → Ptr → Except Err (Ptr × Ptr)
  | 0, _, _, _ => .error .fuel
  | fuel + 1, h, parent, successor => do
    let s ← load h successor
    if s.left != none then findSuccessor fuel h successor s.left
    else pure (parent, successor)

/-- Block of method `delete` for a node with two children: the values of `n` and
of its successor are exchanged and the successor becomes the node to take out.
`x` is the node record of `n` read at the start of `delete`; the result is the
tree and the node that `n` refers to afterwards. -/
def deleteSwap {K : Type} (t : RBTree K) (n : Ptr) (x : RBNode K) : Except Err (RBTree K × Ptr) :=
  if x.left != none && x.right != none then do
    let (parent, successor) ← findSuccessor (t.heap.length + 1) t.heap n x.right
    -- swap current and successor
    let s ← load t.heap successor
    let h1 ← store t.heap n (fun c => { c with Val := s.Val })
    let h2 ← store h1 successor (fun c => { c with Val := x.Val })
    let h3 ← maintainRelationship h2 parent
    pure ({ t with heap := h3 }, successor)
  else pure (t, n)

/-- Block of method `delete` that takes the node `n1`, a leaf or a node with a
single child, out of the tree `t1`. -/
def deleteNode {K : Type} (t1 : RBTree K) (n1 : Ptr) : Except Err (RBTree K) := do
  let lf ← isLeaf t1.heap n1
  if lf then do
    -- black leaf node
    let b ← isBlack t1.heap n1
    let ta ← if b then deleteFixUp (t1.heap.length + 1) t1 n1 else pure t1
    -- delete
    let d ← direction ta.heap n1
    let y ← load ta.heap n1
    if d == .DirLeft then do
      let h1 ← store ta.heap y.parent (fun c => { c with left := none })
      pure { ta with heap := h1 }
    else do
      let h1 ← store ta.heap y.parent (fun c => { c with right := none })
      pure { ta with heap := h1 }
  else do
    -- current node has a single child: replace current with its child
    let y ← load t1.heap n1
    let parent := y.parent
    let replacement := if y.left != none then y.left else y.right
    let d ← direction t1.heap n1
    let ta ←
      match d with
      | .DirRoot => pure { t1 with root := replacement }
      | .DirLeft => do
        let h1 ← store t1.heap parent (fun c => { c with left := replacement })
        pure { t1 with heap := h1 }
      | .DirRight => do
        let h1 ← store t1.heap parent (fun c => { c with right := replacement })
        pure { t1 with heap := h1 }
    let nr ← isRoot ta.heap n1
    let tb ←
      if !nr then do
        let h1 ← store ta.heap replacement (fun c => { c with parent := parent })
        pure { ta with heap := h1 }
      else pure ta
    let nb ← isBlack tb.heap n1
    if nb then
      let rr ← isRed tb.heap replacement
      if rr then setColor tb replacement .Black
      else deleteFixUp (tb.heap.length + 1) tb replacement
    else pure tb

/-- Method `delete`; the two blocks after the search are `deleteSwap` and `deleteNode`. -/
def delete {K : Type} [LinearOrder K] : Nat → RBTree K → Ptr → K → Except Err (RBTree K)
  | 0, _, _, _ => .error .fuel
  | fuel + 1, t, n, v =>
    match n with
    | none => pure t
    | some _ => do
      let x ← load t.heap n
      if x.Val ≠ v then
        let t1 ← if v < x.Val then delete fuel t x.left v else delete fuel t x.right v
        let h1 ← maintainRelationship t1.heap n
        pure { t1 with heap := h1 }
      else if Size t = 1 then Clear t
      else
        let (t1, n1) ← deleteSwap t n x
        let t2 ← deleteNode t1 n1
        pure { t2 with cnt := (t2.cnt + uintModulus - 1) % uintModulus }

/-- Method `Delete`. -/
def Delete {K : Type} [LinearOrder K] (t : RBTree K) (v : K) : Except Err (RBTree K) :=
  if t.root == none then pure t
  else delete (t.heap.length + 1) t t.root v

/-- Method `inOrder`; the accumulator `res` is the slice behind the pointer argument. -/
def inOrder {K : Type} : Nat → Heap K → Ptr → List K → Except Err (List K)
  | 0, _, _, _ => .error .fuel
  | fuel + 1, h, n, res =>
    match n with
    | none => pure res
    | some _ => do
      let x ← load h n
      let res1 ← if x.left != none then inOrder fuel h x.left res else pure res
      let res2 := res1 ++ [x.Val]
      if x.right != none then inOrder fuel h x.right res2 else pure res2

/-- Method `InOrder`. -/
def InOrder {K : Type} (t : RBTree K) : Except Err (List K) :=
  inOrder (t.heap.length + 1) t.heap t.root []

end RBT

namespace RBT

/-! ## Abstract view of a heap: trees whose nodes record their address -/

/-- Shape of the nodes reachable from a pointer: each node carries its address,
colour and key. -/
inductive Tree (K : Type) where
  | nil
  | node (a : Nat) (c : Color) (l : Tree K) (k : K) (r : Tree K)
deriving DecidableEq, Repr

/-- Pointer to the root node of a shape. -/
def Tree.ptr {K : Type} : Tree K → Ptr
  | .nil => none
  | .node a _ _ _ _ => some a

/-- Addresses of a shape, in order. -/
def Tree.addrs {K : Type} : Tree K → List Nat
  | .nil => []
  | .node a _ l _ r => l.addrs ++ a :: r.addrs

/-- Keys of a shape, in order. -/
def Tree.toList {K : Type} : Tree K → List K
  | .nil => []
  | .node _ _ l k r => l.toList ++ k :: r.toList

/-- Number of nodes of a shape. -/
def Tree.size {K : Type} : Tree K → Nat
  | .nil => 0
  | .node _ _ l _ r => l.size + 1 + r.size

/-- Number of nodes on the longest downward path. -/
def Tree.height {K : Type} : Tree K → Nat
  | .nil => 0
  | .node _ _ l _ r => max l.height r.height + 1

/-- The heap holds the shape `t` below a node whose own parent field is `par`:
every node of `t` is stored at its address with exactly the key, colour and
child pointers of the shape, and each child's parent field points to the node
holding it. -/
def Rep {K : Type} (h : Heap K) : Ptr → Tree K → Prop
  | _, .nil => True
  | par, .node a c l k r =>
    h[a]? = some { Val := k, parent := par, left := l.ptr, right := r.ptr, color := c } ∧
    Rep h (some a) l ∧ Rep h (some a) r

/-- Heap with the node at address `a` replaced by `f` of it (unchanged when `a` is not allocated). -/
def upd {K : Type} (h : Heap K) (a : Nat) (f : RBNode K → RBNode K) : Heap K :=
  match h[a]? with
  | some x => h.set a (f x)
  | none => h

/-- Pointer version of `upd`; a `nil` pointer leaves the heap alone. -/
def updP {K : Type} (h : Heap K) (p : Ptr) (f : RBNode K → RBNode K) : Heap K :=
  match p with
  | some a => upd h a f
  | none => h

/-- One step of a path from a node down to one of its children: the node's
address, colour and key, on which side the path continues (`isLeft`), and
the subtree on the other side. -/
structure Frame (K : Type) where
  isLeft : Bool
  a : Nat
  c : Color
  k : K
  sib : Tree K
deriving DecidableEq, Repr

/-- Path from a position in a tree up to the root, innermost step first. -/
abbrev Ctx (K : Type) := List (Frame K)

/-- Node of a frame with `x` put at the position the path continues to. -/
def Frame.fill {K : Type} (f : Frame K) (x : Tree K) : Tree K :=
  if f.isLeft then .node f.a f.c x f.k f.sib else .node f.a f.c f.sib f.k x

/-- Whole tree obtained by putting `x` at the position a path leads to. -/
def plug {K : Type} : Ctx K → Tree K → Tree K
  | [], x => x
  | f :: up, x => plug up (f.fill x)

/-- Pointer to the innermost node of a path: the parent of the position. -/
def ctxPtr {K : Type} : Ctx K → Ptr
  | [] => none
  | f :: _ => some f.a

/-- Addresses of the nodes on a path and in the subtrees hanging off it. -/
def ctxAddrs {K : Type} : Ctx K → List Nat
  | [] => []
  | f :: up => f.a :: f.sib.addrs ++ ctxAddrs up

/-- Root pointer of the tree a path belongs to, `hole` being the pointer at its position. -/
def ctxRoot {K : Type} : Ctx K → Ptr → Ptr
  | [], hole => hole
  | f :: up, _ => ctxRoot up (some f.a)

/-- The heap stores the nodes of a path and the subtrees hanging off it; the
child pointer that continues the path at the innermost node is `hole`, and
the outermost node has no parent. -/
def RepCtx {K : Type} (h : Heap K) : Ptr → Ctx K → Prop
  | _, [] => True
  | hole, f :: up =>
    h[f.a]? = some { Val := f.k, parent := ctxPtr up,
                     left := if f.isLeft then hole else f.sib.ptr,
                     right := if f.isLeft then f.sib.ptr else hole,
                     color := f.c } ∧
    Rep h (some f.a) f.sib ∧ RepCtx h (some f.a) up

/-- Direction of the position a path leads to. -/
def dirOf {K : Type} : Ctx K → Direction
  | [] => .DirRoot
  | f :: _ => if f.isLeft then .DirLeft else .DirRight

/-- Assignment to the child pointer that continues a path at its innermost node. -/
def ctxSet {K : Type} : Ctx K → Ptr → RBNode K → RBNode K
  | [], _ => id
  | f :: _, new => if f.isLeft then fun c => { c with left := new } else fun c => { c with right := new }

/-! ## The fix-up after an insertion, replayed on shapes -/

/-- Shape with the colour of its root node replaced. -/
def Tree.setColor {K : Type} (c : Color) : Tree K → Tree K
  | .nil => .nil
  | .node a _ l k r => .node a c l k r

/-- A shape whose root node exists and is Red. -/
def Tree.isRed {K : Type} : Tree K → Bool
  | .node _ .Red _ _ _ => true
  | _ => false

/-- Case 2a of `insertFixUp` (uncle absent or Black) on shapes: `x` is the subtree
of the node `n`, `p` the step from its parent, `g` the step from its grandparent.
The result replaces the grandparent's subtree. -/
def insRotate {K : Type} (p g : Frame K) (x : Tree K) : Tree K :=
  match x with
  | .nil => g.fill (p.fill x)
  | .node n cn l k r =>
    match g.isLeft, p.isLeft with
    | true, true => .node p.a .Black (.node n cn l k r) p.k (.node g.a .Red p.sib g.k g.sib)
    | true, false => .node n .Black (.node p.a p.c p.sib p.k l) k (.node g.a .Red r g.k g.sib)
    | false, false => .node p.a .Black (.node g.a .Red g.sib g.k p.sib) p.k (.node n cn l k r)
    | false, true => .node n .Black (.node g.a .Red g.sib g.k l) k (.node p.a p.c r p.k p.sib)

/-- Method `insertFixUp` on shapes: `x` is the subtree of the node passed to the
method and the path leads to it; the result is the whole tree. -/
def insFix {K : Type} : Ctx K → Tree K → Tree K
  | [], x => x.setColor .Black
  | [p], x => if p.c = .Black then plug [p] x else plug [{ p with c := .Black }] x
  | p :: g :: up, x =>
    if p.c = .Black then plug (p :: g :: up) x
    else
      match g.sib with
      | .node u .Red ul uk ur =>
        insFix up ({ g with c := .Red, sib := .node u .Black ul uk ur }.fill
          ({ p with c := .Black }.fill x))
      | _ => plug up (insRotate p g x)

/-- Method `insert` on shapes: `x` is the subtree of the node passed to the method,
`fresh` the address the next allocated node gets; the result is the whole tree. -/
def insDown {K : Type} [LinearOrder K] (fresh : Nat) : Ctx K → Tree K → K → Tree K
  | ctx, .nil, _ => plug ctx .nil
  | ctx, .node n c l k r, v =>
    if k = v then plug ctx (.node n c l k r)
    else if v < k then
      if l.ptr = none then
        insFix ({ isLeft := true, a := n, c := c, k := k, sib := r } :: ctx)
          (.node fresh .Red .nil v .nil)
      else insDown fresh ({ isLeft := true, a := n, c := c, k := k, sib := r } :: ctx) l v
    else
      if r.ptr = none then
        insFix ({ isLeft := false, a := n, c := c, k := k, sib := l } :: ctx)
          (.node fresh .Red .nil v .nil)
      else insDown fresh ({ isLeft := false, a := n, c := c, k := k, sib := l } :: ctx) r v

/-- In-order key list after `insert` of `v` below a shape (`[v]` for the empty shape). -/
def insList {K : Type} [LinearOrder K] : Tree K → K → List K
  | .nil, v => [v]
  | .node _ _ l k r, v =>
    if k = v then l.toList ++ k :: r.toList
    else if v < k then insList l v ++ k :: r.toList
    else l.toList ++ k :: insList r v

/-- Method `Insert` on shapes. -/
def insT {K : Type} [LinearOrder K] (fresh : Nat) (T : Tree K) (v : K) : Tree K :=
  match T with
  | .nil => .node fresh .Black .nil v .nil
  | T => insDown fresh [] T v

/-- Heap after `insert` has allocated a node for `v` and linked it below the node
at address `n`, as left child when `isL` holds and as right child otherwise. -/
def attach {K : Type} (h : Heap K) (n : Nat) (isL : Bool) (v : K) : Heap K :=
  upd (upd (h ++ [newRBNode v]) n
      (if isL then fun c => { c with left := some h.length }
        else fun c => { c with right := some h.length }))
    h.length (fun c => { c with parent := some n })

/-! ## The fix-up after a deletion, replayed on paths -/

/-- Path with the colour of its outermost node set to Black: the assignment
`t.root.color = Black`. -/
def blackenRoot {K : Type} : Ctx K → Ctx K
  | [] => []
  | [f] => [{ f with c := .Black }]
  | f :: g :: up => f :: blackenRoot (g :: up)

/-- Case 3 of `deleteFixUp` on the sibling's subtree: when the close nephew is Red
it becomes Black, the sibling Red, and the sibling is rotated away from the node. -/
def delCase3 {K : Type} (isLeft : Bool) (s : Tree K) : Tree K :=
  match isLeft, s with
  | true, .node s _ (.node c .Red cl ck cr) sk d => .node c .Black cl ck (.node s .Red cr sk d)
  | false, .node s _ d sk (.node c .Red cl ck cr) => .node c .Black (.node s .Red d sk cl) ck cr
  | _, s => s

/-- Case 4 of `deleteFixUp`: the sibling takes the parent's colour, the parent and
the distant nephew become Black, the parent is rotated towards the node and the
root is coloured Black.  The result is the new path of the node. -/
def delCase4 {K : Type} (f : Frame K) (up : Ctx K) : Option (Ctx K) :=
  match f.sib with
  | .nil => none
  | .node s _ a sk b =>
    if f.isLeft then
      some (blackenRoot ({ isLeft := true, a := f.a, c := .Black, k := f.k, sib := a } ::
        { isLeft := true, a := s, c := f.c, k := sk, sib := b.setColor .Black } :: up))
    else
      some (blackenRoot ({ isLeft := false, a := f.a, c := .Black, k := f.k, sib := b } ::
        { isLeft := false, a := s, c := f.c, k := sk, sib := a.setColor .Black } :: up))

/-- The part of `deleteFixUp` after case 1, on paths: `f` is the step from the
parent, `recur` the result of the recursive call on the parent.  `none` when the
code dereferences an absent sibling. -/
def delNephews {K : Type} (f : Frame K) (up : Ctx K) (recur : Option (Ctx K)) : Option (Ctx K) :=
  match f.sib with
  | .nil => none
  | .node s cs sl sk sr =>
    if (if f.isLeft then sl else sr).isRed = false ∧ (if f.isLeft then sr else sl).isRed = false then
      if f.c = .Red then some ({ f with c := .Black, sib := .node s .Red sl sk sr } :: up)
      else recur.map (fun up' => { f with sib := .node s .Red sl sk sr } :: up')
    else delCase4 { f with sib := delCase3 f.isLeft (.node s cs sl sk sr) } up

/-- Method `deleteFixUp` on paths: the path of the node passed to the method
before and after.  `none` when the code dereferences an absent sibling. -/
def delFix {K : Type} : Ctx K → Option (Ctx K)
  | [] => some []
  | f :: up =>
    match f.sib with
    | .nil => none
    | .node s .Red sl sk sr =>
      if f.isLeft then
        delNephews { isLeft := true, a := f.a, c := .Red, k := f.k, sib := sl }
          ({ isLeft := true, a := s, c := .Black, k := sk, sib := sr } :: up) none
      else
        delNephews { isLeft := false, a := f.a, c := .Red, k := f.k, sib := sr }
          ({ isLeft := false, a := s, c := .Black, k := sk, sib := sl } :: up) none
    | .node _ .Black _ _ _ => delNephews f up (delFix up)

/-- Case 4 of method `deleteFixUp`, the last part of its body: `t2`, `sibling2` and
`distantNephew2` are the tree, the sibling and the distant nephew at that point. -/
def deleteFixUpCase4 {K : Type} (t2 : RBTree K) (n : Ptr) (dir : Direction)
    (sibling2 distantNephew2 : Ptr) : Except Err (RBTree K) := do
  let x ← load t2.heap n
  let p ← load t2.heap x.parent
  let ta ← setColor t2 sibling2 p.color
  let xa ← load ta.heap n
  let tb ← setColor ta xa.parent .Black
  let tc ← if distantNephew2 != none then setColor tb distantNephew2 .Black else pure tb
  let xc ← load tc.heap n
  let td ← if dir == .DirLeft then leftRotate tc xc.parent else rightRotate tc xc.parent
  setColor td td.root .Black

/-- The part of method `deleteFixUp` after case 1: `t1` and `sibling1` are the
tree and the sibling at that point, `dir` the direction of `n` read at the start. -/
def deleteFixUpTail {K : Type} (fuel : Nat) (t1 : RBTree K) (n : Ptr) (dir : Direction)
    (sibling1 : Ptr) : Except Err (RBTree K) := do
  let sn ← load t1.heap sibling1
  let closeNephew := if dir == .DirLeft then sn.left else sn.right
  let distantNephew := if dir == .DirLeft then sn.right else sn.left
  let isCloseNephewBlack ←
    if closeNephew == none then pure true else isBlack t1.heap closeNephew
  let isDistantNephewBlack ←
    if distantNephew == none then pure true else isBlack t1.heap distantNephew
  if isCloseNephewBlack && isDistantNephewBlack then
    let x ← load t1.heap n
    let pred ← isRed t1.heap x.parent
    if pred then
      let ta ← setColor t1 x.parent .Black
      setColor ta sibling1 .Red
    else
      let ta ← setColor t1 sibling1 .Red
      let y ← load ta.heap n
      deleteFixUp fuel ta y.parent
  else
    let cr ← if closeNephew != none then isRed t1.heap closeNephew else pure false
    let (t2, sibling2, distantNephew2) ←
      if cr then do
        let ta ← setColor t1 closeNephew .Black
        let tb ← setColor ta sibling1 .Red
        let tc ← if dir == .DirLeft then rightRotate tb sibling1 else leftRotate tb sibling1
        let s ← sibling tc.heap n
        let sn2 ← load tc.heap s
        let dn := if dir == .DirLeft then sn2.right else sn2.left
        pure (tc, s, dn)
      else pure (t1, sibling1, distantNephew)
    deleteFixUpCase4 t2 n dir sibling2 distantNephew2

/-! ## Keys and colours along a path -/

/-- Keys that come before the position of a path in the in-order sequence. -/
def ctxBefore {K : Type} : Ctx K → List K
  | [] => []
  | f :: up => ctxBefore up ++ (if f.isLeft then [] else f.sib.toList ++ [f.k])

/-- Keys that come after the position of a path in the in-order sequence. -/
def ctxAfter {K : Type} : Ctx K → List K
  | [] => []
  | f :: up => (if f.isLeft then f.k :: f.sib.toList else []) ++ ctxAfter up

/-- Black-height of a shape, counted along the leftmost path. -/
def Tree.bh {K : Type} : Tree K → Nat
  | .nil => 0
  | .node _ c l _ _ => l.bh + (if c = .Black then 1 else 0)

/-- Every path from a node down to an absent child passes the same number of Black nodes. -/
def Tree.Balanced {K : Type} : Tree K → Prop
  | .nil => True
  | .node _ _ l _ r => l.Balanced ∧ r.Balanced ∧ l.bh = r.bh

/-- No Red node has a Red child. -/
def Tree.NoRedRed {K : Type} : Tree K → Prop
  | .nil => True
  | .node _ c l _ r => (c = .Red → l.isRed = false ∧ r.isRed = false) ∧ l.NoRedRed ∧ r.NoRedRed

/-- The three colour invariants of a red-black tree: Black root, no Red node with
a Red child, uniform black-height. -/
def Tree.RB {K : Type} (T : Tree K) : Prop :=
  T.isRed = false ∧ T.NoRedRed ∧ T.Balanced

/-- The innermost node of a path is Red. -/
def ctxRed {K : Type} : Ctx K → Bool
  | [] => false
  | f :: _ => decide (f.c = .Red)

/-- The outermost node of a path is Black. -/
def ctxRootBlack {K : Type} : Ctx K → Prop
  | [] => True
  | [f] => f.c = .Black
  | _ :: g :: up => ctxRootBlack (g :: up)

/-- Uniform black-height around a path, for a subtree of black-height `b` at its position. -/
def ctxBal {K : Type} : Ctx K → Nat → Prop
  | [], _ => True
  | f :: up, b => f.sib.Balanced ∧ f.sib.bh = b ∧ ctxBal up (b + (if f.c = .Black then 1 else 0))

/-- No Red node with a Red child among the nodes of a path and the subtrees hanging off it. -/
def ctxNoRR {K : Type} : Ctx K → Prop
  | [] => True
  | f :: up => f.sib.NoRedRed ∧ (f.c = .Red → f.sib.isRed = false ∧ ctxRed up = false) ∧ ctxNoRR up

/-- Child links only: the heap stores every node of the shape at its address
with the shape's key, colour and child pointers; parent fields are not looked at. -/
def Shaped {K : Type} (h : Heap K) : Tree K → Prop
  | .nil => True
  | .node a c l k r =>
    (∃ x, h[a]? = some x ∧ x.Val = k ∧ x.left = l.ptr ∧ x.right = r.ptr ∧ x.color = c) ∧
    Shaped h l ∧ Shaped h r

/-- The nodes reachable from the root of `t` through child links form the
finite tree `T`: no node is reached twice. -/
structure IsTree {K : Type} (t : RBTree K) (T : Tree K) : Prop where
  root : t.root = T.ptr
  shaped : Shaped t.heap T
  nodup : T.addrs.Nodup

/-- As `IsTree`, and every child's parent field points to the node holding it;
the parent field of the root node is `par`. -/
structure Linked {K : Type} (t : RBTree K) (par : Ptr) (T : Tree K) : Prop where
  root : t.root = T.ptr
  rep : Rep t.heap par T
  nodup : T.addrs.Nodup

/-- The tree record `t` holds the shape `T`: its root pointer is the root of
`T`, the root has no parent, the heap stores `T` with consistent parent
fields, and no address occurs twice. -/
abbrev WF {K : Type} (t : RBTree K) (T : Tree K) : Prop := Linked t none T

/-- Binary-search-tree ordering of a shape. -/
def Tree.BST {K : Type} [LinearOrder K] : Tree K → Prop
  | .nil => True
  | .node _ _ l k r => (∀ x ∈ l.toList, x < k) ∧ (∀ x ∈ r.toList, k < x) ∧ l.BST ∧ r.BST

/-- The comparisons of `search` replayed on a shape. -/
def Tree.lookup {K : Type} [LinearOrder K] : Tree K → K → Ptr × Bool
  | .nil, _ => (none, false)
  | .node a _ l k r, v =>
    if k = v then (some a, true)
    else if k < v then r.lookup v
    else l.lookup v

/-! ## Call sequences -/

/-- One call of the public interface that changes the tree. -/
inductive Call (K : Type) where
  | insert (k : K)
  | delete (k : K)
  | clear
deriving DecidableEq, Repr

/-- Effect of one call. -/
def applyCall {K : Type} [LinearOrder K] (t : RBTree K) : Call K → Except Err (RBTree K)
  | .insert k => Insert t k
  | .delete k => Delete t k
  | .clear => Clear t

/-- Effect of a sequence of calls, first call first. -/
def runCalls {K : Type} [LinearOrder K] : List (Call K) → RBTree K → Except Err (RBTree K)
  | [], t => pure t
  | c :: cs, t => do
    let t1 ← applyCall t c
    runCalls cs t1

/-- Calls `Insert 1`, `Insert 2`, `Delete 1`: the root is deleted while it has a single child. -/
def rootDeleted : List (Call Int) := [.insert 1, .insert 2, .delete 1]

/-- Calls `Insert 1` to `Insert 7`. -/
def oneToSeven : List (Call Int) :=
  [.insert 1, .insert 2, .insert 3, .insert 4, .insert 5, .insert 6, .insert 7]

/-- Three-node tree record: Black root 2 at address 0 with Red children 1 and 3. -/
def sampleTree : RBTree Int :=
  { heap := [{ Val := 2, parent := none, left := some 1, right := some 2, color := .Black },
             { Val := 1, parent := some 0, left := none, right := none, color := .Red },
             { Val := 3, parent := some 0, left := none, right := none, color := .Red }],
    root := some 0, cnt := 3 }

/-- Shape held by `sampleTree`. -/
def sampleShape : Tree Int :=
  .node 0 .Black (.node 1 .Red .nil 1 .nil) 2 (.node 2 .Red .nil 3 .nil)

end RBT

namespace RBT

/-! ## Deletion, replayed on shapes -/

/-- Loop of `delete` that looks for the successor, on shapes: the path `acc` leads
to the subtree; the result is the path to its leftmost node, and that node. -/
def leftSpine {K : Type} : Tree K → Ctx K → Ctx K × Tree K
  | .nil, acc => (acc, .nil)
  | .node s cs sl sk sr, acc =>
    if sl.ptr = none then (acc, .node s cs sl sk sr)
    else leftSpine sl ({ isLeft := true, a := s, c := cs, k := sk, sib := sr } :: acc)

/-- Last part of `delete` on shapes: the node at the end of the path `ctx`, of colour
`c` and with subtrees `l` and `r`, one of them empty, is taken out of the tree.
The result is the whole tree.  `none` when the code dereferences an absent
pointer, and for a root with a single child: there the code leaves the parent
field of the new root pointing to the removed node, and no shape with
consistent parent fields describes the result. -/
def delNode {K : Type} (ctx : Ctx K) (c : Color) (l r : Tree K) : Option (Tree K) :=
  if l.ptr = none ∧ r.ptr = none then
    match (if c = .Black then delFix ctx else some ctx) with
    | some (f :: up) => some (plug (f :: up) .nil)
    | _ => none
  else
    match ctx with
    | [] => none
    | f :: up =>
      if c = .Black then
        if (if l.ptr = none then r else l).isRed then
          some (plug (f :: up) ((if l.ptr = none then r else l).setColor .Black))
        else (delFix (f :: up)).map (fun ctx1 => plug ctx1 (if l.ptr = none then r else l))
      else some (plug (f :: up) (if l.ptr = none then r else l))

/-- Part of `delete` that runs once the key is found at the node `a`, on shapes:
with two children the key of the successor moves to `a` and the successor node
is the one taken out. -/
def delFound {K : Type} (ctx : Ctx K) (a : Nat) (c : Color) (l r : Tree K) : Option (Tree K) :=
  if l.ptr = none ∨ r.ptr = none then delNode ctx c l r
  else
    match leftSpine r [] with
    | (rel, .node _ cs sl sk sr) =>
      delNode (rel ++ { isLeft := false, a := a, c := c, k := sk, sib := l } :: ctx) cs sl sr
    | (_, .nil) => none

/-- Method `delete` on shapes, for a key that is found and a counter other than 1:
`x` is the subtree of the node passed to the method and the path `ctx` leads to
it; the result is the whole tree.  `none` when the key is not found. -/
def delDown {K : Type} [LinearOrder K] : Ctx K → Tree K → K → Option (Tree K)
  | _, .nil, _ => none
  | ctx, .node a c l k r, v =>
    if k = v then delFound ctx a c l r
    else if v < k then delDown ({ isLeft := true, a := a, c := c, k := k, sib := r } :: ctx) l v
    else delDown ({ isLeft := false, a := a, c := c, k := k, sib := l } :: ctx) r v

/-- The tree record holds a single node with key `k` and the counter is 1; the
parent field of that node is not constrained. -/
def Single {K : Type} (t : RBTree K) (k : K) : Prop :=
  ∃ b x, t.root = some b ∧ t.heap[b]? = some x ∧ x.Val = k ∧ x.left = none ∧ x.right = none ∧
    t.cnt = 1

/-- Checks of the deletion phase of the test: before each `Delete k` the key is
found by `Get` at a node holding `k`, after it `Has k` is false, and after the
last deletion the tree is empty. -/
def DeletesAll {K : Type} [LinearOrder K] : RBTree K → List K → Prop
  | t, [] => t.root = none ∧ Size t = 0 ∧ InOrder t = .ok []
  | t, k :: ks =>
    (∃ a x, Get t k = .ok (some a, true) ∧ load t.heap (some a) = .ok x ∧ x.Val = k) ∧
    ∃ t1, Delete t k = .ok t1 ∧ Has t1 k = .ok false ∧ DeletesAll t1 ks

end RBT

namespace RBT

/-! ## Addresses paired with keys -/

/-- Nodes of a shape in order, each as the pair of its address and its key. -/
def Tree.pairs {K : Type} : Tree K → List (Nat × K)
  | .nil => []
  | .node a _ l k r => l.pairs ++ (a, k) :: r.pairs

/-- Nodes that come before the position of a path in the in-order sequence. -/
def ctxBeforeP {K : Type} : Ctx K → List (Nat × K)
  | [] => []
  | f :: up => ctxBeforeP up ++ (if f.isLeft then [] else f.sib.pairs ++ [(f.a, f.k)])

/-- Nodes that come after the position of a path in the in-order sequence. -/
def ctxAfterP {K : Type} : Ctx K → List (Nat × K)
  | [] => []
  | f :: up => (if f.isLeft then (f.a, f.k) :: f.sib.pairs else []) ++ ctxAfterP up

/-! ## Measurements and call sequences of the scenarios -/

/-- Number of nodes on the longest path from the node `n` down through child links. -/
def heightFrom {K : Type} : Nat → Heap K → Ptr → Nat
  | 0, _, _ => 0
  | _ + 1, _, none => 0
  | fuel + 1, h, some a =>
    match h[a]? with
    | none => 0
    | some x => max (heightFrom fuel h x.left) (heightFrom fuel h x.right) + 1

/-- Height of the tree held by a record: the longest path from the root. -/
def treeHeight {K : Type} (t : RBTree K) : Nat :=
  heightFrom (t.heap.length + 1) t.heap t.root

/-- Calls `Insert 1`, `Insert 4`, `Delete 1`, `Insert 1`, `Delete 4`, `Insert 2`,
`Delete 1`, `Insert 3`. -/
def tallRun : List (Call Int) :=
  [.insert 1, .insert 4, .delete 1, .insert 1, .delete 4, .insert 2, .delete 1, .insert 3]

/-- Calls `Insert 1`, `Insert 2`, `Delete 1`, `Insert 1`, `Delete 2`, `Insert 3`. -/
def strayRun : List (Call Int) :=
  [.insert 1, .insert 2, .delete 1, .insert 1, .delete 2, .insert 3]

/-- Calls `Insert 2`, `Insert 1`, `Insert 4`, `Insert 3`, `Insert 5`. -/
def fiveKeys : List (Call Int) :=
  [.insert 2, .insert 1, .insert 4, .insert 3, .insert 5]

/-- Shape built by `fiveKeys`: Black root 2 with Black children 1 and 4, and the
Red nodes 3 and 5 below 4. -/
def fiveShape : Tree Int :=
  .node 0 .Black (.node 1 .Black .nil 1 .nil) 2
    (.node 2 .Black (.node 3 .Red .nil 3 .nil) 4 (.node 4 .Red .nil 5 .nil))

/-- Tree record built by `fiveKeys`. -/
def fiveTree : RBTree Int :=
  { heap := [{ Val := 2, parent := none, left := some 1, right := some 2, color := .Black },
             { Val := 1, parent := some 0, left := none, right := none, color := .Black },
             { Val := 4, parent := some 0, left := some 3, right := some 4, color := .Black },
             { Val := 3, parent := some 2, left := none, right := none, color := .Red },
             { Val := 5, parent := some 2, left := none, right := none, color := .Red }],
    root := some 0, cnt := 5 }

/-- Two-node tree record: Black root 1 at address 0 with the Red right child 2. -/
def twoTree : RBTree Int :=
  { heap := [{ Val := 1, parent := none, left := none, right := some 1, color := .Black },
             { Val := 2, parent := some 0, left := none, right := none, color := .Red }],
    root := some 0, cnt := 2 }

/-- Shape held by `twoTree`. -/
def twoShape : Tree Int :=
  .node 0 .Black .nil 1 (.node 1 .Red .nil 2 .nil)

end RBT

namespace RBT

/-- Keys of the mirrored scenario for `deleteFixUp`: the node 5 is a right child
whose sibling 2 has the Red children 1 and 3. -/
def mirrorKeys : List (Call Int) :=
  [.insert 4, .insert 5, .insert 2, .insert 1, .insert 3]

/-- Tree record built by `mirrorKeys`. -/
def mirrorTree : RBTree Int :=
  { heap := [{ Val := 4, parent := none, left := some 2, right := some 1, color := .Black },
             { Val := 5, parent := some 0, left := none, right := none, color := .Black },
             { Val := 2, parent := some 0, left := some 3, right := some 4, color := .Black },
             { Val := 1, parent := some 2, left := none, right := none, color := .Red },
             { Val := 3, parent := some 2, left := none, right := none, color := .Red }],
    root := some 0, cnt := 5 }

end RBT

namespace RBT

variable {K : Type}

/-! ## Heap updates -/

@[simp] theorem length_upd (h : Heap K) (a : Nat) (f : RBNode K → RBNode K) :
    (upd h a f).length = h.length := by
  unfold upd; split <;> simp

theorem getElem?_upd (h : Heap K) (a b : Nat) (f : RBNode K → RBNode K) :
    (upd h a f)[b]? = if a = b then (h[b]?).map f else h[b]? := by
  unfold upd
  split
  · rename_i x hx
    rw [List.getElem?_set]
    by_cases hab : a = b
    · subst hab
      have hlt : a < h.length := (List.getElem?_eq_some.1 hx).1
      simp [hx, hlt]
    · simp [hab]
  · rename_i hx
    by_cases hab : a = b
    · subst hab; simp [hx]
    · simp [hab]

@[simp] theorem getElem?_upd_self (h : Heap K) (a : Nat) (f : RBNode K → RBNode K) :
    (upd h a f)[a]? = (h[a]?).map f := by
  simp [getElem?_upd]

theorem getElem?_upd_ne (h : Heap K) {a b : Nat} (f : RBNode K → RBNode K) (hne : a ≠ b) :
    (upd h a f)[b]? = h[b]? := by
  simp [getElem?_upd, hne]

@[simp] theorem length_updP (h : Heap K) (p : Ptr) (f : RBNode K → RBNode K) :
    (updP h p f).length = h.length := by
  cases p <;> simp [updP]

theorem store_some {h : Heap K} {a : Nat} {x : RBNode K} (f : RBNode K → RBNode K)
    (hx : h[a]? = some x) : store h (some a) f = .ok (upd h a f) := by
  simp [store, upd, hx]

theorem store_of_lt {h : Heap K} {a : Nat} (f : RBNode K → RBNode K)
    (hlt : a < h.length) : store h (some a) f = .ok (upd h a f) := by
  obtain ⟨x, hx⟩ : ∃ x, h[a]? = some x := ⟨h[a], List.getElem?_eq_getElem hlt⟩
  exact store_some f hx

theorem load_some {h : Heap K} {a : Nat} {x : RBNode K}
    (hx : h[a]? = some x) : load h (some a) = .ok x := by
  simp [load, hx]

theorem upd_same {h : Heap K} {a : Nat} {x : RBNode K} {f : RBNode K → RBNode K}
    (hx : h[a]? = some x) (hf : f x = x) : upd h a f = h := by
  apply List.ext_getElem?
  intro b
  rw [getElem?_upd]
  by_cases hab : a = b
  · subst hab; simp [hx, hf]
  · simp [hab]

/-! ## Shapes stored in a heap -/

theorem Rep_lt {h : Heap K} : ∀ {T : Tree K} {par : Ptr}, Rep h par T → ∀ a ∈ T.addrs, a < h.length
  | .nil, _, _, a, ha => by simp [Tree.addrs] at ha
  | .node b c l k r, par, hr, a, ha => by
    simp only [Rep] at hr
    simp only [Tree.addrs, List.mem_append, List.mem_cons] at ha
    rcases ha with ha | ha | ha
    · exact Rep_lt hr.2.1 a ha
    · subst ha; exact (List.getElem?_eq_some.1 hr.1).1
    · exact Rep_lt hr.2.2 a ha

theorem Rep_congr {h h' : Heap K} : ∀ {T : Tree K} {par : Ptr},
    (∀ a ∈ T.addrs, h'[a]? = h[a]?) → Rep h par T → Rep h' par T
  | .nil, _, _, _ => trivial
  | .node b c l k r, par, hag, hr => by
    simp only [Rep] at hr ⊢
    refine ⟨?_, Rep_congr (fun a ha => hag a ?_) hr.2.1, Rep_congr (fun a ha => hag a ?_) hr.2.2⟩
    · rw [hag b (by simp [Tree.addrs])]; exact hr.1
    · simp [Tree.addrs, ha]
    · simp [Tree.addrs, ha]

theorem Rep_upd_of_not_mem {h : Heap K} {T : Tree K} {par : Ptr} {a : Nat}
    (f : RBNode K → RBNode K) (ha : a ∉ T.addrs) (hr : Rep h par T) : Rep (upd h a f) par T := by
  refine Rep_congr (fun b hb => ?_) hr
  apply getElem?_upd_ne
  rintro rfl
  exact ha hb

theorem Rep_updP_of_not_mem {h : Heap K} {T : Tree K} {par : Ptr} {p : Ptr}
    (f : RBNode K → RBNode K) (ha : ∀ a, p = some a → a ∉ T.addrs) (hr : Rep h par T) :
    Rep (updP h p f) par T := by
  cases p with
  | none => exact hr
  | some a => exact Rep_upd_of_not_mem f (ha a rfl) hr

theorem Rep_append {h : Heap K} {T : Tree K} {par : Ptr} (l : Heap K) (hr : Rep h par T) :
    Rep (h ++ l) par T := by
  refine Rep_congr (fun b hb => ?_) hr
  exact List.getElem?_append_left ((Rep_lt hr) b hb)

theorem Rep_reparent {h : Heap K} {T : Tree K} {par : Ptr} (par' : Ptr)
    (hr : Rep h par T) (hnd : T.addrs.Nodup) :
    Rep (updP h T.ptr (fun c => { c with parent := par' })) par' T := by
  cases T with
  | nil => trivial
  | node a c l k r =>
    simp only [Tree.addrs] at hnd
    have hnd' := List.nodup_append.1 hnd
    have hal : a ∉ l.addrs := fun hm => hnd'.2.2 hm (by simp)
    have har : a ∉ r.addrs := (List.nodup_cons.1 hnd'.2.1).1
    simp only [Rep] at hr
    show Rep (upd h a _) par' (.node a c l k r)
    simp only [Rep]
    refine ⟨?_, Rep_upd_of_not_mem _ hal hr.2.1, Rep_upd_of_not_mem _ har hr.2.2⟩
    simp [hr.1]

end RBT

namespace RBT

variable {K : Type}

/-! ## Paths -/

@[simp] theorem Tree.ptr_nil : (Tree.nil : Tree K).ptr = none := rfl

@[simp] theorem Tree.ptr_node (a : Nat) (c : Color) (l : Tree K) (k : K) (r : Tree K) :
    (Tree.node a c l k r).ptr = some a := rfl

theorem Tree.ptr_mem {T : Tree K} {a : Nat} (h : T.ptr = some a) : a ∈ T.addrs := by
  cases T with
  | nil => simp at h
  | node b c l k r =>
    simp only [Tree.ptr_node, Option.some.injEq] at h
    subst h
    simp [Tree.addrs]

@[simp] theorem Frame.fill_ptr (f : Frame K) (x : Tree K) : (f.fill x).ptr = some f.a := by
  unfold Frame.fill; split <;> rfl

theorem plug_ptr : ∀ (ctx : Ctx K) (x : Tree K), (plug ctx x).ptr = ctxRoot ctx x.ptr
  | [], _ => rfl
  | f :: up, x => by
    simp only [plug, ctxRoot]
    rw [plug_ptr up (f.fill x), Frame.fill_ptr]

theorem Frame.fill_addrs_perm (f : Frame K) (x : Tree K) :
    (f.fill x).addrs.Perm (x.addrs ++ (f.a :: f.sib.addrs)) := by
  unfold Frame.fill
  split
  · simp [Tree.addrs]
  · simp only [Tree.addrs]
    refine List.perm_append_comm.trans ?_
    simp only [List.cons_append]
    exact List.perm_middle.symm

theorem plug_addrs_perm : ∀ (ctx : Ctx K) (x : Tree K),
    (plug ctx x).addrs.Perm (x.addrs ++ ctxAddrs ctx)
  | [], x => by simp [plug, ctxAddrs]
  | f :: up, x => by
    simp only [plug, ctxAddrs]
    refine (plug_addrs_perm up (f.fill x)).trans ?_
    refine ((f.fill_addrs_perm x).append_right _).trans ?_
    simp [List.append_assoc]

theorem plug_nodup {ctx : Ctx K} {x : Tree K} :
    (plug ctx x).addrs.Nodup ↔ (x.addrs ++ ctxAddrs ctx).Nodup :=
  (plug_addrs_perm ctx x).nodup_iff

theorem Rep_fill {h : Heap K} {par : Ptr} (f : Frame K) (x : Tree K) :
    Rep h par (f.fill x) ↔
      h[f.a]? = some { Val := f.k, parent := par,
                       left := if f.isLeft then x.ptr else f.sib.ptr,
                       right := if f.isLeft then f.sib.ptr else x.ptr,
                       color := f.c } ∧
      Rep h (some f.a) f.sib ∧ Rep h (some f.a) x := by
  unfold Frame.fill
  cases f.isLeft <;> simp [Rep]
  tauto

theorem Rep_plug {h : Heap K} : ∀ {ctx : Ctx K} {x : Tree K},
    Rep h none (plug ctx x) ↔ RepCtx h x.ptr ctx ∧ Rep h (ctxPtr ctx) x
  | [], x => by simp [plug, RepCtx, ctxPtr]
  | f :: up, x => by
    simp only [plug, RepCtx, ctxPtr]
    rw [Rep_plug, Rep_fill, Frame.fill_ptr]
    tauto

theorem RepCtx_congr {h h' : Heap K} : ∀ {ctx : Ctx K} {hole : Ptr},
    (∀ a ∈ ctxAddrs ctx, h'[a]? = h[a]?) → RepCtx h hole ctx → RepCtx h' hole ctx
  | [], _, _, _ => trivial
  | f :: up, hole, hag, hr => by
    simp only [RepCtx] at hr ⊢
    refine ⟨?_, Rep_congr (fun a ha => hag a ?_) hr.2.1, RepCtx_congr (fun a ha => hag a ?_) hr.2.2⟩
    · rw [hag f.a (by simp [ctxAddrs])]; exact hr.1
    · simp [ctxAddrs, ha]
    · simp [ctxAddrs, ha]

theorem RepCtx_lt {h : Heap K} : ∀ {ctx : Ctx K} {hole : Ptr},
    RepCtx h hole ctx → ∀ a ∈ ctxAddrs ctx, a < h.length
  | [], _, _, a, ha => by simp [ctxAddrs] at ha
  | f :: up, hole, hr, a, ha => by
    simp only [RepCtx] at hr
    simp only [ctxAddrs, List.mem_append, List.mem_cons] at ha
    rcases ha with (ha | ha) | ha
    · subst ha; exact (List.getElem?_eq_some.1 hr.1).1
    · exact (Rep_lt hr.2.1) a ha
    · exact RepCtx_lt hr.2.2 a ha

theorem getElem?_updP (h : Heap K) (p : Ptr) (b : Nat) (f : RBNode K → RBNode K) :
    (updP h p f)[b]? = if p = some b then (h[b]?).map f else h[b]? := by
  cases p with
  | none => simp [updP]
  | some a => simp [updP, getElem?_upd]

@[simp] theorem updP_some (h : Heap K) (a : Nat) (f : RBNode K → RBNode K) :
    updP h (some a) f = upd h a f := rfl

@[simp] theorem updP_none (h : Heap K) (f : RBNode K → RBNode K) :
    updP h none f = h := rfl

theorem Tree.ptr_ne_of_not_mem {T : Tree K} {a : Nat} (h : a ∉ T.addrs) : T.ptr ≠ some a :=
  fun e => h (Tree.ptr_mem e)

theorem Tree.ptr_eq_some_false {T : Tree K} {a : Nat} (h : a ∉ T.addrs) :
    (T.ptr = some a) = False := by
  simp [Tree.ptr_ne_of_not_mem h]

theorem ctxPtr_mem {ctx : Ctx K} {a : Nat} (h : ctxPtr ctx = some a) : a ∈ ctxAddrs ctx := by
  cases ctx with
  | nil => simp [ctxPtr] at h
  | cons f up =>
    simp only [ctxPtr, Option.some.injEq] at h
    subst h
    simp [ctxAddrs]

theorem ctxPtr_eq_some_false {ctx : Ctx K} {a : Nat} (h : a ∉ ctxAddrs ctx) :
    (ctxPtr ctx = some a) = False := by
  simp only [eq_iff_iff, iff_false]
  exact fun e => h (ctxPtr_mem e)

theorem Rep_of_agree {h h' : Heap K} {T : Tree K} {par : Ptr} (par' : Ptr)
    (hr : Rep h par T) (hnd : T.addrs.Nodup)
    (hag : ∀ x ∈ T.addrs, h'[x]? =
      (h[x]?).map (fun c => if T.ptr = some x then { c with parent := par' } else c)) :
    Rep h' par' T := by
  refine Rep_congr (h := updP h T.ptr (fun c => { c with parent := par' })) (fun x hx => ?_)
    (Rep_reparent par' hr hnd)
  rw [hag x hx, getElem?_updP]
  split
  · rfl
  · simp

theorem RepCtx_of_agree {h h' : Heap K} {ctx : Ctx K} {old : Ptr} (new : Ptr)
    (hr : RepCtx h old ctx) (hnd : (ctxAddrs ctx).Nodup)
    (hag : ∀ x ∈ ctxAddrs ctx, h'[x]? =
      (h[x]?).map (fun c => if ctxPtr ctx = some x then ctxSet ctx new c else c)) :
    RepCtx h' new ctx := by
  cases ctx with
  | nil => trivial
  | cons f up =>
    simp only [RepCtx] at hr ⊢
    simp only [ctxAddrs, List.cons_append, List.nodup_cons, List.mem_append, not_or] at hnd
    refine ⟨?_, Rep_congr (fun x hx => ?_) hr.2.1, RepCtx_congr (fun x hx => ?_) hr.2.2⟩
    · rw [hag f.a (by simp [ctxAddrs]), hr.1]
      cases hf : f.isLeft <;> simp [ctxPtr, ctxSet, hf]
    · rw [hag x (by simp [ctxAddrs, hx])]
      have : f.a ≠ x := by rintro rfl; exact hnd.1.1 hx
      simp [ctxPtr, this]
    · rw [hag x (by simp [ctxAddrs, hx])]
      have : f.a ≠ x := by rintro rfl; exact hnd.1.2 hx
      simp [ctxPtr, this]

/-! ## Reading the neighbourhood of a node -/

theorem direction_root {h : Heap K} {n : Nat} {x : RBNode K} (hx : h[n]? = some x)
    (hp : x.parent = none) : direction h (some n) = .ok .DirRoot := by
  simp [direction, load_some hx, hp, bind, Except.bind, pure, Except.pure]

theorem direction_left {h : Heap K} {n p : Nat} {x y : RBNode K} (hx : h[n]? = some x)
    (hp : x.parent = some p) (hy : h[p]? = some y) (hl : y.left = some n) :
    direction h (some n) = .ok .DirLeft := by
  simp [direction, load_some hx, hp, load_some hy, hl, bind, Except.bind, pure, Except.pure]

theorem direction_right {h : Heap K} {n p : Nat} {x y : RBNode K} (hx : h[n]? = some x)
    (hp : x.parent = some p) (hy : h[p]? = some y) (hl : y.left ≠ some n) :
    direction h (some n) = .ok .DirRight := by
  have : ¬ (some n = y.left) := fun e => hl e.symm
  simp [direction, load_some hx, hp, load_some hy, this, bind, Except.bind, pure, Except.pure]

theorem direction_ctx {h : Heap K} {ctx : Ctx K} {n : Nat} {x : RBNode K}
    (hx : h[n]? = some x) (hp : x.parent = ctxPtr ctx) (hc : RepCtx h (some n) ctx)
    (hn : n ∉ ctxAddrs ctx) : direction h (some n) = .ok (dirOf ctx) := by
  cases ctx with
  | nil => exact direction_root hx hp
  | cons f up =>
    simp only [RepCtx] at hc
    simp only [ctxAddrs, List.cons_append, List.mem_cons, List.mem_append, not_or] at hn
    cases hf : f.isLeft
    · simp only [dirOf, hf]
      refine direction_right hx hp hc.1 ?_
      simp only [hf]
      exact Tree.ptr_ne_of_not_mem hn.2.1
    · simp only [dirOf, hf]
      exact direction_left hx hp hc.1 (by simp [hf])

theorem maintain_eq {h : Heap K} {n : Nat} {x : RBNode K} (hx : h[n]? = some x)
    (hl : ∀ a, x.left = some a → a < h.length) (hr : ∀ a, x.right = some a → a < h.length) :
    maintainRelationship h (some n) =
      .ok (updP (updP h x.left (fun c => { c with parent := some n })) x.right
        (fun c => { c with parent := some n })) := by
  unfold maintainRelationship
  simp only [load_some hx, bind, Except.bind, pure, Except.pure]
  rcases hxl : x.left with _ | a
  · rcases hxr : x.right with _ | b
    · simp [updP]
    · simp [store_of_lt _ (hr b hxr), updP]
  · have hal := hl a hxl
    simp only [store_of_lt _ hal, updP]
    have : ∃ y, (upd h a fun c => { c with parent := some n })[n]? = some y ∧ y.right = x.right := by
      rw [getElem?_upd]
      by_cases han : a = n
      · subst han; simp [hx]
      · simp [han, hx]
    obtain ⟨y, hy, hyr⟩ := this
    simp only [load_some hy, hyr]
    rcases hxr : x.right with _ | b
    · simp
    · simp [store_of_lt _ (show b < (upd h a _).length by simpa using hr b hxr)]

theorem WF_plug {t : RBTree K} {ctx : Ctx K} {x : Tree K} :
    WF t (plug ctx x) ↔
      t.root = ctxRoot ctx x.ptr ∧ RepCtx t.heap x.ptr ctx ∧ Rep t.heap (ctxPtr ctx) x ∧
        (x.addrs ++ ctxAddrs ctx).Nodup := by
  constructor
  · intro hw
    exact ⟨hw.root.trans (plug_ptr ctx x), (Rep_plug.1 hw.rep).1, (Rep_plug.1 hw.rep).2,
      plug_nodup.1 hw.nodup⟩
  · rintro ⟨h1, h2, h3, h4⟩
    exact ⟨h1.trans (plug_ptr ctx x).symm, Rep_plug.2 ⟨h2, h3⟩, plug_nodup.2 h4⟩

end RBT

namespace RBT

variable {K : Type}

/-! ## Rotations -/

theorem leftRotate_spec {t : RBTree K} {ctx : Ctx K} {n s : Nat} {c cs : Color}
    {a b d : Tree K} {k ks : K}
    (hw : WF t (plug ctx (.node n c a k (.node s cs b ks d)))) :
    ∃ t', leftRotate t (some n) = .ok t' ∧
      WF t' (plug ctx (.node s cs (.node n c a k b) ks d)) ∧
      t'.cnt = t.cnt ∧ t'.heap.length = t.heap.length := by
  obtain ⟨hroot, hctx, hrep, hnd0⟩ := WF_plug.1 hw
  simp only [Rep, Tree.ptr_node] at hrep hroot hctx
  obtain ⟨hn, ha, hs, hb, hd⟩ := hrep
  have hnd := hnd0
  simp only [Tree.addrs, List.nodup_append, List.nodup_cons, List.disjoint_append_left,
    List.disjoint_append_right, List.disjoint_cons_left, List.disjoint_cons_right,
    List.mem_append, List.mem_cons, not_or] at hnd
  obtain ⟨⟨hA, ⟨⟨hnb, hns, hnd'⟩, hB, ⟨hsd, hD⟩, hsb, hbd⟩, hna, hab, hsa, had⟩,
    hC, hac, hnc, hbc, hsc, hdc⟩ := hnd
  have hltn : n < t.heap.length := (List.getElem?_eq_some.1 hn).1
  have hlts : s < t.heap.length := (List.getElem?_eq_some.1 hs).1
  have hpa : ∀ x, a.ptr = some x → x < t.heap.length := fun x hx => Rep_lt ha x (Tree.ptr_mem hx)
  have hpb : ∀ x, b.ptr = some x → x < t.heap.length := fun x hx => Rep_lt hb x (Tree.ptr_mem hx)
  have hpd : ∀ x, d.ptr = some x → x < t.heap.length := fun x hx => Rep_lt hd x (Tree.ptr_mem hx)
  have hpc : ∀ x, ctxPtr ctx = some x → x < t.heap.length :=
    fun x hx => RepCtx_lt hctx x (ctxPtr_mem hx)
  have hsn : s ≠ n := Ne.symm hns
  have e1 := Tree.ptr_eq_some_false hsa
  have e2 := Tree.ptr_eq_some_false hsb
  have e3 := Tree.ptr_eq_some_false hsd
  have e4 := Tree.ptr_eq_some_false hna
  have e5 := Tree.ptr_eq_some_false hnb
  have e6 := Tree.ptr_eq_some_false hnd'
  have e7 := ctxPtr_eq_some_false hnc
  have e8 := ctxPtr_eq_some_false hsc
  have hexec : leftRotate t (some n) = .ok
      { heap := upd (updP (updP (updP (updP (updP (upd (upd t.heap n
            (fun c => { c with right := b.ptr })) s
            (fun c => { c with left := some n })) a.ptr
            (fun c => { c with parent := some n })) b.ptr
            (fun c => { c with parent := some n })) (some n)
            (fun c => { c with parent := some s })) d.ptr
            (fun c => { c with parent := some s })) (ctxPtr ctx) (ctxSet ctx (some s))) s
            (fun c => { c with parent := ctxPtr ctx }),
        root := ctxRoot ctx (some s), cnt := t.cnt } := by
    unfold leftRotate
    simp only [load_some hn, load_some hs, direction_ctx hn rfl hctx hnc, bind, Except.bind, pure,
      Except.pure, store_of_lt _ hltn,
      store_of_lt _ (show s < (upd t.heap n _).length by simpa using hlts)]
    rw [maintain_eq (x := { Val := k, parent := ctxPtr ctx, left := a.ptr, right := b.ptr, color := c })
      (by simp [getElem?_upd, hns, hsn, hn]) (by simpa using hpa) (by simpa using hpb)]
    simp only []
    rw [maintain_eq (x := { Val := ks, parent := some n, left := some n, right := d.ptr, color := cs })
      (by simp [getElem?_upd, getElem?_updP, hns, hsn, hs, e1, e2])
      (by simpa using hltn) (by simpa using hpd)]
    cases ctx with
    | nil => simp [dirOf, ctxPtr, ctxSet, ctxRoot, store_of_lt, hlts]
    | cons f up =>
      have := hpc f.a rfl
      cases hf : f.isLeft <;>
        simp [dirOf, ctxPtr, ctxSet, ctxRoot, hf, store_of_lt, hlts, this, hroot]
  refine ⟨_, hexec, WF_plug.2 ⟨rfl, ?_, ?_, ?_⟩, rfl, by simp⟩
  · refine RepCtx_of_agree _ hctx hC (fun x hx => ?_)
    have h1 : n ≠ x := by rintro rfl; exact hnc hx
    have h2 : s ≠ x := by rintro rfl; exact hsc hx
    have h3 := Tree.ptr_eq_some_false (fun hm => hac hm hx)
    have h4 := Tree.ptr_eq_some_false (fun hm => hbc hm hx)
    have h5 := Tree.ptr_eq_some_false (fun hm => hdc hm hx)
    by_cases hcx : ctxPtr ctx = some x <;>
      simp [getElem?_upd, getElem?_updP, h1, h2, h3, h4, h5, hcx]
  · simp only [Rep, Tree.ptr_node]
    refine ⟨?_, ⟨?_, ?_, ?_⟩, ?_⟩
    · simp [getElem?_upd, getElem?_updP, hns, hsn, hs, e1, e2, e3, e8]
    · simp [getElem?_upd, getElem?_updP, hns, hsn, hn, e4, e5, e6, e7]
    · refine Rep_of_agree _ ha hA (fun x hx => ?_)
      have h1 : n ≠ x := by rintro rfl; exact hna hx
      have h2 : s ≠ x := by rintro rfl; exact hsa hx
      have h4 := Tree.ptr_eq_some_false (hab hx)
      have h5 := Tree.ptr_eq_some_false (had hx)
      have h6 := ctxPtr_eq_some_false (hac hx)
      by_cases hcx : a.ptr = some x <;>
        simp [getElem?_upd, getElem?_updP, h1, h2, h4, h5, h6, hcx]
    · refine Rep_of_agree _ hb hB (fun x hx => ?_)
      have h1 : n ≠ x := by rintro rfl; exact hnb hx
      have h2 : s ≠ x := by rintro rfl; exact hsb hx
      have h4 := Tree.ptr_eq_some_false (fun hm => hab hm hx)
      have h5 := Tree.ptr_eq_some_false (hbd hx)
      have h6 := ctxPtr_eq_some_false (hbc hx)
      by_cases hcx : b.ptr = some x <;>
        simp [getElem?_upd, getElem?_updP, h1, h2, h4, h5, h6, hcx]
    · refine Rep_of_agree _ hd hD (fun x hx => ?_)
      have h1 : n ≠ x := by rintro rfl; exact hnd' hx
      have h2 : s ≠ x := by rintro rfl; exact hsd hx
      have h4 := Tree.ptr_eq_some_false (fun hm => had hm hx)
      have h5 := Tree.ptr_eq_some_false (fun hm => hbd hm hx)
      have h6 := ctxPtr_eq_some_false (hdc hx)
      by_cases hcx : d.ptr = some x <;>
        simp [getElem?_upd, getElem?_updP, h1, h2, h4, h5, h6, hcx]
  · simpa [Tree.addrs] using hnd0

theorem rightRotate_spec {t : RBTree K} {ctx : Ctx K} {n s : Nat} {c cs : Color}
    {a b d : Tree K} {k ks : K}
    (hw : WF t (plug ctx (.node n c (.node s cs a ks b) k d))) :
    ∃ t', rightRotate t (some n) = .ok t' ∧
      WF t' (plug ctx (.node s cs a ks (.node n c b k d))) ∧
      t'.cnt = t.cnt ∧ t'.heap.length = t.heap.length := by
  obtain ⟨hroot, hctx, hrep, hnd0⟩ := WF_plug.1 hw
  simp only [Rep, Tree.ptr_node] at hrep hroot hctx
  obtain ⟨hn, ⟨hs, ha, hb⟩, hd⟩ := hrep
  have hnd := hnd0
  simp only [Tree.addrs, List.nodup_append, List.nodup_cons, List.disjoint_append_left,
    List.disjoint_append_right, List.disjoint_cons_left, List.disjoint_cons_right,
    List.mem_append, List.mem_cons, not_or] at hnd
  obtain ⟨⟨⟨hA, ⟨hsb, hB⟩, hsa, hab⟩, ⟨hnd', hD⟩, ⟨hna, hns, hnb⟩, had, hsd, hbd⟩,
    hC, ⟨hac, hsc, hbc⟩, hnc, hdc⟩ := hnd
  have hltn : n < t.heap.length := (List.getElem?_eq_some.1 hn).1
  have hlts : s < t.heap.length := (List.getElem?_eq_some.1 hs).1
  have hpa : ∀ x, a.ptr = some x → x < t.heap.length := fun x hx => Rep_lt ha x (Tree.ptr_mem hx)
  have hpb : ∀ x, b.ptr = some x → x < t.heap.length := fun x hx => Rep_lt hb x (Tree.ptr_mem hx)
  have hpd : ∀ x, d.ptr = some x → x < t.heap.length := fun x hx => Rep_lt hd x (Tree.ptr_mem hx)
  have hpc : ∀ x, ctxPtr ctx = some x → x < t.heap.length :=
    fun x hx => RepCtx_lt hctx x (ctxPtr_mem hx)
  have hsn : s ≠ n := Ne.symm hns
  have e1 := Tree.ptr_eq_some_false hsa
  have e2 := Tree.ptr_eq_some_false hsb
  have e3 := Tree.ptr_eq_some_false hsd
  have e4 := Tree.ptr_eq_some_false hna
  have e5 := Tree.ptr_eq_some_false hnb
  have e6 := Tree.ptr_eq_some_false hnd'
  have e7 := ctxPtr_eq_some_false hnc
  have e8 := ctxPtr_eq_some_false hsc
  have hexec : rightRotate t (some n) = .ok
      { heap := upd (updP (updP (updP (updP (updP (upd (upd t.heap n
            (fun c => { c with left := b.ptr })) s
            (fun c => { c with right := some n })) b.ptr
            (fun c => { c with parent := some n })) d.ptr
            (fun c => { c with parent := some n })) a.ptr
            (fun c => { c with parent := some s })) (some n)
            (fun c => { c with parent := some s })) (ctxPtr ctx) (ctxSet ctx (some s))) s
            (fun c => { c with parent := ctxPtr ctx }),
        root := ctxRoot ctx (some s), cnt := t.cnt } := by
    unfold rightRotate
    simp only [load_some hn, load_some hs, direction_ctx hn rfl hctx hnc, bind, Except.bind, pure,
      Except.pure, store_of_lt _ hltn,
      store_of_lt _ (show s < (upd t.heap n _).length by simpa using hlts)]
    rw [maintain_eq (x := { Val := k, parent := ctxPtr ctx, left := b.ptr, right := d.ptr, color := c })
      (by simp [getElem?_upd, hns, hsn, hn]) (by simpa using hpb) (by simpa using hpd)]
    simp only []
    rw [maintain_eq (x := { Val := ks, parent := some n, left := a.ptr, right := some n, color := cs })
      (by simp [getElem?_upd, getElem?_updP, hns, hsn, hs, e2, e3])
      (by simpa using hpa) (by simpa using hltn)]
    cases ctx with
    | nil => simp [dirOf, ctxPtr, ctxSet, ctxRoot, store_of_lt, hlts]
    | cons f up =>
      have := hpc f.a rfl
      cases hf : f.isLeft <;>
        simp [dirOf, ctxPtr, ctxSet, ctxRoot, hf, store_of_lt, hlts, this, hroot]
  refine ⟨_, hexec, WF_plug.2 ⟨rfl, ?_, ?_, ?_⟩, rfl, by simp⟩
  · refine RepCtx_of_agree _ hctx hC (fun x hx => ?_)
    have h1 : n ≠ x := by rintro rfl; exact hnc hx
    have h2 : s ≠ x := by rintro rfl; exact hsc hx
    have h3 := Tree.ptr_eq_some_false (fun hm => hac hm hx)
    have h4 := Tree.ptr_eq_some_false (fun hm => hbc hm hx)
    have h5 := Tree.ptr_eq_some_false (fun hm => hdc hm hx)
    by_cases hcx : ctxPtr ctx = some x <;>
      simp [getElem?_upd, getElem?_updP, h1, h2, h3, h4, h5, hcx]
  · simp only [Rep, Tree.ptr_node]
    refine ⟨?_, ?_, ⟨?_, ?_, ?_⟩⟩
    · simp [getElem?_upd, getElem?_updP, hns, hsn, hs, e1, e2, e3, e8]
    · refine Rep_of_agree _ ha hA (fun x hx => ?_)
      have h1 : n ≠ x := by rintro rfl; exact hna hx
      have h2 : s ≠ x := by rintro rfl; exact hsa hx
      have h4 := Tree.ptr_eq_some_false (hab hx)
      have h5 := Tree.ptr_eq_some_false (had hx)
      have h6 := ctxPtr_eq_some_false (hac hx)
      by_cases hcx : a.ptr = some x <;>
        simp [getElem?_upd, getElem?_updP, h1, h2, h4, h5, h6, hcx]
    · simp [getElem?_upd, getElem?_updP, hns, hsn, hn, e4, e5, e6, e7]
    · refine Rep_of_agree _ hb hB (fun x hx => ?_)
      have h1 : n ≠ x := by rintro rfl; exact hnb hx
      have h2 : s ≠ x := by rintro rfl; exact hsb hx
      have h4 := Tree.ptr_eq_some_false (fun hm => hab hm hx)
      have h5 := Tree.ptr_eq_some_false (hbd hx)
      have h6 := ctxPtr_eq_some_false (hbc hx)
      by_cases hcx : b.ptr = some x <;>
        simp [getElem?_upd, getElem?_updP, h1, h2, h4, h5, h6, hcx]
    · refine Rep_of_agree _ hd hD (fun x hx => ?_)
      have h1 : n ≠ x := by rintro rfl; exact hnd' hx
      have h2 : s ≠ x := by rintro rfl; exact hsd hx
      have h4 := Tree.ptr_eq_some_false (fun hm => had hm hx)
      have h5 := Tree.ptr_eq_some_false (fun hm => hbd hm hx)
      have h6 := ctxPtr_eq_some_false (hdc hx)
      by_cases hcx : d.ptr = some x <;>
        simp [getElem?_upd, getElem?_updP, h1, h2, h4, h5, h6, hcx]
  · simpa [Tree.addrs] using hnd0

end RBT

namespace RBT

variable {K : Type}

/-! ## Lookup and traversal -/

theorem Rep_shaped {h : Heap K} : ∀ {T : Tree K} {par : Ptr}, Rep h par T → Shaped h T
  | .nil, _, _ => trivial
  | .node a c l k r, par, hr => by
    simp only [Rep] at hr
    exact ⟨⟨_, hr.1, rfl, rfl, rfl, rfl⟩, Rep_shaped hr.2.1, Rep_shaped hr.2.2⟩

theorem Shaped_lt {h : Heap K} : ∀ {T : Tree K}, Shaped h T → ∀ a ∈ T.addrs, a < h.length
  | .nil, _, a, ha => by simp [Tree.addrs] at ha
  | .node b c l k r, hs, a, ha => by
    simp only [Shaped] at hs
    simp only [Tree.addrs, List.mem_append, List.mem_cons] at ha
    rcases ha with ha | ha | ha
    · exact Shaped_lt hs.2.1 a ha
    · subst ha
      obtain ⟨x, hx, _⟩ := hs.1
      exact (List.getElem?_eq_some.1 hx).1
    · exact Shaped_lt hs.2.2 a ha

theorem Tree.length_addrs : ∀ T : Tree K, T.addrs.length = T.size
  | .nil => rfl
  | .node a c l k r => by
    simp [Tree.addrs, Tree.size, Tree.length_addrs l, Tree.length_addrs r]
    omega

theorem Tree.length_toList : ∀ T : Tree K, T.toList.length = T.size
  | .nil => rfl
  | .node a c l k r => by
    simp [Tree.toList, Tree.size, Tree.length_toList l, Tree.length_toList r]
    omega

theorem Tree.height_le_size : ∀ T : Tree K, T.height ≤ T.size
  | .nil => Nat.le_refl _
  | .node a c l k r => by
    have h1 := Tree.height_le_size l
    have h2 := Tree.height_le_size r
    simp only [Tree.height, Tree.size]
    omega

theorem length_le_of_nodup_lt {l : List Nat} {n : Nat} (hnd : l.Nodup) (hlt : ∀ x ∈ l, x < n) :
    l.length ≤ n := by
  have := (List.subperm_of_subset hnd (fun x hx => List.mem_range.2 (hlt x hx))).length_le
  simpa using this

theorem Shaped_size_le {h : Heap K} {T : Tree K} (hs : Shaped h T) (hnd : T.addrs.Nodup) :
    T.size ≤ h.length := by
  rw [← Tree.length_addrs]
  exact length_le_of_nodup_lt hnd (Shaped_lt hs)

theorem Shaped_height_lt {h : Heap K} {T : Tree K} (hs : Shaped h T) (hnd : T.addrs.Nodup) :
    T.height < h.length + 1 :=
  Nat.lt_succ_of_le ((Tree.height_le_size T).trans (Shaped_size_le hs hnd))

theorem Tree.ptr_eq_none {T : Tree K} : T.ptr = none ↔ T = .nil := by
  cases T <;> simp

theorem search_spec [LinearOrder K] {h : Heap K} (v : K) :
    ∀ {T : Tree K} {f : Nat}, Shaped h T → T.height < f → search f h T.ptr v = .ok (T.lookup v)
  | .nil, f, _, hf => by
    obtain ⟨f, rfl⟩ : ∃ g, f = g + 1 := ⟨f - 1, by omega⟩
    rfl
  | .node a c l k r, f, hs, hf => by
    obtain ⟨f, rfl⟩ : ∃ g, f = g + 1 := ⟨f - 1, by omega⟩
    simp only [Shaped] at hs
    obtain ⟨⟨x, hx, hv, hl, hr, hc⟩, hsl, hsr⟩ := hs
    simp only [Tree.height] at hf
    have h1 : l.height < f := by omega
    have h2 : r.height < f := by omega
    simp only [search, Tree.ptr_node, load_some hx, bind, Except.bind, pure, Except.pure,
      Tree.lookup, hv, hl, hr]
    by_cases hkv : k = v
    · simp [hkv]
    · simp only [hkv, if_false]
      by_cases hlt : k < v
      · simp only [hlt, if_true]
        exact search_spec v hsr h2
      · simp only [hlt, if_false]
        exact search_spec v hsl h1

theorem inOrder_spec {h : Heap K} :
    ∀ {T : Tree K} {f : Nat} (res : List K), Shaped h T → T.height < f →
      inOrder f h T.ptr res = .ok (res ++ T.toList)
  | .nil, f, res, _, hf => by
    obtain ⟨f, rfl⟩ : ∃ g, f = g + 1 := ⟨f - 1, by omega⟩
    simp [inOrder, Tree.toList, pure, Except.pure]
  | .node a c l k r, f, res, hs, hf => by
    obtain ⟨f, rfl⟩ : ∃ g, f = g + 1 := ⟨f - 1, by omega⟩
    simp only [Shaped] at hs
    obtain ⟨⟨x, hx, hv, hl, hr, hc⟩, hsl, hsr⟩ := hs
    simp only [Tree.height] at hf
    have h1 : l.height < f := by omega
    have h2 : r.height < f := by omega
    have e1 : ∀ res1, inOrder f h l.ptr res1 = .ok (res1 ++ l.toList) :=
      fun res1 => inOrder_spec res1 hsl h1
    have e2 : ∀ res2, inOrder f h r.ptr res2 = .ok (res2 ++ r.toList) :=
      fun res2 => inOrder_spec res2 hsr h2
    simp only [inOrder, Tree.ptr_node, load_some hx, bind, Except.bind, hv, hl, hr]
    cases l <;> cases r <;>
      simp_all [Tree.toList, pure, Except.pure]

theorem lookup_mem_iff [LinearOrder K] (v : K) :
    ∀ {T : Tree K}, T.BST → ((T.lookup v).2 = true ↔ v ∈ T.toList)
  | .nil, _ => by simp [Tree.lookup, Tree.toList]
  | .node a c l k r, hb => by
    simp only [Tree.BST] at hb
    obtain ⟨hl, hr, hbl, hbr⟩ := hb
    simp only [Tree.lookup, Tree.toList, List.mem_append, List.mem_cons]
    by_cases hkv : k = v
    · simp [hkv]
    · simp only [hkv, if_false]
      by_cases hlt : k < v
      · simp only [hlt, if_true, lookup_mem_iff v hbr]
        constructor
        · exact fun hm => Or.inr (Or.inr hm)
        · rintro (hm | hm | hm)
          · exact absurd (hl v hm) (not_lt.2 hlt.le)
          · exact absurd hm.symm hkv
          · exact hm
      · simp only [hlt, if_false, lookup_mem_iff v hbl]
        constructor
        · exact fun hm => Or.inl hm
        · rintro (hm | hm | hm)
          · exact hm
          · exact absurd hm.symm hkv
          · exact absurd (hr v hm) hlt

theorem lookup_found [LinearOrder K] {h : Heap K} (v : K) :
    ∀ {T : Tree K}, Shaped h T → (T.lookup v).2 = true →
      ∃ x, load h (T.lookup v).1 = .ok x ∧ x.Val = v
  | .nil, _, hf => by simp [Tree.lookup] at hf
  | .node a c l k r, hs, hf => by
    simp only [Shaped] at hs
    obtain ⟨⟨x, hx, hv, _⟩, hsl, hsr⟩ := hs
    simp only [Tree.lookup] at hf ⊢
    by_cases hkv : k = v
    · simp only [hkv, if_true]
      exact ⟨x, load_some hx, hv.trans hkv⟩
    · simp only [hkv, if_false] at hf ⊢
      by_cases hlt : k < v
      · simp only [hlt, if_true] at hf ⊢
        exact lookup_found v hsr hf
      · simp only [hlt, if_false] at hf ⊢
        exact lookup_found v hsl hf

theorem lookup_absent [LinearOrder K] (v : K) :
    ∀ {T : Tree K}, (T.lookup v).2 = false → (T.lookup v).1 = none
  | .nil, _ => rfl
  | .node a c l k r, hf => by
    simp only [Tree.lookup] at hf ⊢
    by_cases hkv : k = v
    · simp [hkv] at hf
    · simp only [hkv, if_false] at hf ⊢
      by_cases hlt : k < v
      · simp only [hlt, if_true] at hf ⊢
        exact lookup_absent v hf
      · simp only [hlt, if_false] at hf ⊢
        exact lookup_absent v hf

end RBT

namespace RBT

variable {K : Type}

/-! ## Deleting a key that is not found -/

theorem updP_reparent_same {h : Heap K} {T : Tree K} {par : Ptr} (hr : Rep h par T) :
    updP h T.ptr (fun c => { c with parent := par }) = h := by
  cases T with
  | nil => rfl
  | node a c l k r =>
    simp only [Rep] at hr
    exact upd_same hr.1 rfl

theorem maintain_noop {h : Heap K} {a : Nat} {c : Color} {l r : Tree K} {k : K} {par : Ptr}
    (hr : Rep h par (.node a c l k r)) : maintainRelationship h (some a) = .ok h := by
  have hr' := hr
  simp only [Rep] at hr'
  rw [maintain_eq hr'.1 (fun x hx => Rep_lt hr'.2.1 x (Tree.ptr_mem hx))
    (fun x hx => Rep_lt hr'.2.2 x (Tree.ptr_mem hx))]
  simp only [updP_reparent_same hr'.2.1, updP_reparent_same hr'.2.2]

theorem delete_absent [LinearOrder K] (t : RBTree K) (v : K) :
    ∀ {T : Tree K} {par : Ptr} {f : Nat}, Rep t.heap par T → T.height < f →
      (T.lookup v).2 = false → delete f t T.ptr v = .ok t
  | .nil, _, f, _, hf, _ => by
    obtain ⟨f, rfl⟩ : ∃ g, f = g + 1 := ⟨f - 1, by omega⟩
    rfl
  | .node a c l k r, par, f, hr, hf, hl => by
    obtain ⟨f, rfl⟩ : ∃ g, f = g + 1 := ⟨f - 1, by omega⟩
    have hr' := hr
    simp only [Rep] at hr'
    obtain ⟨hx, hrl, hrr⟩ := hr'
    simp only [Tree.height] at hf
    have h1 : l.height < f := by omega
    have h2 : r.height < f := by omega
    simp only [Tree.lookup] at hl
    have hkv : k ≠ v := by
      intro e
      simp [e] at hl
    simp only [hkv, if_false] at hl
    simp only [delete, Tree.ptr_node, load_some hx, bind, Except.bind, pure, Except.pure, ne_eq,
      hkv, not_false_eq_true, if_true]
    by_cases hlt : k < v
    · simp only [hlt, if_true] at hl
      have : ¬ v < k := not_lt.2 hlt.le
      simp only [this, if_false, delete_absent t v hrr h2 hl, maintain_noop hr]
    · simp only [hlt, if_false] at hl
      have : v < k := lt_of_le_of_ne (not_lt.1 hlt) (Ne.symm hkv)
      simp only [this, if_true, delete_absent t v hrl h1 hl, maintain_noop hr]

end RBT

namespace RBT

variable {K : Type}

/-! ## Recolouring -/

theorem setColor_eq {t : RBTree K} {a : Nat} (c : Color) (hlt : a < t.heap.length) :
    setColor t (some a) c =
      .ok { t with heap := upd t.heap a (fun x => { x with color := c }) } := by
  simp [setColor, store_of_lt _ hlt, bind, Except.bind, pure, Except.pure]

theorem RepCtx_upd_of_not_mem {h : Heap K} {ctx : Ctx K} {hole : Ptr} {a : Nat}
    (f : RBNode K → RBNode K) (ha : a ∉ ctxAddrs ctx) (hr : RepCtx h hole ctx) :
    RepCtx (upd h a f) hole ctx := by
  refine RepCtx_congr (fun b hb => ?_) hr
  apply getElem?_upd_ne
  rintro rfl
  exact ha hb

theorem WF_recolor {t : RBTree K} {ctx : Ctx K} {a : Nat} {c : Color} {l r : Tree K} {k : K}
    (c' : Color) (hw : WF t (plug ctx (.node a c l k r))) :
    WF { t with heap := upd t.heap a (fun x => { x with color := c' }) }
      (plug ctx (.node a c' l k r)) := by
  obtain ⟨hroot, hctx, hrep, hnd⟩ := WF_plug.1 hw
  refine WF_plug.2 ⟨hroot, ?_, ?_, hnd⟩
  · simp only [Tree.addrs, List.nodup_append, List.nodup_cons, List.disjoint_append_left,
      List.disjoint_cons_left, List.mem_append, List.mem_cons, not_or] at hnd
    exact RepCtx_upd_of_not_mem _ hnd.2.2.2.1 hctx
  · simp only [Rep] at hrep ⊢
    simp only [Tree.addrs, List.nodup_append, List.nodup_cons, List.disjoint_append_left,
      List.disjoint_cons_left, List.disjoint_cons_right, List.mem_append, List.mem_cons,
      not_or] at hnd
    refine ⟨by simp [hrep.1], Rep_upd_of_not_mem _ ?_ hrep.2.1, Rep_upd_of_not_mem _ ?_ hrep.2.2⟩
    · exact hnd.1.2.2.1
    · exact hnd.1.2.1.1

theorem WF_recolor_top {t : RBTree K} {a : Nat} {c : Color} {l r : Tree K} {k : K}
    (c' : Color) (hw : WF t (.node a c l k r)) :
    WF { t with heap := upd t.heap a (fun x => { x with color := c' }) } (.node a c' l k r) :=
  WF_recolor c' (show WF t (plug [] (.node a c l k r)) from hw)

/-! ## Reading the neighbourhood of a node of a well-formed tree -/

@[simp] theorem plug_nil (x : Tree K) : plug [] x = x := rfl

@[simp] theorem plug_cons (f : Frame K) (up : Ctx K) (x : Tree K) :
    plug (f :: up) x = plug up (f.fill x) := rfl

@[simp] theorem fill_left (a : Nat) (c : Color) (k : K) (s x : Tree K) :
    Frame.fill { isLeft := true, a := a, c := c, k := k, sib := s } x = .node a c x k s := rfl

@[simp] theorem fill_right (a : Nat) (c : Color) (k : K) (s x : Tree K) :
    Frame.fill { isLeft := false, a := a, c := c, k := k, sib := s } x = .node a c s k x := rfl

theorem wf_cell {t : RBTree K} {ctx : Ctx K} {a : Nat} {c : Color} {l r : Tree K} {k : K}
    (hw : WF t (plug ctx (.node a c l k r))) :
    t.heap[a]? = some { Val := k, parent := ctxPtr ctx, left := l.ptr, right := r.ptr, color := c } := by
  have := (WF_plug.1 hw).2.2.1
  simp only [Rep] at this
  exact this.1

theorem wf_lt {t : RBTree K} {ctx : Ctx K} {a : Nat} {c : Color} {l r : Tree K} {k : K}
    (hw : WF t (plug ctx (.node a c l k r))) : a < t.heap.length :=
  (List.getElem?_eq_some.1 (wf_cell hw)).1

theorem wf_load {t : RBTree K} {ctx : Ctx K} {a : Nat} {c : Color} {l r : Tree K} {k : K}
    (hw : WF t (plug ctx (.node a c l k r))) :
    load t.heap (some a) =
      .ok { Val := k, parent := ctxPtr ctx, left := l.ptr, right := r.ptr, color := c } :=
  load_some (wf_cell hw)

theorem wf_not_mem {t : RBTree K} {ctx : Ctx K} {a : Nat} {c : Color} {l r : Tree K} {k : K}
    (hw : WF t (plug ctx (.node a c l k r))) : a ∉ ctxAddrs ctx := by
  have := (WF_plug.1 hw).2.2.2
  simp only [Tree.addrs, List.nodup_append, List.nodup_cons, List.disjoint_append_left,
    List.disjoint_cons_left, List.mem_append, List.mem_cons, not_or] at this
  exact this.2.2.2.1

theorem wf_direction {t : RBTree K} {ctx : Ctx K} {a : Nat} {c : Color} {l r : Tree K} {k : K}
    (hw : WF t (plug ctx (.node a c l k r))) : direction t.heap (some a) = .ok (dirOf ctx) :=
  direction_ctx (wf_cell hw) rfl (WF_plug.1 hw).2.1 (wf_not_mem hw)

theorem wf_isRoot {t : RBTree K} {ctx : Ctx K} {a : Nat} {c : Color} {l r : Tree K} {k : K}
    (hw : WF t (plug ctx (.node a c l k r))) :
    isRoot t.heap (some a) = .ok (ctxPtr ctx == none) := by
  simp [isRoot, wf_load hw, bind, Except.bind, pure, Except.pure]

theorem wf_isBlack {t : RBTree K} {ctx : Ctx K} {a : Nat} {c : Color} {l r : Tree K} {k : K}
    (hw : WF t (plug ctx (.node a c l k r))) :
    isBlack t.heap (some a) = .ok (c == .Black) := by
  simp [isBlack, wf_load hw, bind, Except.bind, pure, Except.pure]

theorem wf_isRed {t : RBTree K} {ctx : Ctx K} {a : Nat} {c : Color} {l r : Tree K} {k : K}
    (hw : WF t (plug ctx (.node a c l k r))) :
    isRed t.heap (some a) = .ok (c == .Red) := by
  simp [isRed, wf_load hw, bind, Except.bind, pure, Except.pure]

theorem wf_parent_cell {t : RBTree K} {f : Frame K} {up : Ctx K} {x : Tree K}
    (hw : WF t (plug (f :: up) x)) :
    t.heap[f.a]? = some { Val := f.k, parent := ctxPtr up,
                          left := if f.isLeft then x.ptr else f.sib.ptr,
                          right := if f.isLeft then f.sib.ptr else x.ptr,
                          color := f.c } := by
  have := (WF_plug.1 hw).2.1
  simp only [RepCtx] at this
  exact this.1

theorem wf_sibling {t : RBTree K} {f : Frame K} {up : Ctx K} {a : Nat} {c : Color}
    {l r : Tree K} {k : K} (hw : WF t (plug (f :: up) (.node a c l k r))) :
    sibling t.heap (some a) = .ok f.sib.ptr := by
  have hp := wf_parent_cell hw
  simp only [sibling, wf_direction hw, wf_load hw, ctxPtr, load_some hp, bind, Except.bind,
    pure, Except.pure, dirOf]
  cases hf : f.isLeft <;> simp

theorem wf_grandParent {t : RBTree K} {f : Frame K} {up : Ctx K} {a : Nat} {c : Color}
    {l r : Tree K} {k : K} (hw : WF t (plug (f :: up) (.node a c l k r))) :
    grandParent t.heap (some a) = .ok (ctxPtr up) := by
  have hp := wf_parent_cell hw
  simp [grandParent, wf_load hw, ctxPtr, load_some hp, bind, Except.bind, pure, Except.pure]

theorem Frame.fill_eq (f : Frame K) (x : Tree K) :
    f.fill x = .node f.a f.c (if f.isLeft then x else f.sib) f.k (if f.isLeft then f.sib else x) := by
  unfold Frame.fill
  cases f.isLeft <;> simp

theorem wf_hasSibling {t : RBTree K} {ctx : Ctx K} {a : Nat} {c : Color}
    {l r : Tree K} {k : K} (hw : WF t (plug ctx (.node a c l k r))) :
    hasSibling t.heap (some a) =
      .ok (match ctx with
        | [] => false
        | f :: _ => f.sib.ptr != none) := by
  cases ctx with
  | nil => simp [hasSibling, wf_isRoot hw, ctxPtr, bind, Except.bind, pure, Except.pure]
  | cons f up =>
    simp [hasSibling, wf_isRoot hw, wf_sibling hw, ctxPtr, bind, Except.bind, pure, Except.pure]

theorem wf_uncle {t : RBTree K} {p g : Frame K} {up : Ctx K} {a : Nat} {c : Color}
    {l r : Tree K} {k : K} (hw : WF t (plug (p :: g :: up) (.node a c l k r))) :
    uncle t.heap (some a) = .ok g.sib.ptr := by
  have hw' : WF t (plug (g :: up) (.node p.a p.c (if p.isLeft then .node a c l k r else p.sib) p.k
      (if p.isLeft then p.sib else .node a c l k r))) := by
    rw [← Frame.fill_eq]; exact hw
  simp [uncle, wf_load hw, ctxPtr, wf_sibling hw', bind, Except.bind]

theorem wf_hasUncle {t : RBTree K} {p g : Frame K} {up : Ctx K} {a : Nat} {c : Color}
    {l r : Tree K} {k : K} (hw : WF t (plug (p :: g :: up) (.node a c l k r))) :
    hasUncle t.heap (some a) = .ok (g.sib.ptr != none) := by
  have hw' : WF t (plug (g :: up) (.node p.a p.c (if p.isLeft then .node a c l k r else p.sib) p.k
      (if p.isLeft then p.sib else .node a c l k r))) := by
    rw [← Frame.fill_eq]; exact hw
  simp [hasUncle, wf_isRoot hw, wf_load hw, ctxPtr, wf_hasSibling hw', bind, Except.bind, pure,
    Except.pure]

theorem wf_setColor {t : RBTree K} {ctx : Ctx K} {a : Nat} {c : Color} {l r : Tree K} {k : K}
    (c' : Color) (hw : WF t (plug ctx (.node a c l k r))) :
    ∃ t', setColor t (some a) c' = .ok t' ∧ WF t' (plug ctx (.node a c' l k r)) ∧
      t'.cnt = t.cnt ∧ t'.heap.length = t.heap.length :=
  ⟨_, setColor_eq c' (wf_lt hw), WF_recolor c' hw, rfl, by simp⟩

end RBT

namespace RBT

variable {K : Type}

theorem insFix_black {p g : Frame K} {up : Ctx K} {x : Tree K} (hp : p.c = .Black) :
    insFix (p :: g :: up) x = plug (p :: g :: up) x := by
  simp [insFix, hp]

theorem insFix_rotate {p g : Frame K} {up : Ctx K} {x : Tree K} (hp : p.c = .Red)
    (hg : g.sib.isRed = false) :
    insFix (p :: g :: up) x = plug up (insRotate p g x) := by
  rcases hs : g.sib with _ | ⟨u, cu, ul, uk, ur⟩
  · simp [insFix, hp, hs]
  · cases cu
    · simp [hs, Tree.isRed] at hg
    · simp [insFix, hp, hs]

theorem insFix_recolor {p g : Frame K} {up : Ctx K} {x : Tree K} {u : Nat} {ul ur : Tree K} {uk : K}
    (hp : p.c = .Red) (hg : g.sib = .node u .Red ul uk ur) :
    insFix (p :: g :: up) x =
      insFix up ({ g with c := .Red, sib := .node u .Black ul uk ur }.fill
          ({ p with c := .Black }.fill x)) := by
  simp [insFix, hp, hg]

theorem plug_swap (g : Frame K) (up : Ctx K) (y : Tree K) :
    plug (g :: up) y =
      plug ({ isLeft := !g.isLeft, a := g.a, c := g.c, k := g.k, sib := y } :: up) g.sib := by
  obtain ⟨gl, ga, gc, gk, gs⟩ := g
  cases gl <;> rfl

theorem WF_recolor_frame {t : RBTree K} {f : Frame K} {up : Ctx K} {x : Tree K}
    (c' : Color) (hw : WF t (plug (f :: up) x)) :
    WF { t with heap := upd t.heap f.a (fun y => { y with color := c' }) }
      (plug ({ f with c := c' } :: up) x) := by
  rw [plug_cons, Frame.fill_eq] at hw ⊢
  exact WF_recolor c' hw

theorem wf_frame_lt {t : RBTree K} {f : Frame K} {up : Ctx K} {x : Tree K}
    (hw : WF t (plug (f :: up) x)) : f.a < t.heap.length := by
  rw [plug_cons, Frame.fill_eq] at hw
  exact wf_lt hw

theorem rep_isBlack_ptr {t : RBTree K} {g : Frame K} {up : Ctx K} {y : Tree K}
    (hw : WF t (plug (g :: up) y)) (hg : g.sib.isRed = false) (hne : g.sib.ptr ≠ none) :
    isBlack t.heap g.sib.ptr = .ok true := by
  rw [plug_swap] at hw
  rcases hs : g.sib with _ | ⟨u, cu, ul, uk, ur⟩
  · simp [hs] at hne
  · cases cu
    · simp [hs, Tree.isRed] at hg
    · rw [hs] at hw
      simpa using wf_isBlack hw

theorem insertFixUp_rotate {t : RBTree K} {p g : Frame K} {up : Ctx K} {fuel n : Nat}
    {cn : Color} {l r : Tree K} {k : K}
    (hw : WF t (plug (p :: g :: up) (.node n cn l k r))) (hp : p.c = .Red)
    (hg : g.sib.isRed = false) :
    ∃ t', insertFixUp (fuel + 1) t (some n) = .ok t' ∧
      WF t' (plug up (insRotate p g (.node n cn l k r))) ∧
      t'.cnt = t.cnt ∧ t'.heap.length = t.heap.length := by
  obtain ⟨pl, pa, pc, pk, ps⟩ := p
  obtain ⟨gl, ga, gc, gk, gs⟩ := g
  simp only at hp hg
  subst hp
  have hwp := hw
  rw [plug_cons, Frame.fill_eq] at hwp
  simp only [] at hwp
  have hwg0 := hw
  rw [plug_cons] at hwg0
  have hib : gs.ptr ≠ none → isBlack t.heap gs.ptr = .ok true :=
    rep_isBlack_ptr (g := ⟨gl, ga, gc, gk, gs⟩) hwg0 hg
  cases gl <;> cases pl
  · -- parent is a right child, node is a right child
    have hwg : WF t (plug up (.node ga gc gs gk (.node pa .Red ps pk (.node n cn l k r)))) := hw
    obtain ⟨t2, hr2, hw2, hc2, hl2⟩ := leftRotate_spec hwg
    have hw2n : WF t2 (plug ({ isLeft := false, a := pa, c := .Red, k := pk, sib := .node ga gc gs gk ps } :: up) (.node n cn l k r)) := hw2
    obtain ⟨t3, hr3, hw3, hc3, hl3⟩ := wf_setColor .Black hw2
    have hw3n : WF t3 (plug ({ isLeft := false, a := pa, c := .Black, k := pk, sib := .node ga gc gs gk ps } :: up) (.node n cn l k r)) := hw3
    have hw3g : WF t3 (plug ({ isLeft := true, a := pa, c := .Black, k := pk, sib := .node n cn l k r } :: up) (.node ga gc gs gk ps)) := hw3
    obtain ⟨t4, hr4, hw4, hc4, hl4⟩ := wf_setColor .Red hw3g
    refine ⟨t4, ?_, hw4, by omega, by omega⟩
    rw [insertFixUp]
    by_cases hne : gs.ptr = none
    · simp [wf_isRoot hw, wf_load hw, ctxPtr, wf_isBlack hwp, wf_isRoot hwp,
        wf_hasUncle hw, wf_uncle hw, wf_direction hw, wf_direction hwp, dirOf, wf_grandParent hw,
        hr2, wf_load hw2n, hr3, wf_sibling hw3n, hr4, hne,
        bind, Except.bind, pure, Except.pure]
    · simp [wf_isRoot hw, wf_load hw, ctxPtr, wf_isBlack hwp, wf_isRoot hwp,
        wf_hasUncle hw, wf_uncle hw, wf_direction hw, wf_direction hwp, dirOf, wf_grandParent hw,
        hr2, wf_load hw2n, hr3, wf_sibling hw3n, hr4, hne, hib hne,
        bind, Except.bind, pure, Except.pure]
  · -- parent is a right child, node is a left child
    have hwp' : WF t (plug ({ isLeft := false, a := ga, c := gc, k := gk, sib := gs } :: up) (.node pa .Red (.node n cn l k r) pk ps)) := hw
    obtain ⟨t1, hr1, hw1, hc1, hl1⟩ := rightRotate_spec hwp'
    have hw1p : WF t1 (plug ({ isLeft := false, a := n, c := cn, k := k, sib := l } :: { isLeft := false, a := ga, c := gc, k := gk, sib := gs } :: up) (.node pa .Red r pk ps)) := hw1
    have hw1g : WF t1 (plug up (.node ga gc gs gk (.node n cn l k (.node pa .Red r pk ps)))) := hw1
    obtain ⟨t2, hr2, hw2, hc2, hl2⟩ := leftRotate_spec hw1g
    have hw2p : WF t2 (plug ({ isLeft := false, a := n, c := cn, k := k, sib := .node ga gc gs gk l } :: up) (.node pa .Red r pk ps)) := hw2
    obtain ⟨t3, hr3, hw3, hc3, hl3⟩ := wf_setColor .Black hw2
    have hw3p : WF t3 (plug ({ isLeft := false, a := n, c := .Black, k := k, sib := .node ga gc gs gk l } :: up) (.node pa .Red r pk ps)) := hw3
    have hw3g : WF t3 (plug ({ isLeft := true, a := n, c := .Black, k := k, sib := .node pa .Red r pk ps } :: up) (.node ga gc gs gk l)) := hw3
    obtain ⟨t4, hr4, hw4, hc4, hl4⟩ := wf_setColor .Red hw3g
    refine ⟨t4, ?_, hw4, by omega, by omega⟩
    rw [insertFixUp]
    by_cases hne : gs.ptr = none
    · simp [wf_isRoot hw, wf_load hw, ctxPtr, wf_isBlack hwp, wf_isRoot hwp,
        wf_hasUncle hw, wf_uncle hw, wf_direction hw, wf_direction hwp, dirOf,
        hr1, wf_load hw1p, wf_direction hw1, wf_grandParent hw1p,
        hr2, wf_load hw2p, hr3, wf_sibling hw3p, hr4, hne,
        bind, Except.bind, pure, Except.pure]
    · simp [wf_isRoot hw, wf_load hw, ctxPtr, wf_isBlack hwp, wf_isRoot hwp,
        wf_hasUncle hw, wf_uncle hw, wf_direction hw, wf_direction hwp, dirOf,
        hr1, wf_load hw1p, wf_direction hw1, wf_grandParent hw1p,
        hr2, wf_load hw2p, hr3, wf_sibling hw3p, hr4, hne, hib hne,
        bind, Except.bind, pure, Except.pure]
  · -- parent is a left child, node is a right child
    have hwp' : WF t (plug ({ isLeft := true, a := ga, c := gc, k := gk, sib := gs } :: up) (.node pa .Red ps pk (.node n cn l k r))) := hw
    obtain ⟨t1, hr1, hw1, hc1, hl1⟩ := leftRotate_spec hwp'
    have hw1p : WF t1 (plug ({ isLeft := true, a := n, c := cn, k := k, sib := r } :: { isLeft := true, a := ga, c := gc, k := gk, sib := gs } :: up) (.node pa .Red ps pk l)) := hw1
    have hw1g : WF t1 (plug up (.node ga gc (.node n cn (.node pa .Red ps pk l) k r) gk gs)) := hw1
    obtain ⟨t2, hr2, hw2, hc2, hl2⟩ := rightRotate_spec hw1g
    have hw2p : WF t2 (plug ({ isLeft := true, a := n, c := cn, k := k, sib := .node ga gc r gk gs } :: up) (.node pa .Red ps pk l)) := hw2
    obtain ⟨t3, hr3, hw3, hc3, hl3⟩ := wf_setColor .Black hw2
    have hw3p : WF t3 (plug ({ isLeft := true, a := n, c := .Black, k := k, sib := .node ga gc r gk gs } :: up) (.node pa .Red ps pk l)) := hw3
    have hw3g : WF t3 (plug ({ isLeft := false, a := n, c := .Black, k := k, sib := .node pa .Red ps pk l } :: up) (.node ga gc r gk gs)) := hw3
    obtain ⟨t4, hr4, hw4, hc4, hl4⟩ := wf_setColor .Red hw3g
    refine ⟨t4, ?_, hw4, by omega, by omega⟩
    rw [insertFixUp]
    by_cases hne : gs.ptr = none
    · simp [wf_isRoot hw, wf_load hw, ctxPtr, wf_isBlack hwp, wf_isRoot hwp,
        wf_hasUncle hw, wf_uncle hw, wf_direction hw, wf_direction hwp, dirOf,
        hr1, wf_load hw1p, wf_direction hw1, wf_grandParent hw1p,
        hr2, wf_load hw2p, hr3, wf_sibling hw3p, hr4, hne,
        bind, Except.bind, pure, Except.pure]
    · simp [wf_isRoot hw, wf_load hw, ctxPtr, wf_isBlack hwp, wf_isRoot hwp,
        wf_hasUncle hw, wf_uncle hw, wf_direction hw, wf_direction hwp, dirOf,
        hr1, wf_load hw1p, wf_direction hw1, wf_grandParent hw1p,
        hr2, wf_load hw2p, hr3, wf_sibling hw3p, hr4, hne, hib hne,
        bind, Except.bind, pure, Except.pure]
  · -- parent is a left child, node is a left child
    have hwg : WF t (plug up (.node ga gc (.node pa .Red (.node n cn l k r) pk ps) gk gs)) := hw
    obtain ⟨t2, hr2, hw2, hc2, hl2⟩ := rightRotate_spec hwg
    have hw2n : WF t2 (plug ({ isLeft := true, a := pa, c := .Red, k := pk, sib := .node ga gc ps gk gs } :: up) (.node n cn l k r)) := hw2
    obtain ⟨t3, hr3, hw3, hc3, hl3⟩ := wf_setColor .Black hw2
    have hw3n : WF t3 (plug ({ isLeft := true, a := pa, c := .Black, k := pk, sib := .node ga gc ps gk gs } :: up) (.node n cn l k r)) := hw3
    have hw3g : WF t3 (plug ({ isLeft := false, a := pa, c := .Black, k := pk, sib := .node n cn l k r } :: up) (.node ga gc ps gk gs)) := hw3
    obtain ⟨t4, hr4, hw4, hc4, hl4⟩ := wf_setColor .Red hw3g
    refine ⟨t4, ?_, hw4, by omega, by omega⟩
    rw [insertFixUp]
    by_cases hne : gs.ptr = none
    · simp [wf_isRoot hw, wf_load hw, ctxPtr, wf_isBlack hwp, wf_isRoot hwp,
        wf_hasUncle hw, wf_uncle hw, wf_direction hw, wf_direction hwp, dirOf, wf_grandParent hw,
        hr2, wf_load hw2n, hr3, wf_sibling hw3n, hr4, hne,
        bind, Except.bind, pure, Except.pure]
    · simp [wf_isRoot hw, wf_load hw, ctxPtr, wf_isBlack hwp, wf_isRoot hwp,
        wf_hasUncle hw, wf_uncle hw, wf_direction hw, wf_direction hwp, dirOf, wf_grandParent hw,
        hr2, wf_load hw2n, hr3, wf_sibling hw3n, hr4, hne, hib hne,
        bind, Except.bind, pure, Except.pure]

theorem insertFixUp_spec :
    ∀ (ctx : Ctx K) (fuel : Nat) (t : RBTree K) (n : Nat) (cn : Color) (l : Tree K) (k : K)
      (r : Tree K),
      WF t (plug ctx (.node n cn l k r)) → ctx.length < 2 * fuel →
      ∃ t', insertFixUp fuel t (some n) = .ok t' ∧ WF t' (insFix ctx (.node n cn l k r)) ∧
        t'.cnt = t.cnt ∧ t'.heap.length = t.heap.length
  | [], fuel, t, n, cn, l, k, r, hw, hf => by
    obtain ⟨fuel, rfl⟩ : ∃ g, fuel = g + 1 := ⟨fuel - 1, by omega⟩
    have hn := hw.rep
    simp only [plug, Rep] at hn
    have hlt : n < t.heap.length := (List.getElem?_eq_some.1 hn.1).1
    refine ⟨_, ?_, WF_recolor_top .Black hw, rfl, by simp⟩
    simp [insertFixUp, isRoot, load_some hn.1, setColor_eq _ hlt, bind, Except.bind, pure,
      Except.pure]
  | [p], fuel, t, n, cn, l, k, r, hw, hf => by
    obtain ⟨fuel, rfl⟩ : ∃ g, fuel = g + 1 := ⟨fuel - 1, by omega⟩
    obtain ⟨pl, pa, pc, pk, ps⟩ := p
    obtain ⟨hroot, hctx, hrep, hnd⟩ := WF_plug.1 hw
    simp only [RepCtx, ctxPtr, Rep, Tree.ptr_node] at hctx hrep
    have hn := hrep.1
    have hp := hctx.1
    have hltp : pa < t.heap.length := (List.getElem?_eq_some.1 hp).1
    cases pc with
    | Black =>
      refine ⟨t, ?_, by simpa [insFix] using hw, rfl, rfl⟩
      simp [insertFixUp, isRoot, isBlack, load_some hn, load_some hp, bind, Except.bind, pure,
        Except.pure]
    | Red =>
      have hexec : insertFixUp (fuel + 1) t (some n) =
          .ok { t with heap := upd t.heap pa (fun x => { x with color := .Black }) } := by
        simp [insertFixUp, isRoot, isBlack, load_some hn, load_some hp, setColor_eq _ hltp, bind,
          Except.bind, pure, Except.pure]
      refine ⟨_, hexec, ?_, rfl, by simp⟩
      cases pl
      · simpa [insFix] using WF_recolor_top .Black (by simpa using hw)
      · simpa [insFix] using WF_recolor_top .Black (by simpa using hw)
  | p :: g :: up, fuel, t, n, cn, l, k, r, hw, hf => by
    obtain ⟨fuel, rfl⟩ : ∃ g, fuel = g + 1 := ⟨fuel - 1, by omega⟩
    have hfu : up.length < 2 * fuel := by simp at hf; omega
    obtain ⟨pl, pa, pc, pk, ps⟩ := p
    obtain ⟨gl, ga, gc, gk, gs⟩ := g
    -- focus on the parent
    have hwp := hw
    rw [plug_cons, Frame.fill_eq] at hwp
    simp only [] at hwp
    cases pc with
    | Black =>
      refine ⟨t, ?_, by rw [insFix_black rfl]; exact hw, rfl, rfl⟩
      simp [insertFixUp, wf_isRoot hw, wf_load hw, ctxPtr, wf_isBlack hwp, bind, Except.bind,
        pure, Except.pure]
    | Red =>
      rcases gs with _ | ⟨u, cu, ul, uk, ur⟩
      · rw [insFix_rotate (p := ⟨pl, pa, .Red, pk, ps⟩) (g := ⟨gl, ga, gc, gk, .nil⟩) rfl rfl]
        exact insertFixUp_rotate hw rfl rfl
      · cases cu with
        | Black =>
          rw [insFix_rotate (p := ⟨pl, pa, .Red, pk, ps⟩)
            (g := ⟨gl, ga, gc, gk, .node u .Black ul uk ur⟩) rfl rfl]
          exact insertFixUp_rotate hw rfl rfl
        | Red =>
          -- case 2b: uncle is red
          have hwu := hw
          rw [plug_cons, plug_swap] at hwu
          have hw1 := WF_recolor_frame .Black hw
          have hw1u := hw1
          rw [plug_cons, plug_swap] at hw1u
          have hw2u := WF_recolor .Black hw1u
          have hw2 := hw2u
          rw [← plug_swap { isLeft := gl, a := ga, c := gc, k := gk, sib := .node u .Black ul uk ur },
            ← plug_cons] at hw2
          have hw2g := hw2
          rw [plug_cons] at hw2g
          have hw3 := WF_recolor_frame .Red hw2g
          have hw3n := hw3
          rw [← plug_cons] at hw3n
          rw [plug_cons, Frame.fill_eq] at hw3
          obtain ⟨t', he, hw', hc', hl'⟩ := insertFixUp_spec up fuel _ ga .Red _ gk _ hw3 hfu
          refine ⟨t', ?_, ?_, by simpa using hc', by simpa using hl'⟩
          · simp only [insertFixUp, wf_isRoot hw, wf_load hw, ctxPtr, wf_isBlack hwp, wf_isRoot hwp,
              wf_hasUncle hw, wf_uncle hw, wf_isBlack hwu, wf_isRed hwu, Tree.ptr_node,
              setColor_eq _ (wf_frame_lt hw), setColor_eq _ (wf_lt hw1u), wf_uncle hw1,
              wf_grandParent hw2, setColor_eq _ (wf_frame_lt hw2g), wf_grandParent hw3n,
              bind, Except.bind, pure, Except.pure]
            simpa using he
          · rw [insFix_recolor rfl rfl]
            simpa [Frame.fill_eq] using hw'

end RBT

namespace RBT

variable {K : Type}

theorem insDown_found [LinearOrder K] (f : Nat) (ctx : Ctx K) (n : Nat) (c : Color)
    (l r : Tree K) (k : K) : insDown f ctx (.node n c l k r) k = plug ctx (.node n c l k r) := by
  rw [insDown]; simp

theorem insDown_left_nil [LinearOrder K] (f : Nat) (ctx : Ctx K) (n : Nat) (c : Color)
    (r : Tree K) {k v : K} (h1 : k ≠ v) (h2 : v < k) :
    insDown f ctx (.node n c .nil k r) v =
      insFix ({ isLeft := true, a := n, c := c, k := k, sib := r } :: ctx)
        (.node f .Red .nil v .nil) := by
  rw [insDown]; simp [h1, h2]

theorem insDown_left_node [LinearOrder K] (f : Nat) (ctx : Ctx K) (n : Nat) (c : Color)
    (l r : Tree K) {k v : K} (h1 : k ≠ v) (h2 : v < k) (h3 : l ≠ .nil) :
    insDown f ctx (.node n c l k r) v =
      insDown f ({ isLeft := true, a := n, c := c, k := k, sib := r } :: ctx) l v := by
  rw [insDown]; simp [h1, h2, Tree.ptr_eq_none, h3]

theorem insDown_right_nil [LinearOrder K] (f : Nat) (ctx : Ctx K) (n : Nat) (c : Color)
    (l : Tree K) {k v : K} (h1 : k ≠ v) (h2 : ¬ v < k) :
    insDown f ctx (.node n c l k .nil) v =
      insFix ({ isLeft := false, a := n, c := c, k := k, sib := l } :: ctx)
        (.node f .Red .nil v .nil) := by
  rw [insDown]; simp [h1, h2]

theorem insDown_right_node [LinearOrder K] (f : Nat) (ctx : Ctx K) (n : Nat) (c : Color)
    (l r : Tree K) {k v : K} (h1 : k ≠ v) (h2 : ¬ v < k) (h3 : r ≠ .nil) :
    insDown f ctx (.node n c l k r) v =
      insDown f ({ isLeft := false, a := n, c := c, k := k, sib := l } :: ctx) r v := by
  rw [insDown]; simp [h1, h2, Tree.ptr_eq_none, h3]





/-! ## Attaching a new leaf -/

theorem ctx_length_le {h : Heap K} {ctx : Ctx K} {hole : Ptr} (hc : RepCtx h hole ctx)
    (hnd : (ctxAddrs ctx).Nodup) : ctx.length ≤ h.length := by
  have h1 : ctx.length ≤ (ctxAddrs ctx).length := by
    clear hc hnd
    induction ctx with
    | nil => simp
    | cons f up ih => simp [ctxAddrs]; omega
  exact h1.trans (length_le_of_nodup_lt hnd (RepCtx_lt hc))

theorem wf_ctx_length_le {t : RBTree K} {ctx : Ctx K} {x : Tree K} (hw : WF t (plug ctx x)) :
    ctx.length ≤ t.heap.length := by
  obtain ⟨_, hctx, _, hnd⟩ := WF_plug.1 hw
  exact ctx_length_le hctx (List.nodup_append.1 hnd).2.1

theorem WF_attach {t : RBTree K} {ctx : Ctx K} {n : Nat} {c : Color} {k : K} {s : Tree K}
    (isL : Bool) (v : K)
    (hw : WF t (plug ({ isLeft := isL, a := n, c := c, k := k, sib := s } :: ctx) .nil)) :
    WF { t with heap := attach t.heap n isL v }
      (plug ({ isLeft := isL, a := n, c := c, k := k, sib := s } :: ctx)
        (.node t.heap.length .Red .nil v .nil)) := by
  obtain ⟨hroot, hctx, hrep, hnd⟩ := WF_plug.1 hw
  have hlt := RepCtx_lt hctx
  simp only [RepCtx] at hctx
  obtain ⟨hn, hs, hc⟩ := hctx
  simp only [Tree.addrs, ctxAddrs, List.nil_append, List.nodup_cons, List.nodup_append,
    List.mem_append, not_or, List.disjoint_left, List.cons_append, List.mem_cons] at hnd
  have hnl : n < t.heap.length := (List.getElem?_eq_some.1 hn).1
  have hag : ∀ a, a < t.heap.length → a ≠ n → (attach t.heap n isL v)[a]? = t.heap[a]? := by
    intro a ha han
    unfold attach
    rw [getElem?_upd_ne _ _ (by omega), getElem?_upd_ne _ _ (Ne.symm han),
      List.getElem?_append_left ha]
  refine WF_plug.2 ⟨hroot, ?_, ?_, ?_⟩
  · simp only [RepCtx]
    refine ⟨?_, Rep_congr (fun a ha => ?_) hs, RepCtx_congr (fun a ha => ?_) hc⟩
    · unfold attach
      rw [getElem?_upd_ne _ _ (by omega), getElem?_upd_self, List.getElem?_append_left hnl, hn]
      cases isL <;> simp
    · exact hag a (Rep_lt hs a ha) (by rintro rfl; exact hnd.1.1 ha)
    · exact hag a (RepCtx_lt hc a ha) (by rintro rfl; exact hnd.1.2 ha)
  · simp only [Rep, ctxPtr, Tree.ptr_nil, and_true]
    unfold attach
    rw [getElem?_upd_self, getElem?_upd_ne _ _ (by omega)]
    simp [newRBNode]
  · simp only [Tree.addrs, ctxAddrs, List.nil_append, List.nodup_cons, List.nodup_append,
      List.mem_append, not_or, List.disjoint_left, List.cons_append, List.mem_cons]
    refine ⟨⟨?_, ?_, ?_⟩, hnd⟩
    · omega
    · exact fun hm => absurd (Rep_lt hs _ hm) (by omega)
    · exact fun hm => absurd (RepCtx_lt hc _ hm) (by omega)

theorem insert_spec [LinearOrder K] (v : K) :
    ∀ (x : Tree K) (ctx : Ctx K) (fuel : Nat) (t : RBTree K), x ≠ .nil →
      WF t (plug ctx x) → x.height ≤ fuel →
      ∃ t', insert fuel t x.ptr v = .ok t' ∧ WF t' (insDown t.heap.length ctx x v) ∧
        t'.cnt = (if (x.lookup v).2 then t.cnt else (t.cnt + 1) % uintModulus)
  | .nil, _, _, _, hx, _, _ => absurd rfl hx
  | .node n c l k r, ctx, fuel, t, _, hw, hf => by
    simp only [Tree.height] at hf
    obtain ⟨fuel, rfl⟩ : ∃ g, fuel = g + 1 := ⟨fuel - 1, by omega⟩
    have hnl := wf_lt hw
    have hcell := wf_cell hw
    have h1 : n < (t.heap ++ [newRBNode v]).length := by simp; omega
    have h2 : ∀ F, t.heap.length < (upd (t.heap ++ [newRBNode v]) n F).length := by
      intro F; simp
    rw [insert]
    simp only [Tree.ptr_node, wf_load hw, bind, Except.bind, pure, Except.pure]
    by_cases hkv : k = v
    · subst hkv
      refine ⟨t, by simp, by rw [insDown_found]; exact hw, by simp [Tree.lookup]⟩
    · by_cases hlt : v < k
      · have hnlt : ¬ k < v := not_lt.2 hlt.le
        cases l with
        | nil =>
          have hwA := @WF_attach K t ctx n c k r true v hw
          have hlen : (attach t.heap n true v).length = t.heap.length + 1 := by simp [attach]
          obtain ⟨t', he, hw', hc', -⟩ := insertFixUp_spec _ ((attach t.heap n true v).length + 1)
            _ _ .Red .nil v .nil hwA
            (by have := wf_ctx_length_le hw; simp only [List.length_cons, hlen]; omega)
          refine ⟨{ t' with cnt := (t'.cnt + 1) % uintModulus }, ?_, ?_, ?_⟩
          · simp only [attach, if_true, length_upd, List.length_append, List.length_singleton] at he
            have hne : t.heap.length ≠ n := by omega
            simp [hkv, hlt, alloc, store_of_lt _ h1, store_of_lt _ (h2 _), getElem?_upd, load, hnl,
              List.getElem?_append_left hnl, hcell, he, hne, bind, Except.bind, pure, Except.pure]
          · rw [insDown_left_nil _ _ _ _ _ hkv hlt]
            exact ⟨hw'.root, hw'.rep, hw'.nodup⟩
          · simp [Tree.lookup, hkv, hnlt, hc']
        | node la lc ll lk lr =>
          have hw1 : WF t (plug ({ isLeft := true, a := n, c := c, k := k, sib := r } :: ctx)
              (.node la lc ll lk lr)) := hw
          obtain ⟨t', he, hw', hc'⟩ := insert_spec v (.node la lc ll lk lr) _ fuel t (by simp) hw1
            (by omega)
          refine ⟨t', ?_, ?_, ?_⟩
          · simpa [hkv, hlt] using he
          · rw [insDown_left_node _ _ _ _ _ _ hkv hlt (by simp)]
            exact hw'
          · simpa [Tree.lookup, hkv, hnlt] using hc'
      · have hklt : k < v := lt_of_le_of_ne (not_lt.1 hlt) hkv
        cases r with
        | nil =>
          have hwA := @WF_attach K t ctx n c k l false v hw
          have hlen : (attach t.heap n false v).length = t.heap.length + 1 := by simp [attach]
          obtain ⟨t', he, hw', hc', -⟩ := insertFixUp_spec _ ((attach t.heap n false v).length + 1)
            _ _ .Red .nil v .nil hwA
            (by have := wf_ctx_length_le hw; simp only [List.length_cons, hlen]; omega)
          refine ⟨{ t' with cnt := (t'.cnt + 1) % uintModulus }, ?_, ?_, ?_⟩
          · simp only [attach, Bool.false_eq_true, if_false, length_upd, List.length_append,
              List.length_singleton] at he
            have hne : t.heap.length ≠ n := by omega
            simp [hkv, hlt, alloc, store_of_lt _ h1, store_of_lt _ (h2 _), getElem?_upd, load, hnl,
              List.getElem?_append_left hnl, hcell, he, hne, bind, Except.bind, pure, Except.pure]
          · rw [insDown_right_nil _ _ _ _ _ hkv hlt]
            exact ⟨hw'.root, hw'.rep, hw'.nodup⟩
          · simp [Tree.lookup, hkv, hklt, hc']
        | node ra rc rl rk rr =>
          have hw1 : WF t (plug ({ isLeft := false, a := n, c := c, k := k, sib := l } :: ctx)
              (.node ra rc rl rk rr)) := hw
          obtain ⟨t', he, hw', hc'⟩ := insert_spec v (.node ra rc rl rk rr) _ fuel t (by simp) hw1
            (by omega)
          refine ⟨t', ?_, ?_, ?_⟩
          · simpa [hkv, hlt] using he
          · rw [insDown_right_node _ _ _ _ _ _ hkv hlt (by simp)]
            exact hw'
          · simpa [Tree.lookup, hkv, hklt] using hc'

theorem WF_nil_iff {t : RBTree K} : WF t .nil ↔ t.root = none := by
  constructor
  · intro h; exact h.root
  · intro h; exact ⟨h, trivial, List.nodup_nil⟩

theorem Insert_spec [LinearOrder K] {t : RBTree K} {T : Tree K} (v : K) (hw : WF t T) :
    ∃ t', Insert t v = .ok t' ∧ WF t' (insT t.heap.length T v) ∧
      t'.cnt = (if (T.lookup v).2 then t.cnt else (t.cnt + 1) % uintModulus) := by
  cases T with
  | nil =>
    have hr : t.root = none := hw.root
    refine ⟨{ heap := upd (t.heap ++ [newRBNode v]) t.heap.length (fun x => { x with color := .Black }),
              root := some t.heap.length, cnt := (t.cnt + 1) % uintModulus }, ?_, ?_, ?_⟩
    · simp [Insert, hr, alloc, setColor, store_of_lt, bind, Except.bind, pure, Except.pure]
    · refine ⟨rfl, ?_, by simp [insT, Tree.addrs]⟩
      simp only [insT, Rep, Tree.ptr_nil, and_true]
      rw [getElem?_upd_self]
      simp [newRBNode]
    · simp [Tree.lookup]
  | node n c l k r =>
    have hr : t.root = some n := hw.root
    have hf := Shaped_height_lt (Rep_shaped hw.rep) hw.nodup
    obtain ⟨t', he, hw', hc'⟩ := insert_spec v (.node n c l k r) [] (t.heap.length + 1) t (by simp)
      hw (by omega)
    refine ⟨t', ?_, ?_, hc'⟩
    · simpa [Insert, hr] using he
    · simpa [insT] using hw'

end RBT

namespace RBT

variable {K : Type}

/-! ## Insertion on shapes: keys -/

theorem toList_fill (f : Frame K) (x : Tree K) :
    (f.fill x).toList =
      (if f.isLeft then [] else f.sib.toList ++ [f.k]) ++ x.toList ++
        (if f.isLeft then f.k :: f.sib.toList else []) := by
  unfold Frame.fill
  cases f.isLeft <;> simp [Tree.toList]

theorem toList_plug : ∀ (ctx : Ctx K) (x : Tree K),
    (plug ctx x).toList = ctxBefore ctx ++ x.toList ++ ctxAfter ctx
  | [], x => by simp [ctxBefore, ctxAfter]
  | f :: up, x => by
    rw [plug_cons, toList_plug up, toList_fill]
    simp [ctxBefore, ctxAfter, List.append_assoc]

theorem toList_setColor (c : Color) (x : Tree K) : (x.setColor c).toList = x.toList := by
  cases x <;> rfl

theorem toList_insRotate (p g : Frame K) (x : Tree K) :
    (insRotate p g x).toList = (g.fill (p.fill x)).toList := by
  obtain ⟨pl, pa, pc, pk, ps⟩ := p
  obtain ⟨gl, ga, gc, gk, gs⟩ := g
  cases x with
  | nil => rfl
  | node n cn l k r =>
    cases gl <;> cases pl <;> simp [insRotate, Tree.toList, List.append_assoc]

theorem toList_insFix : ∀ (ctx : Ctx K) (x : Tree K),
    (insFix ctx x).toList = (plug ctx x).toList
  | [], x => by simp [insFix, toList_setColor]
  | [p], x => by
    simp only [insFix]
    split
    · rfl
    · simp [toList_fill]
  | p :: g :: up, x => by
    by_cases hp : p.c = .Black
    · rw [insFix_black hp]
    · have hp' : p.c = .Red := by cases h : p.c <;> simp_all
      rcases hs : g.sib with _ | ⟨u, cu, ul, uk, ur⟩
      · rw [insFix_rotate hp' (by simp [hs, Tree.isRed]), toList_plug, toList_insRotate,
          plug_cons, plug_cons, toList_plug]
      · cases cu
        · rw [insFix_recolor hp' hs, toList_insFix up, plug_cons, plug_cons, toList_plug,
            toList_plug, toList_fill, toList_fill, toList_fill, toList_fill]
          simp [hs, Tree.toList]
        · rw [insFix_rotate hp' (by simp [hs, Tree.isRed]), toList_plug, toList_insRotate,
            plug_cons, plug_cons, toList_plug]

theorem toList_insDown [LinearOrder K] (f : Nat) (v : K) :
    ∀ (x : Tree K) (ctx : Ctx K), x ≠ .nil →
      (insDown f ctx x v).toList = ctxBefore ctx ++ insList x v ++ ctxAfter ctx
  | .nil, _, hx => absurd rfl hx
  | .node n c l k r, ctx, _ => by
    by_cases hkv : k = v
    · subst hkv
      rw [insDown_found, toList_plug]
      simp [insList, Tree.toList]
    · by_cases hlt : v < k
      · cases l with
        | nil =>
          rw [insDown_left_nil _ _ _ _ _ hkv hlt, toList_insFix, toList_plug]
          simp [insList, hkv, hlt, ctxBefore, ctxAfter, Tree.toList]
        | node la lc ll lk lr =>
          rw [insDown_left_node _ _ _ _ _ _ hkv hlt (by simp), toList_insDown f v _ _ (by simp)]
          simp [insList, hkv, hlt, ctxBefore, ctxAfter, List.append_assoc]
      · cases r with
        | nil =>
          rw [insDown_right_nil _ _ _ _ _ hkv hlt, toList_insFix, toList_plug]
          simp [insList, hkv, hlt, ctxBefore, ctxAfter, Tree.toList]
        | node ra rc rl rk rr =>
          rw [insDown_right_node _ _ _ _ _ _ hkv hlt (by simp), toList_insDown f v _ _ (by simp)]
          simp [insList, hkv, hlt, ctxBefore, ctxAfter, List.append_assoc]

theorem toList_insT [LinearOrder K] (f : Nat) (T : Tree K) (v : K) :
    (insT f T v).toList = insList T v := by
  cases T with
  | nil => simp [insT, insList, Tree.toList]
  | node n c l k r =>
    have := toList_insDown f v (.node n c l k r) [] (by simp)
    simpa [insT, ctxBefore, ctxAfter] using this

theorem mem_insList [LinearOrder K] (v x : K) :
    ∀ T : Tree K, x ∈ insList T v ↔ x = v ∨ x ∈ T.toList
  | .nil => by simp [insList, Tree.toList]
  | .node n c l k r => by
    simp only [insList, Tree.toList]
    by_cases hkv : k = v
    · subst hkv
      simp only [if_true, List.mem_append, List.mem_cons]
      tauto
    · simp only [hkv, if_false]
      by_cases hlt : v < k
      · simp only [hlt, if_true, List.mem_append, List.mem_cons, mem_insList v x l]
        tauto
      · simp only [hlt, if_false, List.mem_append, List.mem_cons, mem_insList v x r]
        tauto

theorem BST_iff_sorted [LinearOrder K] : ∀ T : Tree K, T.BST ↔ T.toList.Sorted (· < ·)
  | .nil => by simp [Tree.BST, Tree.toList]
  | .node n c l k r => by
    have e1 := BST_iff_sorted l
    have e2 := BST_iff_sorted r
    simp only [List.Sorted] at e1 e2
    simp only [Tree.BST, Tree.toList, List.Sorted, List.pairwise_append, List.pairwise_cons,
      List.mem_cons, e1, e2]
    constructor
    · rintro ⟨h1, h2, h3, h4⟩
      refine ⟨h3, ⟨h2, h4⟩, ?_⟩
      rintro a ha b (rfl | hb)
      · exact h1 a ha
      · exact (h1 a ha).trans (h2 b hb)
    · rintro ⟨h3, ⟨h2, h4⟩, h5⟩
      exact ⟨fun a ha => h5 a ha k (Or.inl rfl), h2, h3, h4⟩

theorem sorted_insList [LinearOrder K] (v : K) :
    ∀ T : Tree K, T.BST → (insList T v).Sorted (· < ·)
  | .nil, _ => by simp [insList]
  | .node n c l k r, hb => by
    have hs := (BST_iff_sorted _).1 hb
    simp only [Tree.BST] at hb
    obtain ⟨h1, h2, h3, h4⟩ := hb
    simp only [insList]
    by_cases hkv : k = v
    · simpa [hkv, Tree.toList] using hs
    · simp only [hkv, if_false]
      by_cases hlt : v < k
      · simp only [hlt, if_true, List.Sorted, List.pairwise_append, List.pairwise_cons, List.mem_cons]
        refine ⟨sorted_insList v l h3, ⟨h2, (BST_iff_sorted r).1 h4⟩, ?_⟩
        intro a ha b hb
        have ha' : a < k := by
          rcases (mem_insList v a l).1 ha with rfl | ha
          · exact hlt
          · exact h1 a ha
        rcases hb with rfl | hb
        · exact ha'
        · exact ha'.trans (h2 b hb)
      · have hklt : k < v := lt_of_le_of_ne (not_lt.1 hlt) hkv
        simp only [hlt, if_false, List.Sorted, List.pairwise_append, List.pairwise_cons, List.mem_cons]
        refine ⟨(BST_iff_sorted l).1 h3, ⟨?_, sorted_insList v r h4⟩, ?_⟩
        · intro b hb
          rcases (mem_insList v b r).1 hb with rfl | hb
          · exact hklt
          · exact h2 b hb
        · intro a ha b hb
          rcases hb with rfl | hb
          · exact h1 a ha
          · rcases (mem_insList v b r).1 hb with rfl | hb
            · exact (h1 a ha).trans hklt
            · exact (h1 a ha).trans (h2 b hb)

theorem length_insList [LinearOrder K] (v : K) :
    ∀ T : Tree K, (insList T v).length = if (T.lookup v).2 then T.size else T.size + 1
  | .nil => by simp [insList, Tree.lookup, Tree.size]
  | .node n c l k r => by
    simp only [insList, Tree.lookup]
    by_cases hkv : k = v
    · simp [hkv, Tree.size, Tree.length_toList]
      omega
    · simp only [hkv, if_false]
      by_cases hlt : v < k
      · have hnlt : ¬ k < v := not_lt.2 hlt.le
        simp only [hlt, hnlt, if_true, if_false, List.length_append, List.length_cons,
          length_insList v l, Tree.length_toList, Tree.size]
        split <;> omega
      · have hklt : k < v := lt_of_le_of_ne (not_lt.1 hlt) hkv
        simp only [hlt, hklt, if_true, if_false, List.length_append, List.length_cons,
          length_insList v r, Tree.length_toList, Tree.size]
        split <;> omega

theorem size_insT [LinearOrder K] (f : Nat) (T : Tree K) (v : K) :
    (insT f T v).size = if (T.lookup v).2 then T.size else T.size + 1 := by
  rw [← Tree.length_toList, toList_insT, length_insList]

theorem BST_insT [LinearOrder K] (f : Nat) {T : Tree K} (v : K) (hb : T.BST) :
    (insT f T v).BST := by
  rw [BST_iff_sorted, toList_insT]
  exact sorted_insList v T hb

theorem mem_insT [LinearOrder K] (f : Nat) (T : Tree K) (v x : K) :
    x ∈ (insT f T v).toList ↔ x = v ∨ x ∈ T.toList := by
  rw [toList_insT, mem_insList]

theorem BST_size_le [LinearOrder K] {T : Tree K} {S : List K} (hb : T.BST)
    (hm : ∀ x, x ∈ T.toList → x ∈ S) : T.size ≤ S.length := by
  rw [← Tree.length_toList]
  have hnd : T.toList.Nodup := ((BST_iff_sorted T).1 hb).nodup
  exact (List.subperm_of_subset hnd hm).length_le

theorem run_inserts [LinearOrder K] :
    ∀ (keys done : List K) (t : RBTree K) (T : Tree K), WF t T → T.BST →
      (∀ x, x ∈ T.toList ↔ x ∈ done) → t.cnt = T.size →
      done.length + keys.length < uintModulus →
      ∃ t' T', runCalls (keys.map Call.insert) t = .ok t' ∧ WF t' T' ∧ T'.BST ∧
        (∀ x, x ∈ T'.toList ↔ x ∈ done ++ keys) ∧ t'.cnt = T'.size
  | [], done, t, T, hw, hb, hm, hc, _ => ⟨t, T, rfl, hw, hb, by simpa using hm, hc⟩
  | v :: keys, done, t, T, hw, hb, hm, hc, hlen => by
    obtain ⟨t1, he, hw1, hc1⟩ := Insert_spec v hw
    have hsz := BST_size_le hb (fun x hx => (hm x).1 hx)
    have hc1' : t1.cnt = (insT t.heap.length T v).size := by
      rw [hc1, size_insT, hc]
      split
      · rfl
      · simp only [List.length_cons] at hlen
        exact Nat.mod_eq_of_lt (by omega)
    obtain ⟨t', T', he', hw', hb', hm', hc'⟩ := run_inserts keys (done ++ [v]) t1 _ hw1
      (BST_insT _ v hb)
      (fun x => by rw [mem_insT, hm x]; simp [or_comm]) hc1'
      (by simp only [List.length_cons, List.length_append, List.length_nil] at hlen ⊢; omega)
    refine ⟨t', T', ?_, hw', hb', ?_, hc'⟩
    · simp [runCalls, applyCall, he, he', bind, Except.bind]
    · intro x; rw [hm' x]; simp

theorem sorted_eq_sort [LinearOrder K] {l keys : List K} (hs : l.Sorted (· < ·))
    (hm : ∀ x, x ∈ l ↔ x ∈ keys) : l = keys.toFinset.sort (· ≤ ·) := by
  apply List.eq_of_perm_of_sorted (r := (· ≤ ·))
  · apply (List.perm_ext_iff_of_nodup hs.nodup (Finset.sort_nodup _ _)).2
    intro x
    simp [hm x]
  · exact hs.le_of_lt
  · exact Finset.sort_sorted _ _

end RBT

namespace RBT

variable {K : Type}

/-! ## Colour invariants along a path -/

theorem Color.eq_red_of_ne_black {c : Color} (h : c ≠ .Black) : c = .Red := by
  cases c <;> simp_all

theorem Color.eq_black_of_ne_red {c : Color} (h : c ≠ .Red) : c = .Black := by
  cases c <;> simp_all

@[simp] theorem Tree.isRed_nil : (Tree.nil : Tree K).isRed = false := rfl

@[simp] theorem Tree.isRed_red (a : Nat) (l : Tree K) (k : K) (r : Tree K) :
    (Tree.node a .Red l k r).isRed = true := rfl

@[simp] theorem Tree.isRed_black (a : Nat) (l : Tree K) (k : K) (r : Tree K) :
    (Tree.node a .Black l k r).isRed = false := rfl

@[simp] theorem Tree.setColor_nil (c : Color) : (Tree.nil : Tree K).setColor c = .nil := rfl

@[simp] theorem Tree.setColor_node (c' : Color) (a : Nat) (c : Color) (l : Tree K) (k : K)
    (r : Tree K) : (Tree.node a c l k r).setColor c' = .node a c' l k r := rfl

@[simp] theorem isRed_fill (f : Frame K) (x : Tree K) : (f.fill x).isRed = decide (f.c = .Red) := by
  obtain ⟨fl, fa, fc, fk, fs⟩ := f
  cases fl <;> cases fc <;> simp

theorem bal_fill (f : Frame K) (x : Tree K) :
    (f.fill x).Balanced ↔ x.Balanced ∧ f.sib.Balanced ∧ f.sib.bh = x.bh := by
  obtain ⟨fl, fa, fc, fk, fs⟩ := f
  cases fl <;> simp [Tree.Balanced]
  · tauto
  · intro _ _
    exact eq_comm

theorem bh_fill (f : Frame K) (x : Tree K) (h : f.sib.bh = x.bh) :
    (f.fill x).bh = x.bh + (if f.c = .Black then 1 else 0) := by
  obtain ⟨fl, fa, fc, fk, fs⟩ := f
  cases fl <;> simp_all [Tree.bh]

theorem Balanced_plug : ∀ (ctx : Ctx K) (x : Tree K),
    (plug ctx x).Balanced ↔ x.Balanced ∧ ctxBal ctx x.bh
  | [], x => by simp [ctxBal]
  | f :: up, x => by
    rw [plug_cons, Balanced_plug up, bal_fill]
    simp only [ctxBal]
    constructor
    · rintro ⟨⟨h1, h2, h3⟩, h4⟩
      rw [bh_fill f x h3] at h4
      exact ⟨h1, h2, h3, h4⟩
    · rintro ⟨h1, h2, h3, h4⟩
      rw [bh_fill f x h3]
      exact ⟨⟨h1, h2, h3⟩, h4⟩

theorem nrr_fill (f : Frame K) (x : Tree K) :
    (f.fill x).NoRedRed ↔
      (f.c = .Red → x.isRed = false ∧ f.sib.isRed = false) ∧ x.NoRedRed ∧ f.sib.NoRedRed := by
  obtain ⟨fl, fa, fc, fk, fs⟩ := f
  cases fl <;> simp [Tree.NoRedRed]
  tauto

theorem NoRedRed_plug : ∀ (ctx : Ctx K) (x : Tree K),
    (plug ctx x).NoRedRed ↔ x.NoRedRed ∧ ctxNoRR ctx ∧ (ctxRed ctx = true → x.isRed = false)
  | [], x => by simp [ctxNoRR, ctxRed]
  | f :: up, x => by
    rw [plug_cons, NoRedRed_plug up, nrr_fill]
    simp only [ctxNoRR, ctxRed, isRed_fill, decide_eq_true_eq, decide_eq_false_iff_not]
    constructor
    · rintro ⟨⟨h1, h2, h3⟩, h4, h5⟩
      refine ⟨h2, ⟨h3, fun hc => ⟨(h1 hc).2, ?_⟩, h4⟩, fun hc => (h1 hc).1⟩
      by_contra hne
      exact h5 (by simpa using hne) hc
    · rintro ⟨h2, ⟨h3, h1, h4⟩, h5⟩
      refine ⟨⟨fun hc => ⟨h5 hc, (h1 hc).1⟩, h2, h3⟩, h4, ?_⟩
      intro hr hc
      rw [(h1 hc).2] at hr
      exact Bool.false_ne_true hr

theorem isRed_plug_cons : ∀ (f : Frame K) (up : Ctx K) (x : Tree K),
    ((plug (f :: up) x).isRed = false ↔ ctxRootBlack (f :: up))
  | f, [], x => by
    simp only [plug_cons, plug_nil, isRed_fill, ctxRootBlack, decide_eq_false_iff_not]
    constructor
    · exact Color.eq_black_of_ne_red
    · intro h; simp [h]
  | f, g :: up, x => by
    rw [plug_cons, isRed_plug_cons g up]
    simp [ctxRootBlack]

theorem RB_plug_cons (f : Frame K) (up : Ctx K) (x : Tree K) :
    (plug (f :: up) x).RB ↔
      ctxRootBlack (f :: up) ∧ (x.NoRedRed ∧ ctxNoRR (f :: up) ∧
        (ctxRed (f :: up) = true → x.isRed = false)) ∧ x.Balanced ∧ ctxBal (f :: up) x.bh := by
  unfold Tree.RB
  rw [isRed_plug_cons, NoRedRed_plug, Balanced_plug]

theorem ctxRootBlack_tail {f g : Frame K} {up : Ctx K} (h : ctxRootBlack (f :: g :: up)) :
    ctxRootBlack (g :: up) := h




/-! ## Insertion on shapes: colour invariants -/

theorem insRotate_props {p g : Frame K} {n : Nat} {l r : Tree K} {k : K} {b : Nat}
    (hp : p.c = .Red) (hgs : g.sib.isRed = false) (hps : p.sib.isRed = false)
    (hl : l.isRed = false) (hr : r.isRed = false)
    (bl : l.Balanced) (br : r.Balanced) (bps : p.sib.Balanced) (bgs : g.sib.Balanced)
    (e1 : l.bh = b) (e2 : r.bh = b) (e3 : p.sib.bh = b) (e4 : g.sib.bh = b)
    (nl : l.NoRedRed) (nr : r.NoRedRed) (nps : p.sib.NoRedRed) (ngs : g.sib.NoRedRed) :
    (insRotate p g (.node n .Red l k r)).isRed = false ∧
      (insRotate p g (.node n .Red l k r)).NoRedRed ∧
      (insRotate p g (.node n .Red l k r)).Balanced ∧
      (insRotate p g (.node n .Red l k r)).bh = b + 1 := by
  obtain ⟨pl, pa, pc, pk, ps⟩ := p
  obtain ⟨gl, ga, gc, gk, gs⟩ := g
  simp only at hp hgs hps bps bgs e3 e4 nps ngs
  subst hp
  cases gl <;> cases pl <;>
    simp [insRotate, Tree.NoRedRed, Tree.Balanced, Tree.bh, *]

theorem insFix_RB :
    ∀ (ctx : Ctx K) (n : Nat) (l : Tree K) (k : K) (r : Tree K),
      l.isRed = false → r.isRed = false → l.Balanced → r.Balanced → l.bh = r.bh →
      l.NoRedRed → r.NoRedRed → ctxBal ctx l.bh → ctxNoRR ctx → ctxRootBlack ctx →
      (insFix ctx (.node n .Red l k r)).RB
  | [], n, l, k, r, hl, hr, bl, br, e, nl, nr, _, _, _ => by
    simp [insFix, Tree.RB, Tree.NoRedRed, Tree.Balanced, *]
  | [p], n, l, k, r, hl, hr, bl, br, e, nl, nr, cb, cn, crb => by
    have hp : p.c = .Black := crb
    simp only [insFix, hp, if_true]
    rw [RB_plug_cons]
    simp only [ctxRed, hp]
    exact ⟨crb, ⟨⟨by simp [hl, hr], nl, nr⟩, cn, by simp⟩, ⟨bl, br, e⟩, by simpa [Tree.bh] using cb⟩
  | p :: g :: up, n, l, k, r, hl, hr, bl, br, e, nl, nr, cb, cn, crb => by
    by_cases hp : p.c = .Black
    · rw [insFix_black hp, RB_plug_cons]
      simp only [ctxRed, hp]
      exact ⟨crb, ⟨⟨by simp [hl, hr], nl, nr⟩, cn, by simp⟩, ⟨bl, br, e⟩,
        by simpa [Tree.bh] using cb⟩
    · have hp' := Color.eq_red_of_ne_black hp
      simp only [ctxNoRR, ctxRed, decide_eq_false_iff_not] at cn
      obtain ⟨nps, hpr, ngs, hgr, cnu⟩ := cn
      obtain ⟨hps, hgc⟩ := hpr hp'
      have hgc' : g.c = .Black := Color.eq_black_of_ne_red hgc
      simp only [ctxBal, hp', hgc', if_true, if_false, reduceCtorEq, Nat.add_zero] at cb
      obtain ⟨bps, e3, bgs, e4, cbu⟩ := cb
      have crbu : ctxRootBlack up := by
        cases up with
        | nil => trivial
        | cons f up' => exact crb
      have hrot : g.sib.isRed = false → (insFix (p :: g :: up) (.node n .Red l k r)).RB := by
        intro hgs
        rw [insFix_rotate hp' hgs]
        obtain ⟨r1, r2, r3, r4⟩ := insRotate_props (n := n) (k := k) hp' hgs hps hl hr bl br bps bgs
          rfl e.symm e3 e4 nl nr nps ngs
        cases up with
        | nil => exact ⟨r1, r2, r3⟩
        | cons f up' =>
          rw [RB_plug_cons]
          exact ⟨crb, ⟨r2, cnu, fun _ => r1⟩, r3, by rw [r4]; exact cbu⟩
      rcases hs : g.sib with _ | ⟨u, cu, ul, uk, ur⟩
      · exact hrot (by simp [hs])
      · cases cu with
        | Black => exact hrot (by simp [hs])
        | Red =>
          rw [insFix_recolor hp' hs, Frame.fill_eq]
          simp only [hs, Tree.NoRedRed, Tree.Balanced, Tree.bh, reduceCtorEq, if_false,
            Nat.add_zero] at ngs bgs e4
          have hP1 : (Frame.fill { isLeft := p.isLeft, a := p.a, c := Color.Black, k := p.k, sib := p.sib } (.node n .Red l k r)).isRed = false := by simp
          have hP2 : (Frame.fill { isLeft := p.isLeft, a := p.a, c := Color.Black, k := p.k, sib := p.sib } (.node n .Red l k r)).Balanced := by
            rw [bal_fill]; exact ⟨⟨bl, br, e⟩, bps, by simpa [Tree.bh] using e3⟩
          have hP3 : (Frame.fill { isLeft := p.isLeft, a := p.a, c := Color.Black, k := p.k, sib := p.sib } (.node n .Red l k r)).bh = l.bh + 1 := by
            rw [bh_fill _ _ (by simpa [Tree.bh] using e3)]; simp [Tree.bh]
          have hP4 : (Frame.fill { isLeft := p.isLeft, a := p.a, c := Color.Black, k := p.k, sib := p.sib } (.node n .Red l k r)).NoRedRed := by
            rw [nrr_fill]; simp [Tree.NoRedRed, hl, hr, nl, nr, nps]
          cases hgl : g.isLeft
          · simp only [Bool.false_eq_true, if_false]
            refine insFix_RB up g.a _ g.k _ (by simp) hP1 ?_ hP2 ?_ ?_ hP4 ?_ cnu crbu
            · simpa [Tree.Balanced] using bgs
            · simp [Tree.bh, hP3, e4]
            · simpa [Tree.NoRedRed] using ngs.2
            · simpa [Tree.bh, e4] using cbu
          · simp only [if_true]
            refine insFix_RB up g.a _ g.k _ hP1 (by simp) hP2 ?_ ?_ hP4 ?_ ?_ cnu crbu
            · simpa [Tree.Balanced] using bgs
            · simp [Tree.bh, hP3, e4]
            · simpa [Tree.NoRedRed] using ngs.2
            · simpa [hP3] using cbu

theorem insFix_leaf_RB {f : Frame K} {up : Ctx K} (a : Nat) (v : K)
    (h : (plug (f :: up) .nil).RB) : (insFix (f :: up) (.node a .Red .nil v .nil)).RB := by
  rw [RB_plug_cons] at h
  obtain ⟨h1, ⟨_, h2, _⟩, _, h3⟩ := h
  exact insFix_RB _ a .nil v .nil rfl rfl trivial trivial rfl trivial trivial h3 h2 h1

theorem insDown_RB [LinearOrder K] (f : Nat) (v : K) :
    ∀ (x : Tree K) (ctx : Ctx K), x ≠ .nil → (plug ctx x).RB → (insDown f ctx x v).RB
  | .nil, _, hx, _ => absurd rfl hx
  | .node n c l k r, ctx, _, h => by
    by_cases hkv : k = v
    · subst hkv
      rw [insDown_found]; exact h
    · by_cases hlt : v < k
      · cases l with
        | nil =>
          rw [insDown_left_nil _ _ _ _ _ hkv hlt]
          exact insFix_leaf_RB f v h
        | node la lc ll lk lr =>
          rw [insDown_left_node _ _ _ _ _ _ hkv hlt (by simp)]
          exact insDown_RB f v _ _ (by simp) h
      · cases r with
        | nil =>
          rw [insDown_right_nil _ _ _ _ _ hkv hlt]
          exact insFix_leaf_RB f v h
        | node ra rc rl rk rr =>
          rw [insDown_right_node _ _ _ _ _ _ hkv hlt (by simp)]
          exact insDown_RB f v _ _ (by simp) h

theorem insT_RB [LinearOrder K] (f : Nat) {T : Tree K} (v : K) (h : T.RB) : (insT f T v).RB := by
  cases T with
  | nil => simp [insT, Tree.RB, Tree.NoRedRed, Tree.Balanced]
  | node n c l k r => exact insDown_RB f v _ [] (by simp) h

end RBT

namespace RBT

variable {K : Type}

/-! ## The fix-up after a deletion on the heap -/

theorem deleteFixUp_eq (fuel : Nat) (t : RBTree K) (n : Ptr) :
    deleteFixUp (fuel + 1) t n = (do
      let r ← isRoot t.heap n
      if r then setColor t n .Black
      else
        let dir ← direction t.heap n
        let sibling0 ← sibling t.heap n
        let sr ← isRed t.heap sibling0
        let (t1, sibling1) ←
          if sr then do
            let x ← load t.heap n
            let parent := x.parent
            let ta ← setColor t parent .Red
            let tb ← setColor ta sibling0 .Black
            let tc ← if dir == .DirLeft then leftRotate tb parent else rightRotate tb parent
            let s ← sibling tc.heap n
            pure (tc, s)
          else pure (t, sibling0)
        deleteFixUpTail fuel t1 n dir sibling1) := by
  rw [deleteFixUp]
  rfl

theorem wf_blackenRoot : ∀ (ctx : Ctx K) {t : RBTree K} {x : Tree K},
    WF t (plug ctx x) → ctx ≠ [] →
    ∃ t', setColor t t.root .Black = .ok t' ∧ WF t' (plug (blackenRoot ctx) x) ∧
      t'.cnt = t.cnt ∧ t'.heap.length = t.heap.length
  | [], _, _, _, hne => absurd rfl hne
  | [f], t, x, hw, _ => by
    have hw' := hw
    rw [plug_cons, plug_nil, Frame.fill_eq] at hw'
    have hr : t.root = some f.a := hw'.root
    rw [hr]
    refine ⟨_, setColor_eq .Black (wf_frame_lt hw), ?_, rfl, by simp⟩
    have := WF_recolor_top .Black hw'
    simpa [blackenRoot, Frame.fill_eq] using this
  | f :: g :: up, t, x, hw, _ => by
    have hw' : WF t (plug (g :: up) (f.fill x)) := hw
    obtain ⟨t', h1, h2, h3, h4⟩ := wf_blackenRoot (g :: up) hw' (by simp)
    exact ⟨t', h1, h2, h3, h4⟩

theorem rep_black_test {h : Heap K} {par : Ptr} {y : Tree K} (hr : Rep h par y) :
    (if (y.ptr == none) = true then (pure true : Except Err Bool) else isBlack h y.ptr) =
      .ok (!y.isRed) := by
  cases y with
  | nil => simp [pure, Except.pure]
  | node a c l k r =>
    simp only [Rep] at hr
    cases c <;> simp [isBlack, load_some hr.1, bind, Except.bind, pure, Except.pure]

theorem rep_red_test {h : Heap K} {par : Ptr} {y : Tree K} (hr : Rep h par y) :
    (if (y.ptr != none) = true then isRed h y.ptr else (pure false : Except Err Bool)) =
      .ok y.isRed := by
  cases y with
  | nil => simp [pure, Except.pure]
  | node a c l k r =>
    simp only [Rep] at hr
    cases c <;> simp [isRed, load_some hr.1, bind, Except.bind, pure, Except.pure]

theorem wf_sib_rep {t : RBTree K} {f : Frame K} {up : Ctx K} {x : Tree K}
    (hw : WF t (plug (f :: up) x)) : Rep t.heap (some f.a) f.sib := by
  have := (WF_plug.1 hw).2.1
  simp only [RepCtx] at this
  exact this.2.1

end RBT

namespace RBT

variable {K : Type}

theorem wf_setColor_opt {t : RBTree K} {ctx : Ctx K} {y : Tree K} (c : Color)
    (hw : WF t (plug ctx y)) :
    ∃ t', (if (y.ptr != none) = true then setColor t y.ptr c else pure t) = .ok t' ∧
      WF t' (plug ctx (y.setColor c)) ∧ t'.cnt = t.cnt ∧ t'.heap.length = t.heap.length := by
  cases y with
  | nil => exact ⟨t, by simp [pure, Except.pure], by simpa using hw, rfl, rfl⟩
  | node a c0 l k r =>
    obtain ⟨t', h1, h2, h3, h4⟩ := wf_setColor c hw
    exact ⟨t', by simpa using h1, by simpa using h2, h3, h4⟩

theorem case4_left {t2 : RBTree K} {up : Ctx K} {p s2 n : Nat} {cp c2 cn : Color}
    {kp k2 k : K} {a2 b2 l r : Tree K}
    (hw : WF t2 (plug ({ isLeft := true, a := p, c := cp, k := kp, sib := .node s2 c2 a2 k2 b2 } :: up) (.node n cn l k r))) :
    ∃ t', deleteFixUpCase4 t2 (some n) .DirLeft (some s2) b2.ptr = .ok t' ∧
      WF t' (plug (blackenRoot ({ isLeft := true, a := p, c := .Black, k := kp, sib := a2 } :: { isLeft := true, a := s2, c := cp, k := k2, sib := b2.setColor .Black } :: up)) (.node n cn l k r)) ∧
      t'.cnt = t2.cnt ∧ t'.heap.length = t2.heap.length := by
  have hwp : WF t2 (plug up (.node p cp (.node n cn l k r) kp (.node s2 c2 a2 k2 b2))) := hw
  have hws : WF t2 (plug ({ isLeft := false, a := p, c := cp, k := kp, sib := .node n cn l k r } :: up) (.node s2 c2 a2 k2 b2)) := hw
  obtain ⟨ta, hra, hwa, hca, hla⟩ := wf_setColor cp hws
  have hwa_n : WF ta (plug ({ isLeft := true, a := p, c := cp, k := kp, sib := .node s2 cp a2 k2 b2 } :: up) (.node n cn l k r)) := hwa
  have hwa_p : WF ta (plug up (.node p cp (.node n cn l k r) kp (.node s2 cp a2 k2 b2))) := hwa
  obtain ⟨tb, hrb, hwb, hcb, hlb⟩ := wf_setColor .Black hwa_p
  have hwb_d : WF tb (plug ({ isLeft := false, a := s2, c := cp, k := k2, sib := a2 } :: { isLeft := false, a := p, c := .Black, k := kp, sib := .node n cn l k r } :: up) b2) := hwb
  obtain ⟨tc, hrc, hwc, hcc, hlc⟩ := wf_setColor_opt .Black hwb_d
  have hwc_n : WF tc (plug ({ isLeft := true, a := p, c := .Black, k := kp, sib := .node s2 cp a2 k2 (b2.setColor .Black) } :: up) (.node n cn l k r)) := hwc
  have hwc_p : WF tc (plug up (.node p .Black (.node n cn l k r) kp (.node s2 cp a2 k2 (b2.setColor .Black)))) := hwc
  obtain ⟨td, hrd, hwd, hcd, hld⟩ := leftRotate_spec hwc_p
  have hwd' : WF td (plug ({ isLeft := true, a := p, c := .Black, k := kp, sib := a2 } :: { isLeft := true, a := s2, c := cp, k := k2, sib := b2.setColor .Black } :: up) (.node n cn l k r)) := hwd
  obtain ⟨te, hre, hwe, hce, hle⟩ := wf_blackenRoot _ hwd' (by simp)
  refine ⟨te, ?_, hwe, by omega, by omega⟩
  simp only [deleteFixUpCase4, wf_load hw, ctxPtr, wf_load hwp, hra, wf_load hwa_n, hrb,
    bind, Except.bind, beq_self_eq_true, if_true]
  by_cases hb : b2.ptr = none
  · simp only [hb, bne_self_eq_false, Bool.false_eq_true, if_false, pure, Except.pure,
      Except.ok.injEq] at hrc
    subst hrc
    simp [hb, pure, Except.pure, wf_load hwc_n, ctxPtr, hrd, hre]
  · simp only [bne_iff_ne, ne_eq, hb, not_false_eq_true, if_true] at hrc
    simp [hb, hrc, wf_load hwc_n, ctxPtr, hrd, hre]

theorem case4_right {t2 : RBTree K} {up : Ctx K} {p s2 n : Nat} {cp c2 cn : Color}
    {kp k2 k : K} {a2 b2 l r : Tree K}
    (hw : WF t2 (plug ({ isLeft := false, a := p, c := cp, k := kp, sib := .node s2 c2 a2 k2 b2 } :: up) (.node n cn l k r))) :
    ∃ t', deleteFixUpCase4 t2 (some n) .DirRight (some s2) a2.ptr = .ok t' ∧
      WF t' (plug (blackenRoot ({ isLeft := false, a := p, c := .Black, k := kp, sib := b2 } :: { isLeft := false, a := s2, c := cp, k := k2, sib := a2.setColor .Black } :: up)) (.node n cn l k r)) ∧
      t'.cnt = t2.cnt ∧ t'.heap.length = t2.heap.length := by
  have hwp : WF t2 (plug up (.node p cp (.node s2 c2 a2 k2 b2) kp (.node n cn l k r))) := hw
  have hws : WF t2 (plug ({ isLeft := true, a := p, c := cp, k := kp, sib := .node n cn l k r } :: up) (.node s2 c2 a2 k2 b2)) := hw
  obtain ⟨ta, hra, hwa, hca, hla⟩ := wf_setColor cp hws
  have hwa_n : WF ta (plug ({ isLeft := false, a := p, c := cp, k := kp, sib := .node s2 cp a2 k2 b2 } :: up) (.node n cn l k r)) := hwa
  have hwa_p : WF ta (plug up (.node p cp (.node s2 cp a2 k2 b2) kp (.node n cn l k r))) := hwa
  obtain ⟨tb, hrb, hwb, hcb, hlb⟩ := wf_setColor .Black hwa_p
  have hwb_d : WF tb (plug ({ isLeft := true, a := s2, c := cp, k := k2, sib := b2 } :: { isLeft := true, a := p, c := .Black, k := kp, sib := .node n cn l k r } :: up) a2) := hwb
  obtain ⟨tc, hrc, hwc, hcc, hlc⟩ := wf_setColor_opt .Black hwb_d
  have hwc_n : WF tc (plug ({ isLeft := false, a := p, c := .Black, k := kp, sib := .node s2 cp (a2.setColor .Black) k2 b2 } :: up) (.node n cn l k r)) := hwc
  have hwc_p : WF tc (plug up (.node p .Black (.node s2 cp (a2.setColor .Black) k2 b2) kp (.node n cn l k r))) := hwc
  obtain ⟨td, hrd, hwd, hcd, hld⟩ := rightRotate_spec hwc_p
  have hwd' : WF td (plug ({ isLeft := false, a := p, c := .Black, k := kp, sib := b2 } :: { isLeft := false, a := s2, c := cp, k := k2, sib := a2.setColor .Black } :: up) (.node n cn l k r)) := hwd
  obtain ⟨te, hre, hwe, hce, hle⟩ := wf_blackenRoot _ hwd' (by simp)
  refine ⟨te, ?_, hwe, by omega, by omega⟩
  simp only [deleteFixUpCase4, wf_load hw, ctxPtr, wf_load hwp, hra, wf_load hwa_n, hrb,
    bind, Except.bind]
  by_cases hb : a2.ptr = none
  · simp only [hb, bne_self_eq_false, Bool.false_eq_true, if_false, pure, Except.pure,
      Except.ok.injEq] at hrc
    subst hrc
    simp [hb, pure, Except.pure, wf_load hwc_n, ctxPtr, hrd, hre]
  · simp only [bne_iff_ne, ne_eq, hb, not_false_eq_true, if_true] at hrc
    simp [hb, hrc, wf_load hwc_n, ctxPtr, hrd, hre]

end RBT

namespace RBT

variable {K : Type}

theorem delCase3_left_black {s : Nat} {cs : Color} {sl sr : Tree K} {sk : K}
    (h : sl.isRed = false) : delCase3 true (.node s cs sl sk sr) = .node s cs sl sk sr := by
  rcases sl with _ | ⟨c, cc, cl, ck, cr⟩
  · rfl
  · cases cc
    · simp at h
    · rfl

theorem delCase3_right_black {s : Nat} {cs : Color} {sl sr : Tree K} {sk : K}
    (h : sr.isRed = false) : delCase3 false (.node s cs sl sk sr) = .node s cs sl sk sr := by
  rcases sr with _ | ⟨c, cc, cl, ck, cr⟩
  · rfl
  · cases cc
    · simp at h
    · rfl

theorem Tree.isRed_eq_true {y : Tree K} (h : y.isRed = true) :
    ∃ a l k r, y = .node a .Red l k r := by
  rcases y with _ | ⟨a, c, l, k, r⟩
  · simp at h
  · cases c
    · exact ⟨a, l, k, r, rfl⟩
    · simp at h

theorem ok_bind {α β : Type} (a : α) (f : α → Except Err β) :
    ((Except.ok a : Except Err α) >>= f) = f a := rfl

theorem rep_isBlack {h : Heap K} {par : Ptr} {y : Tree K} (hr : Rep h par y)
    (hne : ¬ y.ptr = none) : isBlack h y.ptr = .ok (!y.isRed) := by
  cases y with
  | nil => simp at hne
  | node a c l k r =>
    simp only [Rep] at hr
    cases c <;> simp [isBlack, load_some hr.1, bind, Except.bind, pure, Except.pure]

theorem rep_isRed {h : Heap K} {par : Ptr} {y : Tree K} (hr : Rep h par y)
    (hne : ¬ y.ptr = none) : isRed h y.ptr = .ok y.isRed := by
  cases y with
  | nil => simp at hne
  | node a c l k r =>
    simp only [Rep] at hr
    cases c <;> simp [isRed, load_some hr.1, bind, Except.bind, pure, Except.pure]

theorem Tree.isRed_of_ptr_none {y : Tree K} (h : y.ptr = none) : y.isRed = false := by
  cases y with
  | nil => rfl
  | node => simp at h

theorem deleteFixUpTail_left {t1 : RBTree K} {up : Ctx K} (fuel : Nat) {n p s : Nat} {cn cp cs : Color}
    {l r sl sr : Tree K} {k kp sk : K} {recur : Option (Ctx K)}
    (hw : WF t1 (plug ({ isLeft := true, a := p, c := cp, k := kp, sib := .node s cs sl sk sr } :: up) (.node n cn l k r)))
    (hrec : cp = .Black → ∀ (ta : RBTree K) (pl pr : Tree K),
      WF ta (plug up (.node p .Black pl kp pr)) → ∀ up', recur = some up' →
      ∃ t', deleteFixUp fuel ta (some p) = .ok t' ∧ WF t' (plug up' (.node p .Black pl kp pr)) ∧
        t'.cnt = ta.cnt ∧ t'.heap.length = ta.heap.length)
    {ctx' : Ctx K}
    (hd : delNephews { isLeft := true, a := p, c := cp, k := kp, sib := .node s cs sl sk sr } up recur = some ctx') :
    ∃ t', deleteFixUpTail fuel t1 (some n) .DirLeft (some s) = .ok t' ∧
      WF t' (plug ctx' (.node n cn l k r)) ∧
      t'.cnt = t1.cnt ∧ t'.heap.length = t1.heap.length := by
  have hwp : WF t1 (plug up (.node p cp (.node n cn l k r) kp (.node s cs sl sk sr))) := hw
  have hws : WF t1 (plug ({ isLeft := false, a := p, c := cp, k := kp, sib := .node n cn l k r } :: up) (.node s cs sl sk sr)) := hw
  have hrs := (WF_plug.1 hws).2.2.1
  simp only [Rep] at hrs
  obtain ⟨-, hrl, hrr⟩ := hrs
  have e1 := rep_isBlack hrl
  have e2 := rep_isBlack hrr
  have e3 := rep_isRed hrl
  have n1 := @Tree.isRed_of_ptr_none K sl
  have n2 := @Tree.isRed_of_ptr_none K sr
  simp only [delNephews, if_true] at hd
  by_cases hboth : sl.isRed = false ∧ sr.isRed = false
  · simp only [hboth, and_self, if_true] at hd
    cases cp with
    | Red =>
      simp only [if_true, Option.some.injEq] at hd
      subst hd
      obtain ⟨ta, hra, hwa, hca, hla⟩ := wf_setColor .Black hwp
      have hwa_s : WF ta (plug ({ isLeft := false, a := p, c := .Black, k := kp, sib := .node n cn l k r } :: up) (.node s cs sl sk sr)) := hwa
      obtain ⟨tb, hrb, hwb, hcb, hlb⟩ := wf_setColor .Red hwa_s
      refine ⟨tb, ?_, hwb, by omega, by omega⟩
      by_cases h1 : sl.ptr = none <;> by_cases h2 : sr.ptr = none <;>
        simp [deleteFixUpTail, wf_load hws, wf_load hw, ctxPtr, wf_isRed hwp, h1, h2, e1, e2,
          hboth.1, hboth.2, hra, hrb, ok_bind, pure, Except.pure]
    | Black =>
      simp only [reduceCtorEq, if_false, Option.map_eq_some'] at hd
      obtain ⟨up', hup, rfl⟩ := hd
      obtain ⟨ta, hra, hwa, hca, hla⟩ := wf_setColor .Red hws
      have hwa_n : WF ta (plug ({ isLeft := true, a := p, c := .Black, k := kp, sib := .node s .Red sl sk sr } :: up) (.node n cn l k r)) := hwa
      have hwa_p : WF ta (plug up (.node p .Black (.node n cn l k r) kp (.node s .Red sl sk sr))) := hwa
      obtain ⟨t', hr', hw', hc', hl'⟩ := hrec rfl ta _ _ hwa_p up' hup
      refine ⟨t', ?_, hw', by omega, by omega⟩
      by_cases h1 : sl.ptr = none <;> by_cases h2 : sr.ptr = none <;>
        simp [deleteFixUpTail, wf_load hws, wf_load hw, ctxPtr, wf_isRed hwp, h1, h2, e1, e2,
          hboth.1, hboth.2, hra, wf_load hwa_n, hr', ok_bind, pure, Except.pure]
  · simp only [hboth, if_false] at hd
    cases hsl : sl.isRed
    · -- close nephew is not red: case 4 directly
      have hsr : sr.isRed = true := by
        cases h2 : sr.isRed
        · exact absurd ⟨hsl, h2⟩ hboth
        · rfl
      rw [delCase3_left_black hsl] at hd
      simp only [delCase4, if_true, Option.some.injEq] at hd
      subst hd
      obtain ⟨t', hr', hw', hc', hl'⟩ := case4_left hw
      refine ⟨t', ?_, hw', hc', hl'⟩
      have h2 : ¬ sr.ptr = none := fun h => by simp [n2 h] at hsr
      by_cases h1 : sl.ptr = none <;>
        simp [deleteFixUpTail, wf_load hws, h1, h2, e1, e2, e3, hsl, hsr, hr', ok_bind, pure,
          Except.pure]
    · -- close nephew is red: case 3, then case 4
      obtain ⟨c, cl, ck, cr, rfl⟩ := Tree.isRed_eq_true hsl
      simp only [delCase3, delCase4, if_true, Option.some.injEq] at hd
      subst hd
      have hwc : WF t1 (plug ({ isLeft := true, a := s, c := cs, k := sk, sib := sr } :: { isLeft := false, a := p, c := cp, k := kp, sib := .node n cn l k r } :: up) (.node c .Red cl ck cr)) := hw
      obtain ⟨ta, hra, hwa, hca, hla⟩ := wf_setColor .Black hwc
      have hwa_s : WF ta (plug ({ isLeft := false, a := p, c := cp, k := kp, sib := .node n cn l k r } :: up) (.node s cs (.node c .Black cl ck cr) sk sr)) := hwa
      obtain ⟨tb, hrb, hwb, hcb, hlb⟩ := wf_setColor .Red hwa_s
      obtain ⟨tc, hrc, hwc', hcc, hlc⟩ := rightRotate_spec hwb
      have hwc_n : WF tc (plug ({ isLeft := true, a := p, c := cp, k := kp, sib := .node c .Black cl ck (.node s .Red cr sk sr) } :: up) (.node n cn l k r)) := hwc'
      obtain ⟨t', hr', hw', hc', hl'⟩ := case4_left hwc_n
      refine ⟨t', ?_, hw', by omega, by omega⟩
      simp only [Tree.ptr_node, reduceCtorEq, not_false_eq_true, Tree.isRed_red, Bool.not_true,
        forall_const] at e1 e3
      simp only [Tree.ptr_node] at hr'
      by_cases h2 : sr.ptr = none <;>
        simp [deleteFixUpTail, wf_load hws, h2, e1, e2, e3, hra, hrb, hrc, wf_sibling hwc_n,
          wf_load hwc', hr', ok_bind, pure, Except.pure]

theorem deleteFixUpTail_right {t1 : RBTree K} {up : Ctx K} (fuel : Nat) {n p s : Nat} {cn cp cs : Color}
    {l r sl sr : Tree K} {k kp sk : K} {recur : Option (Ctx K)}
    (hw : WF t1 (plug ({ isLeft := false, a := p, c := cp, k := kp, sib := .node s cs sl sk sr } :: up) (.node n cn l k r)))
    (hrec : cp = .Black → ∀ (ta : RBTree K) (pl pr : Tree K),
      WF ta (plug up (.node p .Black pl kp pr)) → ∀ up', recur = some up' →
      ∃ t', deleteFixUp fuel ta (some p) = .ok t' ∧ WF t' (plug up' (.node p .Black pl kp pr)) ∧
        t'.cnt = ta.cnt ∧ t'.heap.length = ta.heap.length)
    {ctx' : Ctx K}
    (hd : delNephews { isLeft := false, a := p, c := cp, k := kp, sib := .node s cs sl sk sr } up recur = some ctx') :
    ∃ t', deleteFixUpTail fuel t1 (some n) .DirRight (some s) = .ok t' ∧
      WF t' (plug ctx' (.node n cn l k r)) ∧
      t'.cnt = t1.cnt ∧ t'.heap.length = t1.heap.length := by
  have hwp : WF t1 (plug up (.node p cp (.node s cs sl sk sr) kp (.node n cn l k r))) := hw
  have hws : WF t1 (plug ({ isLeft := true, a := p, c := cp, k := kp, sib := .node n cn l k r } :: up) (.node s cs sl sk sr)) := hw
  have hrs := (WF_plug.1 hws).2.2.1
  simp only [Rep] at hrs
  obtain ⟨-, hrl, hrr⟩ := hrs
  have e1 := rep_isBlack hrr
  have e2 := rep_isBlack hrl
  have e3 := rep_isRed hrr
  have n1 := @Tree.isRed_of_ptr_none K sr
  have n2 := @Tree.isRed_of_ptr_none K sl
  simp only [delNephews, Bool.false_eq_true, if_false] at hd
  by_cases hboth : sr.isRed = false ∧ sl.isRed = false
  · simp only [hboth, and_self, if_true] at hd
    cases cp with
    | Red =>
      simp only [if_true, Option.some.injEq] at hd
      subst hd
      obtain ⟨ta, hra, hwa, hca, hla⟩ := wf_setColor .Black hwp
      have hwa_s : WF ta (plug ({ isLeft := true, a := p, c := .Black, k := kp, sib := .node n cn l k r } :: up) (.node s cs sl sk sr)) := hwa
      obtain ⟨tb, hrb, hwb, hcb, hlb⟩ := wf_setColor .Red hwa_s
      refine ⟨tb, ?_, hwb, by omega, by omega⟩
      by_cases h1 : sl.ptr = none <;> by_cases h2 : sr.ptr = none <;>
        simp [deleteFixUpTail, wf_load hws, wf_load hw, ctxPtr, wf_isRed hwp, h1, h2, e1, e2,
          hboth.1, hboth.2, hra, hrb, ok_bind, pure, Except.pure]
    | Black =>
      simp only [reduceCtorEq, if_false, Option.map_eq_some'] at hd
      obtain ⟨up', hup, rfl⟩ := hd
      obtain ⟨ta, hra, hwa, hca, hla⟩ := wf_setColor .Red hws
      have hwa_n : WF ta (plug ({ isLeft := false, a := p, c := .Black, k := kp, sib := .node s .Red sl sk sr } :: up) (.node n cn l k r)) := hwa
      have hwa_p : WF ta (plug up (.node p .Black (.node s .Red sl sk sr) kp (.node n cn l k r))) := hwa
      obtain ⟨t', hr', hw', hc', hl'⟩ := hrec rfl ta _ _ hwa_p up' hup
      refine ⟨t', ?_, hw', by omega, by omega⟩
      by_cases h1 : sl.ptr = none <;> by_cases h2 : sr.ptr = none <;>
        simp [deleteFixUpTail, wf_load hws, wf_load hw, ctxPtr, wf_isRed hwp, h1, h2, e1, e2,
          hboth.1, hboth.2, hra, wf_load hwa_n, hr', ok_bind, pure, Except.pure]
  · simp only [hboth, if_false] at hd
    cases hsr : sr.isRed
    · -- close nephew is not red: case 4 directly
      have hsl : sl.isRed = true := by
        cases h2 : sl.isRed
        · exact absurd ⟨hsr, h2⟩ hboth
        · rfl
      rw [delCase3_right_black hsr] at hd
      simp only [delCase4, Bool.false_eq_true, if_false, Option.some.injEq] at hd
      subst hd
      obtain ⟨t', hr', hw', hc', hl'⟩ := case4_right hw
      refine ⟨t', ?_, hw', hc', hl'⟩
      have h2 : ¬ sl.ptr = none := fun h => by simp [n2 h] at hsl
      by_cases h1 : sr.ptr = none <;>
        simp [deleteFixUpTail, wf_load hws, h1, h2, e1, e2, e3, hsl, hsr, hr', ok_bind, pure,
          Except.pure]
    · -- close nephew is red: case 3, then case 4
      obtain ⟨c, cl, ck, cr, rfl⟩ := Tree.isRed_eq_true hsr
      simp only [delCase3, delCase4, Bool.false_eq_true, if_false, Option.some.injEq] at hd
      subst hd
      have hwc : WF t1 (plug ({ isLeft := false, a := s, c := cs, k := sk, sib := sl } :: { isLeft := true, a := p, c := cp, k := kp, sib := .node n cn l k r } :: up) (.node c .Red cl ck cr)) := hw
      obtain ⟨ta, hra, hwa, hca, hla⟩ := wf_setColor .Black hwc
      have hwa_s : WF ta (plug ({ isLeft := true, a := p, c := cp, k := kp, sib := .node n cn l k r } :: up) (.node s cs sl sk (.node c .Black cl ck cr))) := hwa
      obtain ⟨tb, hrb, hwb, hcb, hlb⟩ := wf_setColor .Red hwa_s
      obtain ⟨tc, hrc, hwc', hcc, hlc⟩ := leftRotate_spec hwb
      have hwc_n : WF tc (plug ({ isLeft := false, a := p, c := cp, k := kp, sib := .node c .Black (.node s .Red sl sk cl) ck cr } :: up) (.node n cn l k r)) := hwc'
      obtain ⟨t', hr', hw', hc', hl'⟩ := case4_right hwc_n
      refine ⟨t', ?_, hw', by omega, by omega⟩
      simp only [Tree.ptr_node, reduceCtorEq, not_false_eq_true, Tree.isRed_red, Bool.not_true,
        forall_const] at e1 e3
      simp only [Tree.ptr_node] at hr'
      by_cases h2 : sl.ptr = none <;>
        simp [deleteFixUpTail, wf_load hws, h2, e1, e2, e3, hra, hrb, hrc, wf_sibling hwc_n,
          wf_load hwc', hr', ok_bind, pure, Except.pure]

end RBT

namespace RBT

variable {K : Type}

theorem deleteFixUp_spec : ∀ (ctx : Ctx K) {fuel : Nat} {t : RBTree K} {n : Nat} {l r : Tree K}
    {k : K} {ctx' : Ctx K},
    WF t (plug ctx (.node n .Black l k r)) → ctx.length < fuel → delFix ctx = some ctx' →
    ∃ t', deleteFixUp fuel t (some n) = .ok t' ∧ WF t' (plug ctx' (.node n .Black l k r)) ∧
      t'.cnt = t.cnt ∧ t'.heap.length = t.heap.length
  | [], fuel, t, n, l, r, k, ctx', hw, hf, hd => by
    obtain ⟨fuel, rfl⟩ : ∃ m, fuel = m + 1 := ⟨fuel - 1, by simp at hf; omega⟩
    simp only [delFix, Option.some.injEq] at hd
    subst hd
    obtain ⟨t', h1, h2, h3, h4⟩ := wf_setColor .Black hw
    refine ⟨t', ?_, h2, h3, h4⟩
    simp [deleteFixUp_eq, wf_isRoot hw, ctxPtr, h1, ok_bind]
  | ⟨isLeft, p, cp, kp, sib⟩ :: up, fuel, t, n, l, r, k, ctx', hw, hf, hd => by
    obtain ⟨fuel, rfl⟩ : ∃ m, fuel = m + 1 := ⟨fuel - 1, by simp at hf; omega⟩
    have hf' : up.length < fuel := by simp at hf; omega
    rcases sib with _ | ⟨s, cs, sl, sk, sr⟩
    · simp [delFix] at hd
    have hrec : ∀ (ta : RBTree K) (pl pr : Tree K),
        WF ta (plug up (.node p .Black pl kp pr)) → ∀ up', delFix up = some up' →
        ∃ t', deleteFixUp fuel ta (some p) = .ok t' ∧ WF t' (plug up' (.node p .Black pl kp pr)) ∧
          t'.cnt = ta.cnt ∧ t'.heap.length = ta.heap.length :=
      fun ta pl pr hwa up' hup => deleteFixUp_spec up hwa hf' hup
    have hws : WF t (plug ({ isLeft := !isLeft, a := p, c := cp, k := kp, sib := .node n .Black l k r } :: up) (.node s cs sl sk sr)) := by
      cases isLeft <;> exact hw
    cases isLeft <;> cases cs
    · -- right child, Red sibling
      simp only [delFix, Bool.false_eq_true, if_false] at hd
      rcases sr with _ | ⟨s1, cs1, sl1, sk1, sr1⟩
      · simp [delNephews] at hd
      have hwp : WF t (plug up (.node p cp (.node s .Red sl sk (.node s1 cs1 sl1 sk1 sr1)) kp (.node n .Black l k r))) := hw
      obtain ⟨ta, hra, hwa, hca, hla⟩ := wf_setColor .Red hwp
      have hwa_s : WF ta (plug ({ isLeft := true, a := p, c := .Red, k := kp, sib := .node n .Black l k r } :: up) (.node s .Red sl sk (.node s1 cs1 sl1 sk1 sr1))) := hwa
      obtain ⟨tb, hrb, hwb, hcb, hlb⟩ := wf_setColor .Black hwa_s
      have hwb_p : WF tb (plug up (.node p .Red (.node s .Black sl sk (.node s1 cs1 sl1 sk1 sr1)) kp (.node n .Black l k r))) := hwb
      obtain ⟨tc, hrc, hwc, hcc, hlc⟩ := rightRotate_spec hwb_p
      have hwc_n : WF tc (plug ({ isLeft := false, a := p, c := .Red, k := kp, sib := .node s1 cs1 sl1 sk1 sr1 } :: { isLeft := false, a := s, c := .Black, k := sk, sib := sl } :: up) (.node n .Black l k r)) := hwc
      obtain ⟨t', hr', hw', hc', hl'⟩ := deleteFixUpTail_right fuel hwc_n (fun h => by simp at h) hd
      refine ⟨t', ?_, hw', by omega, by omega⟩
      simp [deleteFixUp_eq, wf_isRoot hw, ctxPtr, wf_direction hw, dirOf, wf_sibling hw,
        wf_isRed hws, wf_load hw, hra, hrb, hrc, wf_sibling hwc_n, hr', ok_bind]
    · -- right child, Black sibling
      simp only [delFix] at hd
      obtain ⟨t', hr', hw', hc', hl'⟩ := deleteFixUpTail_right fuel hw (fun _ => hrec) hd
      refine ⟨t', ?_, hw', hc', hl'⟩
      simp [deleteFixUp_eq, wf_isRoot hw, ctxPtr, wf_direction hw, dirOf, wf_sibling hw,
        wf_isRed hws, hr', ok_bind, pure, Except.pure]
    · -- left child, Red sibling
      simp only [delFix, if_true] at hd
      rcases sl with _ | ⟨s1, cs1, sl1, sk1, sr1⟩
      · simp [delNephews] at hd
      have hwp : WF t (plug up (.node p cp (.node n .Black l k r) kp (.node s .Red (.node s1 cs1 sl1 sk1 sr1) sk sr))) := hw
      obtain ⟨ta, hra, hwa, hca, hla⟩ := wf_setColor .Red hwp
      have hwa_s : WF ta (plug ({ isLeft := false, a := p, c := .Red, k := kp, sib := .node n .Black l k r } :: up) (.node s .Red (.node s1 cs1 sl1 sk1 sr1) sk sr)) := hwa
      obtain ⟨tb, hrb, hwb, hcb, hlb⟩ := wf_setColor .Black hwa_s
      have hwb_p : WF tb (plug up (.node p .Red (.node n .Black l k r) kp (.node s .Black (.node s1 cs1 sl1 sk1 sr1) sk sr))) := hwb
      obtain ⟨tc, hrc, hwc, hcc, hlc⟩ := leftRotate_spec hwb_p
      have hwc_n : WF tc (plug ({ isLeft := true, a := p, c := .Red, k := kp, sib := .node s1 cs1 sl1 sk1 sr1 } :: { isLeft := true, a := s, c := .Black, k := sk, sib := sr } :: up) (.node n .Black l k r)) := hwc
      obtain ⟨t', hr', hw', hc', hl'⟩ := deleteFixUpTail_left fuel hwc_n (fun h => by simp at h) hd
      refine ⟨t', ?_, hw', by omega, by omega⟩
      simp [deleteFixUp_eq, wf_isRoot hw, ctxPtr, wf_direction hw, dirOf, wf_sibling hw,
        wf_isRed hws, wf_load hw, hra, hrb, hrc, wf_sibling hwc_n, hr', ok_bind]
    · -- left child, Black sibling
      simp only [delFix] at hd
      obtain ⟨t', hr', hw', hc', hl'⟩ := deleteFixUpTail_left fuel hw (fun _ => hrec) hd
      refine ⟨t', ?_, hw', hc', hl'⟩
      simp [deleteFixUp_eq, wf_isRoot hw, ctxPtr, wf_direction hw, dirOf, wf_sibling hw,
        wf_isRed hws, hr', ok_bind, pure, Except.pure]

end RBT

namespace RBT

variable {K : Type}

/-! ## The fix-up after a deletion on paths: colour invariants -/

theorem ctxRootBlack_cons_iff (f : Frame K) (up : Ctx K) :
    ctxRootBlack (f :: up) ↔ (up = [] → f.c = .Black) ∧ ctxRootBlack up := by
  cases up <;> simp [ctxRootBlack]

theorem blackenRoot_of_rootBlack : ∀ (ctx : Ctx K), ctxRootBlack ctx → blackenRoot ctx = ctx
  | [], _ => rfl
  | [f], h => by
    obtain ⟨fl, fa, fc, fk, fs⟩ := f
    simp only [ctxRootBlack] at h
    subst h
    rfl
  | f :: g :: up, h => by
    simp only [blackenRoot, blackenRoot_of_rootBlack (g :: up) h]

theorem Tree.isRed_eq_false {y : Tree K} (h : y.isRed = false) :
    y = .nil ∨ ∃ a l k r, y = .node a .Black l k r := by
  rcases y with _ | ⟨a, c, l, k, r⟩
  · exact Or.inl rfl
  · cases c
    · simp at h
    · exact Or.inr ⟨a, l, k, r, rfl⟩

theorem delNephews_props (f : Frame K) (up : Ctx K) (recur : Option (Ctx K)) (b : Nat)
    (hs : f.sib.isRed = false) (hb : ctxBal (f :: up) (b + 1)) (hn : ctxNoRR (f :: up))
    (hr : ctxRootBlack (f :: up))
    (hrec : f.c = .Black → ∃ up', recur = some up' ∧ ctxBal up' (b + 1) ∧ ctxNoRR up' ∧
      ctxRootBlack up') :
    ∃ ctx', delNephews f up recur = some ctx' ∧ ctxBal ctx' b ∧ ctxNoRR ctx' ∧
      ctxRootBlack ctx' ∧ ctxRed ctx' = false ∧ ctx' ≠ [] := by
  obtain ⟨isLeft, p, cp, kp, sib⟩ := f
  rcases sib with _ | ⟨s, cs, sl, sk, sr⟩
  · simp [ctxBal, Tree.bh] at hb
  cases cs
  · simp at hs
  rw [ctxRootBlack_cons_iff] at hr
  simp only [ctxBal, ctxNoRR, Tree.Balanced, Tree.NoRedRed, Tree.bh, if_true, reduceCtorEq,
    false_implies, true_and, Tree.isRed_black, add_left_inj] at hb hn
  obtain ⟨⟨bsl, bsr, ebh⟩, ebl, hbu⟩ := hb
  obtain ⟨⟨nsl, nsr⟩, hcp, hnu⟩ := hn
  by_cases hboth : (if isLeft then sl else sr).isRed = false ∧ (if isLeft then sr else sl).isRed = false
  · have h1 : sl.isRed = false := by cases isLeft <;> simp_all
    have h2 : sr.isRed = false := by cases isLeft <;> simp_all
    cases cp
    · have hd : delNephews { isLeft := isLeft, a := p, c := .Red, k := kp, sib := .node s .Black sl sk sr } up recur = some ({ isLeft := isLeft, a := p, c := .Black, k := kp, sib := .node s .Red sl sk sr } :: up) := by
        simp only [delNephews, hboth, and_self, if_true]
      refine ⟨_, hd, ?_⟩
      simp at hcp
      simp [ctxBal, ctxNoRR, ctxRed, Tree.Balanced, Tree.NoRedRed, Tree.bh, ctxRootBlack_cons_iff,
        *]
      refine ⟨by omega, ?_⟩
      simpa using hbu
    · obtain ⟨up', e, b', n', r'⟩ := hrec rfl
      have hd : delNephews { isLeft := isLeft, a := p, c := .Black, k := kp, sib := .node s .Black sl sk sr } up recur = some ({ isLeft := isLeft, a := p, c := .Black, k := kp, sib := .node s .Red sl sk sr } :: up') := by
        simp only [delNephews, hboth, and_self, if_true, reduceCtorEq, if_false, e, Option.map_some']
      refine ⟨_, hd, ?_⟩
      simp [ctxBal, ctxNoRR, ctxRed, Tree.Balanced, Tree.NoRedRed, Tree.bh, ctxRootBlack_cons_iff,
        *]
      omega
  · have hrb : ∀ (f1 : Frame K) (l2 : Bool) (a2 : Nat) (k2 : K) (s2 : Tree K),
        blackenRoot (f1 :: { isLeft := l2, a := a2, c := cp, k := k2, sib := s2 } :: up) =
          f1 :: { isLeft := l2, a := a2, c := cp, k := k2, sib := s2 } :: up := by
      intro f1 l2 a2 k2 s2
      apply blackenRoot_of_rootBlack
      rw [ctxRootBlack_cons_iff, ctxRootBlack_cons_iff]
      simpa using hr
    cases isLeft
    · -- the node is a right child: close nephew `sr`, distant nephew `sl`
      simp only [Bool.false_eq_true, if_false] at hboth
      cases hsr : sr.isRed
      · have hsl : sl.isRed = true := by
          cases h : sl.isRed
          · exact absurd ⟨hsr, h⟩ hboth
          · rfl
        obtain ⟨d, dl, dk, dr, rfl⟩ := Tree.isRed_eq_true hsl
        have hd : delNephews { isLeft := false, a := p, c := cp, k := kp, sib := .node s .Black (.node d .Red dl dk dr) sk sr } up recur = some ({ isLeft := false, a := p, c := .Black, k := kp, sib := sr } :: { isLeft := false, a := s, c := cp, k := sk, sib := .node d .Black dl dk dr } :: up) := by
          simp [delNephews, hsr, Bool.false_eq_true, if_false, Tree.isRed_red, and_false,
            delCase3_right_black hsr, delCase4, Tree.setColor_node, hrb, and_false, and_true]
        refine ⟨_, hd, ?_⟩
        simp only [Tree.Balanced, Tree.NoRedRed, Tree.bh, reduceCtorEq, if_false, add_zero] at bsl nsl ebh ebl
        cases cp <;>
          simp_all [ctxBal, ctxNoRR, ctxRed, Tree.Balanced, Tree.NoRedRed, Tree.bh,
            ctxRootBlack_cons_iff]
      · obtain ⟨c, cl, ck, cr, rfl⟩ := Tree.isRed_eq_true hsr
        have hd : delNephews { isLeft := false, a := p, c := cp, k := kp, sib := .node s .Black sl sk (.node c .Red cl ck cr) } up recur = some ({ isLeft := false, a := p, c := .Black, k := kp, sib := cr } :: { isLeft := false, a := c, c := cp, k := ck, sib := .node s .Black sl sk cl } :: up) := by
          simp [delNephews, Bool.false_eq_true, if_false, Tree.isRed_red, false_and,
            delCase3, delCase4, Tree.setColor_node, hrb, and_false, and_true]
        refine ⟨_, hd, ?_⟩
        simp only [Tree.Balanced, Tree.NoRedRed, Tree.bh, reduceCtorEq, if_false, add_zero] at bsr nsr ebh ebl
        cases cp <;>
          simp_all [ctxBal, ctxNoRR, ctxRed, Tree.Balanced, Tree.NoRedRed, Tree.bh,
            ctxRootBlack_cons_iff]
    · -- the node is a left child: close nephew `sl`, distant nephew `sr`
      simp only [if_true] at hboth
      cases hsl : sl.isRed
      · have hsr : sr.isRed = true := by
          cases h : sr.isRed
          · exact absurd ⟨hsl, h⟩ hboth
          · rfl
        obtain ⟨d, dl, dk, dr, rfl⟩ := Tree.isRed_eq_true hsr
        have hd : delNephews { isLeft := true, a := p, c := cp, k := kp, sib := .node s .Black sl sk (.node d .Red dl dk dr) } up recur = some ({ isLeft := true, a := p, c := .Black, k := kp, sib := sl } :: { isLeft := true, a := s, c := cp, k := sk, sib := .node d .Black dl dk dr } :: up) := by
          simp [delNephews, hsl, if_true, Tree.isRed_red, Bool.true_eq_false, and_false,
            if_false, delCase3_left_black hsl, delCase4, Tree.setColor_node, hrb, and_false, and_true]
        refine ⟨_, hd, ?_⟩
        simp only [Tree.Balanced, Tree.NoRedRed, Tree.bh, reduceCtorEq, if_false, add_zero] at bsr nsr ebh ebl
        cases cp <;>
          simp_all [ctxBal, ctxNoRR, ctxRed, Tree.Balanced, Tree.NoRedRed, Tree.bh,
            ctxRootBlack_cons_iff]
      · obtain ⟨c, cl, ck, cr, rfl⟩ := Tree.isRed_eq_true hsl
        have hd : delNephews { isLeft := true, a := p, c := cp, k := kp, sib := .node s .Black (.node c .Red cl ck cr) sk sr } up recur = some ({ isLeft := true, a := p, c := .Black, k := kp, sib := cl } :: { isLeft := true, a := c, c := cp, k := ck, sib := .node s .Black cr sk sr } :: up) := by
          simp [delNephews, if_true, Tree.isRed_red, Bool.true_eq_false, false_and,
            if_false, delCase3, delCase4, Tree.setColor_node, hrb, and_false, and_true]
        refine ⟨_, hd, ?_⟩
        simp only [Tree.Balanced, Tree.NoRedRed, Tree.bh, reduceCtorEq, if_false, add_zero] at bsl nsl ebh ebl
        cases cp <;>
          simp_all [ctxBal, ctxNoRR, ctxRed, Tree.Balanced, Tree.NoRedRed, Tree.bh,
            ctxRootBlack_cons_iff]

theorem delFix_props : ∀ (ctx : Ctx K) (b : Nat),
    ctxBal ctx (b + 1) → ctxNoRR ctx → ctxRootBlack ctx →
    ∃ ctx', delFix ctx = some ctx' ∧ ctxBal ctx' b ∧ ctxNoRR ctx' ∧ ctxRootBlack ctx' ∧
      ctxRed ctx' = false ∧ (ctx ≠ [] → ctx' ≠ [])
  | [], b, _, _, _ => ⟨[], rfl, trivial, trivial, trivial, rfl, fun h => h⟩
  | ⟨isLeft, p, cp, kp, sib⟩ :: up, b, hb, hn, hr => by
    rcases sib with _ | ⟨s, cs, sl, sk, sr⟩
    · simp [ctxBal, Tree.bh] at hb
    cases cs
    · -- Red sibling: case 1
      have hcp : cp = .Black := by
        cases cp
        · simp [ctxNoRR] at hn
        · rfl
      subst hcp
      rw [ctxRootBlack_cons_iff] at hr
      simp only [ctxBal, ctxNoRR, Tree.Balanced, Tree.NoRedRed, Tree.bh, if_true, reduceCtorEq,
        false_implies, true_and, if_false, add_zero, forall_const] at hb hn
      obtain ⟨⟨bsl, bsr, ebh⟩, ebl, hbu⟩ := hb
      obtain ⟨⟨⟨rsl, rsr⟩, nsl, nsr⟩, hnu⟩ := hn
      cases isLeft
      · obtain ⟨ctx', h1, h2, h3, h4, h5, h6⟩ := delNephews_props
          { isLeft := false, a := p, c := .Red, k := kp, sib := sr }
          ({ isLeft := false, a := s, c := .Black, k := sk, sib := sl } :: up) none b rsr
          (by simp [ctxBal, *]; omega)
          (by simp [ctxNoRR, ctxRed, *])
          (by rw [ctxRootBlack_cons_iff, ctxRootBlack_cons_iff]; simp [hr.2])
          (by simp)
        exact ⟨ctx', by simpa [delFix] using h1, h2, h3, h4, h5, fun _ => h6⟩
      · obtain ⟨ctx', h1, h2, h3, h4, h5, h6⟩ := delNephews_props
          { isLeft := true, a := p, c := .Red, k := kp, sib := sl }
          ({ isLeft := true, a := s, c := .Black, k := sk, sib := sr } :: up) none b rsl
          (by simp [ctxBal, *]; omega)
          (by simp [ctxNoRR, ctxRed, *])
          (by rw [ctxRootBlack_cons_iff, ctxRootBlack_cons_iff]; simp [hr.2])
          (by simp)
        exact ⟨ctx', by simpa [delFix] using h1, h2, h3, h4, h5, fun _ => h6⟩
    · -- Black sibling
      obtain ⟨ctx', h1, h2, h3, h4, h5, h6⟩ := delNephews_props
        { isLeft := isLeft, a := p, c := cp, k := kp, sib := .node s .Black sl sk sr } up
        (delFix up) b rfl hb hn hr
        (by
          intro hc
          simp only at hc
          subst hc
          rw [ctxRootBlack_cons_iff] at hr
          simp only [ctxBal, ctxNoRR, if_true] at hb hn
          obtain ⟨up', e1, e2, e3, e4, -, -⟩ := delFix_props up (b + 1) hb.2.2 hn.2.2 hr.2
          exact ⟨up', e1, e2, e3, e4⟩)
      exact ⟨ctx', by simpa [delFix] using h1, h2, h3, h4, h5, fun _ => h6⟩

end RBT

namespace RBT

variable {K : Type}

/-! ## The fix-up after a deletion on paths: keys and addresses -/

/-- Two paths carry the same keys before and after their position, and the same addresses. -/
theorem blackenRoot_same : ∀ (ctx : Ctx K),
    ctxBefore (blackenRoot ctx) = ctxBefore ctx ∧ ctxAfter (blackenRoot ctx) = ctxAfter ctx ∧
      ctxAddrs (blackenRoot ctx) = ctxAddrs ctx
  | [] => ⟨rfl, rfl, rfl⟩
  | [f] => ⟨rfl, rfl, rfl⟩
  | f :: g :: up => by
    obtain ⟨h1, h2, h3⟩ := blackenRoot_same (g :: up)
    exact ⟨congrArg (· ++ (if f.isLeft then [] else f.sib.toList ++ [f.k])) h1,
      congrArg ((if f.isLeft then f.k :: f.sib.toList else []) ++ ·) h2,
      congrArg (fun z => f.a :: f.sib.addrs ++ z) h3⟩

theorem addrs_setColor (c : Color) (x : Tree K) : (x.setColor c).addrs = x.addrs := by
  cases x <;> rfl

theorem delNephews_same {f : Frame K} {up : Ctx K} {recur : Option (Ctx K)} {ctx' : Ctx K}
    (hrec : ∀ up', recur = some up' → ctxBefore up' = ctxBefore up ∧ ctxAfter up' = ctxAfter up ∧
      ∀ a, a ∈ ctxAddrs up' ↔ a ∈ ctxAddrs up)
    (hd : delNephews f up recur = some ctx') :
    ctxBefore ctx' = ctxBefore (f :: up) ∧ ctxAfter ctx' = ctxAfter (f :: up) ∧
      ∀ a, a ∈ ctxAddrs ctx' ↔ a ∈ ctxAddrs (f :: up) := by
  obtain ⟨isLeft, p, cp, kp, sib⟩ := f
  rcases sib with _ | ⟨s, cs, sl, sk, sr⟩
  · simp [delNephews] at hd
  simp only [delNephews] at hd
  by_cases hboth : (if isLeft then sl else sr).isRed = false ∧ (if isLeft then sr else sl).isRed = false
  · simp only [hboth, and_self, if_true] at hd
    by_cases hcp : cp = .Red
    · simp only [hcp, if_true, Option.some.injEq] at hd
      subst hd
      simp [ctxBefore, ctxAfter, ctxAddrs, Tree.toList, Tree.addrs]
    · simp only [hcp, if_false, Option.map_eq_some'] at hd
      obtain ⟨up', e, rfl⟩ := hd
      obtain ⟨h1, h2, h3⟩ := hrec up' e
      simp [ctxBefore, ctxAfter, ctxAddrs, Tree.toList, Tree.addrs, h1, h2, h3]
  simp only [hboth, if_false] at hd
  · cases isLeft
    · rcases sr with _ | ⟨c, cc, cl, ck, cr⟩
      · simp only [delCase3, delCase4, Bool.false_eq_true, if_false, Option.some.injEq] at hd
        subst hd
        obtain ⟨h1, h2, h3⟩ := blackenRoot_same ({ isLeft := false, a := p, c := .Black, k := kp, sib := .nil } :: { isLeft := false, a := s, c := cp, k := sk, sib := sl.setColor .Black } :: up)
        rw [h1, h2, h3]
        simp [ctxBefore, ctxAfter, ctxAddrs, Tree.toList, Tree.addrs, toList_setColor,
          addrs_setColor]
        intro a; tauto
      · cases cc
        · simp only [delCase3, delCase4, Bool.false_eq_true, if_false, Option.some.injEq] at hd
          subst hd
          obtain ⟨h1, h2, h3⟩ := blackenRoot_same ({ isLeft := false, a := p, c := .Black, k := kp, sib := cr } :: { isLeft := false, a := c, c := cp, k := ck, sib := (Tree.node s .Red sl sk cl).setColor .Black } :: up)
          rw [h1, h2, h3]
          simp [ctxBefore, ctxAfter, ctxAddrs, Tree.toList, Tree.addrs]
          intro a; tauto
        · simp only [delCase3, delCase4, Bool.false_eq_true, if_false, Option.some.injEq] at hd
          subst hd
          obtain ⟨h1, h2, h3⟩ := blackenRoot_same ({ isLeft := false, a := p, c := .Black, k := kp, sib := .node c .Black cl ck cr } :: { isLeft := false, a := s, c := cp, k := sk, sib := sl.setColor .Black } :: up)
          rw [h1, h2, h3]
          simp [ctxBefore, ctxAfter, ctxAddrs, Tree.toList, Tree.addrs, toList_setColor,
            addrs_setColor]
          intro a; tauto
    · rcases sl with _ | ⟨c, cc, cl, ck, cr⟩
      · simp only [delCase3, delCase4, if_true, Option.some.injEq] at hd
        subst hd
        obtain ⟨h1, h2, h3⟩ := blackenRoot_same ({ isLeft := true, a := p, c := .Black, k := kp, sib := .nil } :: { isLeft := true, a := s, c := cp, k := sk, sib := sr.setColor .Black } :: up)
        rw [h1, h2, h3]
        simp [ctxBefore, ctxAfter, ctxAddrs, Tree.toList, Tree.addrs, toList_setColor,
          addrs_setColor]
      · cases cc
        · simp only [delCase3, delCase4, if_true, Option.some.injEq] at hd
          subst hd
          obtain ⟨h1, h2, h3⟩ := blackenRoot_same ({ isLeft := true, a := p, c := .Black, k := kp, sib := cl } :: { isLeft := true, a := c, c := cp, k := ck, sib := (Tree.node s .Red cr sk sr).setColor .Black } :: up)
          rw [h1, h2, h3]
          simp [ctxBefore, ctxAfter, ctxAddrs, Tree.toList, Tree.addrs]
        · simp only [delCase3, delCase4, if_true, Option.some.injEq] at hd
          subst hd
          obtain ⟨h1, h2, h3⟩ := blackenRoot_same ({ isLeft := true, a := p, c := .Black, k := kp, sib := .node c .Black cl ck cr } :: { isLeft := true, a := s, c := cp, k := sk, sib := sr.setColor .Black } :: up)
          rw [h1, h2, h3]
          simp [ctxBefore, ctxAfter, ctxAddrs, Tree.toList, Tree.addrs, toList_setColor,
            addrs_setColor]

theorem delFix_same : ∀ (ctx : Ctx K) {ctx' : Ctx K}, delFix ctx = some ctx' →
    ctxBefore ctx' = ctxBefore ctx ∧ ctxAfter ctx' = ctxAfter ctx ∧
      ∀ a, a ∈ ctxAddrs ctx' ↔ a ∈ ctxAddrs ctx
  | [], ctx', h => by
    simp only [delFix, Option.some.injEq] at h
    subst h
    simp
  | ⟨isLeft, p, cp, kp, sib⟩ :: up, ctx', h => by
    rcases sib with _ | ⟨s, cs, sl, sk, sr⟩
    · simp [delFix] at h
    cases cs
    · cases isLeft
      · simp only [delFix, Bool.false_eq_true, if_false] at h
        obtain ⟨h1, h2, h3⟩ := delNephews_same (by simp) h
        rw [h1, h2]
        simp only [h3]
        simp [ctxBefore, ctxAfter, ctxAddrs, Tree.toList, Tree.addrs]
        intro a; tauto
      · simp only [delFix, if_true] at h
        obtain ⟨h1, h2, h3⟩ := delNephews_same (by simp) h
        rw [h1, h2]
        simp only [h3]
        simp [ctxBefore, ctxAfter, ctxAddrs, Tree.toList, Tree.addrs]
    · simp only [delFix] at h
      exact delNephews_same (fun up' e => delFix_same up e) h

theorem toList_plug_delFix {ctx ctx' : Ctx K} (h : delFix ctx = some ctx') (x : Tree K) :
    (plug ctx' x).toList = ctxBefore ctx ++ x.toList ++ ctxAfter ctx := by
  obtain ⟨h1, h2, -⟩ := delFix_same ctx h
  rw [toList_plug, h1, h2]

end RBT

namespace RBT

variable {K : Type}

/-! ## Deletion on shapes -/

theorem plug_append : ∀ (rel rest : Ctx K) (x : Tree K),
    plug (rel ++ rest) x = plug rest (plug rel x)
  | [], _, _ => rfl
  | f :: rel, rest, x => by
    simp only [List.cons_append, plug_cons]
    exact plug_append rel rest (f.fill x)

theorem ctxBefore_append : ∀ (rel rest : Ctx K),
    ctxBefore (rel ++ rest) = ctxBefore rest ++ ctxBefore rel
  | [], rest => by simp [ctxBefore]
  | f :: rel, rest => by
    show ctxBefore (rel ++ rest) ++ _ = _
    rw [ctxBefore_append rel rest, List.append_assoc]
    rfl

theorem ctxAfter_append : ∀ (rel rest : Ctx K),
    ctxAfter (rel ++ rest) = ctxAfter rel ++ ctxAfter rest
  | [], rest => by simp [ctxAfter]
  | f :: rel, rest => by
    show _ ++ ctxAfter (rel ++ rest) = _
    rw [ctxAfter_append rel rest, ← List.append_assoc]
    rfl

theorem ctxAddrs_append : ∀ (rel rest : Ctx K),
    ctxAddrs (rel ++ rest) = ctxAddrs rel ++ ctxAddrs rest
  | [], rest => by simp [ctxAddrs]
  | f :: rel, rest => by
    show f.a :: f.sib.addrs ++ ctxAddrs (rel ++ rest) = _
    rw [ctxAddrs_append rel rest, ← List.append_assoc]
    rfl

theorem mem_addrs_plug (ctx : Ctx K) (x : Tree K) (a : Nat) :
    a ∈ (plug ctx x).addrs ↔ a ∈ x.addrs ∨ a ∈ ctxAddrs ctx := by
  rw [(plug_addrs_perm ctx x).mem_iff, List.mem_append]

/-- Facts about the path to the leftmost node. -/
theorem leftSpine_spec : ∀ (x : Tree K) (acc : Ctx K), x.ptr ≠ none →
    ∃ rel s cs sk sr, leftSpine x acc = (rel ++ acc, .node s cs .nil sk sr) ∧
      plug rel (.node s cs .nil sk sr) = x ∧ ctxBefore rel = [] ∧
      rel.length < x.height
  | .nil, _, h => by simp at h
  | .node s cs sl sk sr, acc, _ => by
    rw [leftSpine]
    by_cases hl : sl.ptr = none
    · have : sl = .nil := by
        cases sl with
        | nil => rfl
        | node => simp at hl
      subst this
      exact ⟨[], s, cs, sk, sr, by simp, rfl, rfl, by simp [Tree.height]⟩
    · obtain ⟨rel, s1, cs1, sk1, sr1, h1, h2, h3, h4⟩ :=
        leftSpine_spec sl ({ isLeft := true, a := s, c := cs, k := sk, sib := sr } :: acc) hl
      refine ⟨rel ++ [{ isLeft := true, a := s, c := cs, k := sk, sib := sr }], s1, cs1, sk1, sr1,
        ?_, ?_, ?_, ?_⟩
      · simp [hl, h1]
      · rw [plug_append, h2]
        rfl
      · rw [ctxBefore_append, h3]
        simp [ctxBefore]
      · simp [Tree.height]
        omega

theorem Tree.eq_nil_of_ptr {x : Tree K} (h : x.ptr = none) : x = .nil := by
  cases x with
  | nil => rfl
  | node => simp at h

theorem delNode_same {ctx : Ctx K} {c : Color} {l r : Tree K} {T' : Tree K}
    (h : delNode ctx c l r = some T') (hlr : l.ptr = none ∨ r.ptr = none) :
    T'.toList = ctxBefore ctx ++ (l.toList ++ r.toList) ++ ctxAfter ctx ∧
      ∀ a ∈ ctxAddrs ctx, a ∈ T'.addrs := by
  unfold delNode at h
  by_cases hleaf : l.ptr = none ∧ r.ptr = none
  · obtain ⟨rfl, rfl⟩ : l = .nil ∧ r = .nil :=
      ⟨Tree.eq_nil_of_ptr hleaf.1, Tree.eq_nil_of_ptr hleaf.2⟩
    simp only [Tree.ptr_nil, and_self, if_true] at h
    by_cases hc : c = .Black
    · simp only [hc, if_true] at h
      cases hd : delFix ctx with
      | none => simp [hd] at h
      | some ctx' =>
        rw [hd] at h
        cases ctx' with
        | nil => simp at h
        | cons f up =>
          simp only [Option.some.injEq] at h
          subst h
          refine ⟨by simpa [Tree.toList] using toList_plug_delFix hd .nil, fun a ha => ?_⟩
          rw [mem_addrs_plug]
          exact Or.inr (((delFix_same ctx hd).2.2 a).2 ha)
    · simp only [hc, if_false] at h
      cases ctx with
      | nil => simp at h
      | cons f up =>
        simp only [Option.some.injEq] at h
        subst h
        refine ⟨by rw [toList_plug]; simp [Tree.toList], fun a ha => ?_⟩
        rw [mem_addrs_plug]
        exact Or.inr ha
  · simp only [hleaf, if_false] at h
    have hrep : (if l.ptr = none then r else l).toList = l.toList ++ r.toList := by
      rcases hlr with h1 | h1
      · simp [h1, Tree.eq_nil_of_ptr h1, Tree.toList]
      · have h2 : ¬ l.ptr = none := fun h2 => hleaf ⟨h2, h1⟩
        simp [h2, Tree.eq_nil_of_ptr h1, Tree.toList]
    cases ctx with
    | nil => simp at h
    | cons f up =>
      simp only at h
      by_cases hc : c = .Black
      · simp only [hc, if_true] at h
        by_cases hred : (if l.ptr = none then r else l).isRed = true
        · simp only [hred, if_true, Option.some.injEq] at h
          subst h
          refine ⟨by rw [toList_plug, toList_setColor, hrep], fun a ha => ?_⟩
          rw [mem_addrs_plug]
          exact Or.inr ha
        · simp only [hred, Bool.false_eq_true, if_false, Option.map_eq_some'] at h
          obtain ⟨ctx1, hd, rfl⟩ := h
          refine ⟨by rw [toList_plug_delFix hd, hrep], fun a ha => ?_⟩
          rw [mem_addrs_plug]
          exact Or.inr (((delFix_same _ hd).2.2 a).2 ha)
      · simp only [hc, if_false, Option.some.injEq] at h
        subst h
        refine ⟨by rw [toList_plug, hrep], fun a ha => ?_⟩
        rw [mem_addrs_plug]
        exact Or.inr ha

theorem delNode_RB {ctx : Ctx K} {n : Nat} {c : Color} {l r : Tree K} {k : K}
    (hctx : ctx ≠ []) (hlr : l.ptr = none ∨ r.ptr = none)
    (h : (plug ctx (.node n c l k r)).RB) : ∃ T', delNode ctx c l r = some T' ∧ T'.RB := by
  obtain ⟨f, up, rfl⟩ : ∃ f up, ctx = f :: up := by
    cases ctx with
    | nil => exact absurd rfl hctx
    | cons f up => exact ⟨f, up, rfl⟩
  rw [RB_plug_cons] at h
  obtain ⟨hroot, ⟨hnx, hnc, hrx⟩, hbx, hbc⟩ := h
  simp only [Tree.NoRedRed, Tree.Balanced, Tree.bh] at hnx hbx hbc
  unfold delNode
  by_cases hleaf : l.ptr = none ∧ r.ptr = none
  · obtain ⟨rfl, rfl⟩ : l = .nil ∧ r = .nil :=
      ⟨Tree.eq_nil_of_ptr hleaf.1, Tree.eq_nil_of_ptr hleaf.2⟩
    simp only [Tree.ptr_nil, and_self, if_true]
    by_cases hc : c = .Black
    · subst hc
      simp only [if_true, Tree.bh, zero_add] at hbc ⊢
      obtain ⟨ctx', h1, h2, h3, h4, h5, h6⟩ := delFix_props (f :: up) 0 hbc hnc hroot
      obtain ⟨f', up', rfl⟩ : ∃ f' up', ctx' = f' :: up' := by
        cases ctx' with
        | nil => exact absurd rfl (h6 (by simp))
        | cons f' up' => exact ⟨f', up', rfl⟩
      refine ⟨_, by rw [h1], ?_⟩
      rw [RB_plug_cons]
      exact ⟨h4, ⟨trivial, h3, fun _ => rfl⟩, trivial, h2⟩
    · simp only [hc, if_false, Tree.bh, add_zero] at hbc ⊢
      refine ⟨_, rfl, ?_⟩
      rw [RB_plug_cons]
      exact ⟨hroot, ⟨trivial, hnc, fun _ => rfl⟩, trivial, hbc⟩
  · simp only [hleaf, if_false]
    -- the single child is a Red node without children, and the node is Black
    have key : ∃ m ml mk mr, (if l.ptr = none then r else l) = .node m .Red ml mk mr ∧
        ml.bh = 0 ∧ ml.Balanced ∧ mr.Balanced ∧ ml.bh = mr.bh ∧ ml.NoRedRed ∧ mr.NoRedRed ∧
        l.bh = 0 := by
      rcases hlr with h1 | h1
      · have h2 : ¬ r.ptr = none := fun h2 => hleaf ⟨h1, h2⟩
        obtain rfl := Tree.eq_nil_of_ptr h1
        rcases r with _ | ⟨m, cm, ml, mk, mr⟩
        · simp at h2
        · cases cm
          · simp only [Tree.bh, Tree.Balanced, Tree.NoRedRed] at hbx hnx
            exact ⟨m, ml, mk, mr, by simp, by simpa using hbx.2.2.symm, hbx.2.1.1, hbx.2.1.2.1,
              hbx.2.1.2.2, hnx.2.2.2.1, hnx.2.2.2.2, rfl⟩
          · simp [Tree.bh] at hbx
      · have h2 : ¬ l.ptr = none := fun h2 => hleaf ⟨h2, h1⟩
        obtain rfl := Tree.eq_nil_of_ptr h1
        rcases l with _ | ⟨m, cm, ml, mk, mr⟩
        · simp at h2
        · cases cm
          · simp only [Tree.bh, Tree.Balanced, Tree.NoRedRed] at hbx hnx
            exact ⟨m, ml, mk, mr, by simp, by simpa using hbx.2.2, hbx.1.1, hbx.1.2.1,
              hbx.1.2.2, hnx.2.1.2.1, hnx.2.1.2.2, by simpa [Tree.bh] using hbx.2.2⟩
          · simp [Tree.bh] at hbx
    obtain ⟨m, ml, mk, mr, e, e0, b1, b2, b3, n1, n2, el⟩ := key
    have hc : c = .Black := by
      cases c
      · exfalso
        have := hnx.1 rfl
        rcases hlr with h1 | h1
        · simp only [h1, if_true] at e
          rw [e] at this
          simp at this
        · have h2 : ¬ l.ptr = none := fun h2 => hleaf ⟨h2, h1⟩
          simp only [h2, if_false] at e
          rw [e] at this
          simp at this
      · rfl
    subst hc
    rw [e]
    simp only [if_true, Tree.isRed_red, Tree.setColor_node]
    refine ⟨_, rfl, ?_⟩
    rw [RB_plug_cons]
    refine ⟨hroot, ⟨⟨by simp, n1, n2⟩, hnc, fun _ => rfl⟩, ⟨b1, b2, b3⟩, ?_⟩
    simpa [Tree.bh, e0, el] using hbc

end RBT

namespace RBT

variable {K : Type}

theorem RB_plug_ne {ctx : Ctx K} (hne : ctx ≠ []) (x : Tree K) :
    (plug ctx x).RB ↔
      ctxRootBlack ctx ∧ (x.NoRedRed ∧ ctxNoRR ctx ∧ (ctxRed ctx = true → x.isRed = false)) ∧
        x.Balanced ∧ ctxBal ctx x.bh := by
  cases ctx with
  | nil => exact absurd rfl hne
  | cons f up => exact RB_plug_cons f up x

theorem Tree.isRed_node (a : Nat) (c : Color) (l : Tree K) (k : K) (r : Tree K) :
    (Tree.node a c l k r).isRed = decide (c = .Red) := by
  cases c <;> rfl

/-- The colour invariants of a path do not look at the keys. -/
theorem ctx_setKey (fl : Bool) (fa : Nat) (fc : Color) (k k' : K) (fs : Tree K) (ctx : Ctx K) :
    ∀ (rel : Ctx K),
      ctxRed (rel ++ { isLeft := fl, a := fa, c := fc, k := k', sib := fs } :: ctx) =
        ctxRed (rel ++ { isLeft := fl, a := fa, c := fc, k := k, sib := fs } :: ctx) ∧
      (ctxRootBlack (rel ++ { isLeft := fl, a := fa, c := fc, k := k', sib := fs } :: ctx) ↔
        ctxRootBlack (rel ++ { isLeft := fl, a := fa, c := fc, k := k, sib := fs } :: ctx)) ∧
      (ctxNoRR (rel ++ { isLeft := fl, a := fa, c := fc, k := k', sib := fs } :: ctx) ↔
        ctxNoRR (rel ++ { isLeft := fl, a := fa, c := fc, k := k, sib := fs } :: ctx)) ∧
      ∀ b, (ctxBal (rel ++ { isLeft := fl, a := fa, c := fc, k := k', sib := fs } :: ctx) b ↔
        ctxBal (rel ++ { isLeft := fl, a := fa, c := fc, k := k, sib := fs } :: ctx) b)
  | [] => by
    refine ⟨rfl, ?_, ?_, fun b => ?_⟩
    · simp only [List.nil_append, ctxRootBlack_cons_iff]
    · simp only [List.nil_append, ctxNoRR]
    · simp only [List.nil_append, ctxBal]
  | g :: rel => by
    obtain ⟨h1, h2, h3, h4⟩ := ctx_setKey fl fa fc k k' fs ctx rel
    refine ⟨rfl, ?_, ?_, fun b => ?_⟩
    · simp only [List.cons_append, ctxRootBlack_cons_iff, h2]
      simp
    · simp only [List.cons_append, ctxNoRR, List.append_eq, h1, h3]
    · simp only [List.cons_append, ctxBal, List.append_eq, h4]

theorem delFound_same {ctx : Ctx K} {a : Nat} {c : Color} {l r : Tree K} {T' : Tree K}
    (h : delFound ctx a c l r = some T') :
    T'.toList = ctxBefore ctx ++ (l.toList ++ r.toList) ++ ctxAfter ctx ∧
      ∀ x ∈ ctxAddrs ctx, x ∈ T'.addrs := by
  unfold delFound at h
  by_cases hlr : l.ptr = none ∨ r.ptr = none
  · simp only [hlr, if_true] at h
    exact delNode_same h hlr
  · simp only [hlr, if_false] at h
    have hr : r.ptr ≠ none := fun e => hlr (Or.inr e)
    obtain ⟨rel, s, cs, sk, sr, h1, h2, h3, -⟩ := leftSpine_spec r [] hr
    rw [h1] at h
    simp only [List.append_nil] at h
    obtain ⟨e1, e2⟩ := delNode_same h (Or.inl Tree.ptr_nil)
    refine ⟨?_, fun x hx => e2 x ?_⟩
    · rw [e1, ctxBefore_append, ctxAfter_append, ← h2, toList_plug, h3]
      simp [ctxBefore, ctxAfter, Tree.toList]
    · rw [ctxAddrs_append]
      simp [ctxAddrs, hx]

theorem delFound_RB {ctx : Ctx K} {a : Nat} {c : Color} {l r : Tree K} {k : K}
    (hc : ctx ≠ [] ∨ (l.ptr ≠ none ∧ r.ptr ≠ none))
    (h : (plug ctx (.node a c l k r)).RB) : ∃ T', delFound ctx a c l r = some T' ∧ T'.RB := by
  unfold delFound
  by_cases hlr : l.ptr = none ∨ r.ptr = none
  · simp only [hlr, if_true]
    have hne : ctx ≠ [] := by
      rcases hc with hc | hc
      · exact hc
      · rcases hlr with e | e
        · exact absurd e hc.1
        · exact absurd e hc.2
    exact delNode_RB hne hlr h
  · simp only [hlr, if_false]
    have hr : r.ptr ≠ none := fun e => hlr (Or.inr e)
    obtain ⟨rel, s, cs, sk, sr, h1, h2, h3, -⟩ := leftSpine_spec r [] hr
    rw [h1]
    simp only [List.append_nil]
    apply delNode_RB (by simp) (Or.inl Tree.ptr_nil) (n := s) (k := k)
    have h0 : (plug (rel ++ { isLeft := false, a := a, c := c, k := k, sib := l } :: ctx)
        (.node s cs .nil sk sr)).RB := by
      rw [plug_append, h2]
      exact h
    rw [RB_plug_ne (by simp)] at h0 ⊢
    obtain ⟨g1, g2, g3, g4⟩ := ctx_setKey false a c k sk l ctx rel
    rw [g1, g2, g3]
    simp only [Tree.bh, Tree.NoRedRed, Tree.Balanced, Tree.isRed_node] at h0 ⊢
    rw [g4]
    exact h0

theorem delDown_same [LinearOrder K] (v : K) : ∀ (x : Tree K) (ctx : Ctx K) {T' : Tree K},
    delDown ctx x v = some T' →
    (∃ p q, x.toList = p ++ v :: q ∧ T'.toList = ctxBefore ctx ++ (p ++ q) ++ ctxAfter ctx) ∧
      ∀ a ∈ ctxAddrs ctx, a ∈ T'.addrs
  | .nil, ctx, T', h => by simp [delDown] at h
  | .node a c l k r, ctx, T', h => by
    rw [delDown] at h
    by_cases hk : k = v
    · simp only [hk, if_true] at h
      obtain ⟨h1, h2⟩ := delFound_same h
      exact ⟨⟨l.toList, r.toList, by simp [Tree.toList, hk], h1⟩, h2⟩
    · simp only [hk, if_false] at h
      by_cases hv : v < k
      · simp only [hv, if_true] at h
        obtain ⟨⟨p, q, e1, e2⟩, e3⟩ := delDown_same v l _ h
        refine ⟨⟨p, q ++ k :: r.toList, by simp [Tree.toList, e1], ?_⟩, fun x hx => e3 x ?_⟩
        · rw [e2]
          simp [ctxBefore, ctxAfter]
        · simp only [ctxAddrs, List.mem_append, List.mem_cons]
          exact Or.inr hx
      · simp only [hv, if_false] at h
        obtain ⟨⟨p, q, e1, e2⟩, e3⟩ := delDown_same v r _ h
        refine ⟨⟨l.toList ++ k :: p, q, by simp [Tree.toList, e1], ?_⟩, fun x hx => e3 x ?_⟩
        · rw [e2]
          simp [ctxBefore, ctxAfter]
        · simp only [ctxAddrs, List.mem_append, List.mem_cons]
          exact Or.inr hx

theorem delDown_RB [LinearOrder K] (v : K) : ∀ (x : Tree K) (ctx : Ctx K),
    (plug ctx x).RB → (x.lookup v).2 = true →
    (ctx = [] → ∀ a c l k r, x = .node a c l k r → k = v → l.ptr ≠ none ∧ r.ptr ≠ none) →
    ∃ T', delDown ctx x v = some T' ∧ T'.RB
  | .nil, ctx, _, hl, _ => by simp [Tree.lookup] at hl
  | .node a c l k r, ctx, h, hl, hroot => by
    rw [delDown]
    rw [Tree.lookup] at hl
    by_cases hk : k = v
    · simp only [hk, if_true]
      apply delFound_RB ?_ h
      by_cases hc : ctx = []
      · exact Or.inr (hroot hc a c l k r rfl hk)
      · exact Or.inl hc
    · simp only [hk, if_false] at hl ⊢
      by_cases hv : v < k
      · have : ¬ k < v := not_lt.2 hv.le
        simp only [this, if_false] at hl
        simp only [hv, if_true]
        exact delDown_RB v l _ h hl (fun e => by simp at e)
      · have : k < v := lt_of_le_of_ne (not_lt.1 hv) hk
        simp only [this, if_true] at hl
        simp only [hv, if_false]
        exact delDown_RB v r _ h hl (fun e => by simp at e)

end RBT

namespace RBT

variable {K : Type}

/-! ## Deletion on the heap -/

theorem findSuccessor_spec : ∀ (x : Tree K) (acc : Ctx K) (fuel : Nat) (t : RBTree K),
    x.ptr ≠ none → WF t (plug acc x) → x.height ≤ fuel →
    findSuccessor fuel t.heap (ctxPtr acc) x.ptr =
      .ok (ctxPtr (leftSpine x acc).1, (leftSpine x acc).2.ptr)
  | .nil, _, _, _, h, _, _ => by simp at h
  | .node s cs sl sk sr, acc, fuel, t, _, hw, hf => by
    obtain ⟨fuel, rfl⟩ : ∃ m, fuel = m + 1 := ⟨fuel - 1, by simp [Tree.height] at hf; omega⟩
    rw [leftSpine, findSuccessor]
    simp only [Tree.ptr_node, wf_load hw, ok_bind]
    by_cases hl : sl.ptr = none
    · simp [hl, pure, Except.pure]
    · have hw' : WF t (plug ({ isLeft := true, a := s, c := cs, k := sk, sib := sr } :: acc) sl) := hw
      have := findSuccessor_spec sl _ fuel t hl hw' (by simp [Tree.height] at hf; omega)
      rw [show ctxPtr ({ isLeft := true, a := s, c := cs, k := sk, sib := sr } :: acc) = some s from rfl] at this
      simp [hl, this]

theorem WF_setVal {t : RBTree K} {ctx : Ctx K} {a : Nat} {c : Color} {l r : Tree K} {k : K}
    (k' : K) (hw : WF t (plug ctx (.node a c l k r))) :
    WF { t with heap := upd t.heap a (fun x => { x with Val := k' }) }
      (plug ctx (.node a c l k' r)) := by
  obtain ⟨hroot, hctx, hrep, hnd⟩ := WF_plug.1 hw
  refine WF_plug.2 ⟨hroot, ?_, ?_, hnd⟩
  · simp only [Tree.addrs, List.nodup_append, List.nodup_cons, List.disjoint_append_left,
      List.disjoint_cons_left, List.mem_append, List.mem_cons, not_or] at hnd
    exact RepCtx_upd_of_not_mem _ hnd.2.2.2.1 hctx
  · simp only [Rep] at hrep ⊢
    simp only [Tree.addrs, List.nodup_append, List.nodup_cons, List.disjoint_append_left,
      List.disjoint_cons_left, List.disjoint_cons_right, List.mem_append, List.mem_cons,
      not_or] at hnd
    refine ⟨by simp [hrep.1], Rep_upd_of_not_mem _ ?_ hrep.2.1, Rep_upd_of_not_mem _ ?_ hrep.2.2⟩
    · exact hnd.1.2.2.1
    · exact hnd.1.2.1.1

/-- The subtree below the innermost node of a path is replaced by `y`: the heap
`h1` stores `y` below that node, and differs on the path only by the child
pointer of the innermost node. -/
theorem WF_replace {t : RBTree K} {f : Frame K} {up : Ctx K} {x y : Tree K} {h1 : Heap K}
    (hw : WF t (plug (f :: up) x)) (hy : Rep h1 (some f.a) y)
    (hnd : (y.addrs ++ ctxAddrs (f :: up)).Nodup)
    (hag : ∀ a ∈ ctxAddrs (f :: up), h1[a]? =
      (t.heap[a]?).map (fun c => if some f.a = some a then ctxSet (f :: up) y.ptr c else c)) :
    WF { t with heap := h1 } (plug (f :: up) y) := by
  obtain ⟨hroot, hctx, hrep, hnd0⟩ := WF_plug.1 hw
  refine WF_plug.2 ⟨hroot, ?_, hy, hnd⟩
  exact RepCtx_of_agree y.ptr hctx (List.nodup_append.1 hnd).2.1 hag

theorem WF_unlink {t : RBTree K} {f : Frame K} {up : Ctx K} {x : Tree K}
    (hw : WF t (plug (f :: up) x)) :
    WF { t with heap := upd t.heap f.a (ctxSet (f :: up) none) } (plug (f :: up) .nil) := by
  obtain ⟨hroot, hctx, hrep, hnd0⟩ := WF_plug.1 hw
  refine WF_replace hw trivial ?_ (fun a ha => ?_)
  · simpa [Tree.addrs] using (List.nodup_append.1 hnd0).2.1
  · rw [getElem?_upd]
    by_cases e : f.a = a
    · simp [e]
    · simp [e]

end RBT

namespace RBT

variable {K : Type}

theorem delete_eq [LinearOrder K] (fuel : Nat) (t : RBTree K) (a : Nat) (v : K) :
    delete (fuel + 1) t (some a) v = (do
      let x ← load t.heap (some a)
      if x.Val ≠ v then
        let t1 ← if v < x.Val then delete fuel t x.left v else delete fuel t x.right v
        let h1 ← maintainRelationship t1.heap (some a)
        pure { t1 with heap := h1 }
      else if Size t = 1 then Clear t
      else
        let (t1, n1) ← deleteSwap t (some a) x
        let t2 ← deleteNode t1 n1
        pure { t2 with cnt := (t2.cnt + uintModulus - 1) % uintModulus }) := by
  rw [delete]

theorem wf_maintain_parent {t : RBTree K} {f : Frame K} {up : Ctx K} {x : Tree K}
    (hw : WF t (plug (f :: up) x)) : maintainRelationship t.heap (some f.a) = .ok t.heap := by
  have hw' : WF t (plug up (f.fill x)) := hw
  rw [Frame.fill_eq] at hw'
  exact maintain_noop (WF_plug.1 hw').2.2.1

theorem wf_maintain_ctx {t : RBTree K} {ctx : Ctx K} {x : Tree K}
    (hw : WF t (plug ctx x)) (hne : ctx ≠ []) :
    maintainRelationship t.heap (ctxPtr ctx) = .ok t.heap := by
  cases ctx with
  | nil => exact absurd rfl hne
  | cons f up => exact wf_maintain_parent hw

theorem ctxPtr_append_setKey (fl : Bool) (fa : Nat) (fc : Color) (k k' : K) (fs : Tree K)
    (ctx rel : Ctx K) :
    ctxPtr (rel ++ { isLeft := fl, a := fa, c := fc, k := k', sib := fs } :: ctx) =
      ctxPtr (rel ++ { isLeft := fl, a := fa, c := fc, k := k, sib := fs } :: ctx) := by
  cases rel <;> rfl

theorem wf_height_le {t : RBTree K} {ctx : Ctx K} {x : Tree K} (hw : WF t (plug ctx x)) :
    x.height ≤ t.heap.length := by
  obtain ⟨_, _, hrep, hnd⟩ := WF_plug.1 hw
  exact Nat.le_of_lt_succ (Shaped_height_lt (Rep_shaped hrep) (List.nodup_append.1 hnd).1)

theorem deleteSwap_leaf {t : RBTree K} {ctx : Ctx K} {a : Nat} {c : Color} {l r : Tree K} {k : K}
    (hlr : l.ptr = none ∨ r.ptr = none) :
    deleteSwap t (some a)
      { Val := k, parent := ctxPtr ctx, left := l.ptr, right := r.ptr, color := c } =
      .ok (t, some a) := by
  unfold deleteSwap
  rcases hlr with h | h <;> simp [h, pure, Except.pure]

theorem leftSpine_acc : ∀ (x : Tree K) (acc : Ctx K),
    leftSpine x acc = ((leftSpine x []).1 ++ acc, (leftSpine x []).2)
  | .nil, acc => by simp [leftSpine]
  | .node s cs sl sk sr, acc => by
    rw [leftSpine, leftSpine]
    by_cases hl : sl.ptr = none
    · simp [hl]
    · simp only [hl, if_false]
      rw [leftSpine_acc sl ({ isLeft := true, a := s, c := cs, k := sk, sib := sr } :: acc),
        leftSpine_acc sl [{ isLeft := true, a := s, c := cs, k := sk, sib := sr }]]
      simp

theorem deleteSwap_spec {t : RBTree K} {ctx rel : Ctx K} {a s : Nat} {c cs : Color}
    {l r sr : Tree K} {k sk : K}
    (hw : WF t (plug ctx (.node a c l k r))) (hl : l.ptr ≠ none) (hr : r.ptr ≠ none)
    (hs : leftSpine r [] = (rel, .node s cs .nil sk sr)) :
    ∃ t', deleteSwap t (some a)
        { Val := k, parent := ctxPtr ctx, left := l.ptr, right := r.ptr, color := c } =
        .ok (t', some s) ∧
      WF t' (plug (rel ++ { isLeft := false, a := a, c := c, k := sk, sib := l } :: ctx)
        (.node s cs .nil k sr)) ∧
      t'.cnt = t.cnt ∧ t'.heap.length = t.heap.length := by
  obtain ⟨rel0, s0, cs0, sk0, sr0, g1, g2, -, -⟩ := leftSpine_spec r [] hr
  rw [hs] at g1
  simp only [List.append_nil, Prod.mk.injEq, Tree.node.injEq] at g1
  obtain ⟨rfl, rfl, rfl, -, rfl, rfl⟩ := g1
  have hacc := leftSpine_acc r ({ isLeft := false, a := a, c := c, k := k, sib := l } :: ctx)
  rw [hs] at hacc
  have hwr : WF t (plug ({ isLeft := false, a := a, c := c, k := k, sib := l } :: ctx) r) := hw
  have hfs := findSuccessor_spec r _ (t.heap.length + 1) t (by simpa using hr) hwr
    (Nat.le_succ_of_le (wf_height_le hwr))
  rw [hacc] at hfs
  simp only [Tree.ptr_node] at hfs
  have hfs1 : findSuccessor (t.heap.length + 1) t.heap (some a) r.ptr =
      .ok (ctxPtr (rel ++ { isLeft := false, a := a, c := c, k := k, sib := l } :: ctx), some s) :=
    hfs
  -- the successor, seen from the root
  have hw1 : WF t (plug (rel ++ { isLeft := false, a := a, c := c, k := k, sib := l } :: ctx)
      (.node s cs .nil sk sr)) := by
    rw [plug_append, g2]; exact hw
  -- the value of the successor is written to `a`
  have hw2 := WF_setVal sk hw
  have hw3 : WF { t with heap := upd t.heap a (fun x => { x with Val := sk }) }
      (plug (rel ++ { isLeft := false, a := a, c := c, k := sk, sib := l } :: ctx)
        (.node s cs .nil sk sr)) := by
    rw [plug_append, g2]; exact hw2
  -- the value of `a` is written to the successor
  have hw4 := WF_setVal k hw3
  have hm := wf_maintain_ctx hw4 (by simp)
  refine ⟨_, ?_, hw4, rfl, by simp⟩
  have hlb : (l.ptr != none) = true := by simpa using hl
  have hrb : (r.ptr != none) = true := by simpa using hr
  simp only [deleteSwap, hlb, hrb, Bool.and_self, if_true, hfs1, ok_bind, wf_load hw1,
    store_of_lt _ (wf_lt hw), store_of_lt _ (wf_lt hw3),
    ctxPtr_append_setKey false a c sk k l ctx rel ▸ hm, pure, Except.pure]

end RBT

namespace RBT

variable {K : Type}

theorem wf_isLeaf {t : RBTree K} {ctx : Ctx K} {a : Nat} {c : Color} {l r : Tree K} {k : K}
    (hw : WF t (plug ctx (.node a c l k r))) :
    isLeaf t.heap (some a) = .ok (l.ptr == none && r.ptr == none) := by
  simp [isLeaf, wf_load hw, bind, Except.bind, pure, Except.pure]

/-- Unlinking the node at the end of a path, as the code does it. -/
theorem unlink_run {t : RBTree K} {f : Frame K} {up : Ctx K} {n : Nat} {c : Color} {k : K}
    (hw : WF t (plug (f :: up) (.node n c .nil k .nil))) :
    ∃ t', (do
        let d ← direction t.heap (some n)
        let y ← load t.heap (some n)
        if d == Direction.DirLeft then do
          let h1 ← store t.heap y.parent (fun c => { c with left := none })
          pure { t with heap := h1 }
        else do
          let h1 ← store t.heap y.parent (fun c => { c with right := none })
          pure { t with heap := h1 }) = .ok t' ∧
      WF t' (plug (f :: up) .nil) ∧ t'.cnt = t.cnt ∧ t'.heap.length = t.heap.length := by
  refine ⟨_, ?_, WF_unlink hw, rfl, by simp⟩
  simp only [wf_direction hw, wf_load hw, ok_bind, ctxPtr, dirOf]
  cases hf : f.isLeft
  · simp [store_of_lt _ (wf_frame_lt hw), ctxSet, hf, pure, Except.pure, bind, Except.bind]
  · simp [store_of_lt _ (wf_frame_lt hw), ctxSet, hf, pure, Except.pure, bind, Except.bind]

theorem deleteNode_leaf {t : RBTree K} {ctx : Ctx K} {n : Nat} {c : Color} {k : K} {T' : Tree K}
    (hw : WF t (plug ctx (.node n c .nil k .nil))) (hd : delNode ctx c .nil .nil = some T') :
    ∃ t', deleteNode t (some n) = .ok t' ∧ WF t' T' ∧ t'.cnt = t.cnt ∧
      t'.heap.length = t.heap.length := by
  simp only [delNode, Tree.ptr_nil, and_self, if_true] at hd
  cases c
  · -- Red leaf
    simp only [reduceCtorEq, if_false] at hd
    cases ctx with
    | nil => simp at hd
    | cons f up =>
      simp only [Option.some.injEq] at hd
      subst hd
      obtain ⟨t', h1, h2, h3, h4⟩ := unlink_run hw
      refine ⟨t', ?_, h2, h3, h4⟩
      simp only [deleteNode, wf_isLeaf hw, wf_isBlack hw, ok_bind]
      simpa [pure, Except.pure] using h1
  · -- Black leaf
    simp only [if_true] at hd
    cases hf : delFix ctx with
    | none => simp [hf] at hd
    | some ctx' =>
      rw [hf] at hd
      cases ctx' with
      | nil => simp at hd
      | cons f up =>
        simp only [Option.some.injEq] at hd
        subst hd
        obtain ⟨t1, g1, g2, g3, g4⟩ := deleteFixUp_spec ctx hw
          (Nat.lt_succ_of_le (wf_ctx_length_le hw)) hf
        obtain ⟨t', h1, h2, h3, h4⟩ := unlink_run g2
        refine ⟨t', ?_, h2, by omega, by omega⟩
        simp only [deleteNode, wf_isLeaf hw, wf_isBlack hw, ok_bind]
        simpa [g1, ok_bind] using h1

/-- The node at the end of a path is replaced by one of its children. -/
theorem WF_splice {t : RBTree K} {f : Frame K} {up : Ctx K} {n m : Nat} {c cm : Color}
    {l r ml mr : Tree K} {k mk : K}
    (hw : WF t (plug (f :: up) (.node n c l k r)))
    (hrep : .node m cm ml mk mr = l ∨ .node m cm ml mk mr = r) :
    WF { t with heap := upd (upd t.heap f.a (ctxSet (f :: up) (some m))) m (fun x => { x with parent := some f.a }) }
      (plug (f :: up) (.node m cm ml mk mr)) ∧
    (upd t.heap f.a (ctxSet (f :: up) (some m)))[n]? = t.heap[n]? ∧
    (upd (upd t.heap f.a (ctxSet (f :: up) (some m))) m
        (fun x => { x with parent := some f.a }))[n]? = t.heap[n]? := by
  obtain ⟨hroot, hctx, hrn, hnd0⟩ := WF_plug.1 hw
  have hr0 : Rep t.heap (some n) (.node m cm ml mk mr) ∧
      (∀ x ∈ (Tree.node m cm ml mk mr).addrs, x ∈ l.addrs ∨ x ∈ r.addrs) := by
    simp only [Rep] at hrn
    rcases hrep with e | e
    · exact ⟨e ▸ hrn.2.1, fun x hx => Or.inl (e ▸ hx)⟩
    · exact ⟨e ▸ hrn.2.2, fun x hx => Or.inr (e ▸ hx)⟩
  obtain ⟨hr1, hsub⟩ := hr0
  have hndn : (Tree.node n c l k r).addrs.Nodup := (List.nodup_append.1 hnd0).1
  have hndc : (ctxAddrs (f :: up)).Nodup := (List.nodup_append.1 hnd0).2.1
  have hdisj := (List.nodup_append.1 hnd0).2.2
  have hsub' : ∀ x ∈ (Tree.node m cm ml mk mr).addrs, x ∈ (Tree.node n c l k r).addrs := by
    intro x hx
    simp only [Tree.addrs, List.mem_append, List.mem_cons]
    rcases hsub x hx with h | h
    · exact Or.inl h
    · exact Or.inr (Or.inr h)
  have hmm : m ∈ (Tree.node m cm ml mk mr).addrs := by simp [Tree.addrs]
  have hfa : f.a ∈ ctxAddrs (f :: up) := by simp [ctxAddrs]
  have hnn : n ∈ (Tree.node n c l k r).addrs := by simp [Tree.addrs]
  have hnfa : f.a ≠ n := fun e => hdisj hnn (e ▸ hfa)
  have hmn : m ≠ n := by
    rintro rfl
    simp only [Tree.addrs, List.nodup_append, List.nodup_cons, List.mem_append, List.mem_cons,
      not_or, List.disjoint_left] at hndn
    rcases hsub m hmm with h | h
    · exact (hndn.2.2 h).1 rfl
    · exact hndn.2.1.1 h
  have hndm : (Tree.node m cm ml mk mr).addrs.Nodup := by
    rcases hrep with e | e
    · rw [e]
      simp only [Tree.addrs] at hndn
      exact (List.nodup_append.1 hndn).1
    · rw [e]
      simp only [Tree.addrs] at hndn
      exact (List.nodup_cons.1 (List.nodup_append.1 hndn).2.1).2
  refine ⟨WF_replace hw ?_ ?_ ?_, ?_, ?_⟩
  · refine Rep_of_agree (some f.a) hr1 hndm (fun x hx => ?_)
    have hxf : f.a ≠ x := fun e => hdisj (hsub' x hx) (e ▸ hfa)
    rw [getElem?_upd, getElem?_upd_ne _ _ hxf]
    by_cases e : m = x
    · simp [e]
    · have : ¬ x = m := fun h => e h.symm
      simp [e, this]
  · refine List.nodup_append.2 ⟨hndm, hndc, fun x hx hc => hdisj (hsub' x hx) hc⟩
  · intro x hx
    have hxm : m ≠ x := fun e => hdisj (hsub' m hmm) (e ▸ hx)
    rw [getElem?_upd_ne _ _ hxm, getElem?_upd]
    by_cases e : f.a = x
    · simp [e]
    · simp [e]
  · exact getElem?_upd_ne _ _ hnfa
  · rw [getElem?_upd_ne _ _ hmn, getElem?_upd_ne _ _ hnfa]

theorem deleteNode_child {t : RBTree K} {f : Frame K} {up : Ctx K} {n : Nat} {c : Color}
    {l r : Tree K} {k : K} {T' : Tree K}
    (hw : WF t (plug (f :: up) (.node n c l k r)))
    (hnl : ¬ (l.ptr = none ∧ r.ptr = none))
    (hd : delNode (f :: up) c l r = some T') :
    ∃ t', deleteNode t (some n) = .ok t' ∧ WF t' T' ∧ t'.cnt = t.cnt ∧
      t'.heap.length = t.heap.length := by
  simp only [delNode, hnl, if_false] at hd
  -- the child that replaces the node
  obtain ⟨m, cm, ml, mk, mr, hrep, hor, hptr⟩ : ∃ m cm ml mk mr,
      (if l.ptr = none then r else l) = Tree.node m cm ml mk mr ∧
      (Tree.node m cm ml mk mr = l ∨ Tree.node m cm ml mk mr = r) ∧
      (if (l.ptr != none) = true then l.ptr else r.ptr) = some m := by
    by_cases h1 : l.ptr = none
    · have h2 : ¬ r.ptr = none := fun h2 => hnl ⟨h1, h2⟩
      rcases r with _ | ⟨m, cm, ml, mk, mr⟩
      · simp at h2
      · exact ⟨m, cm, ml, mk, mr, by simp [h1], Or.inr rfl, by simp [h1]⟩
    · rcases l with _ | ⟨m, cm, ml, mk, mr⟩
      · simp at h1
      · exact ⟨m, cm, ml, mk, mr, by simp, Or.inl rfl, by simp⟩
  rw [hrep] at hd
  obtain ⟨hwb, hn1, hn2⟩ := WF_splice hw hor
  have hcell := wf_cell hw
  have hlf : (l.ptr == none && r.ptr == none) = false := by
    rw [Bool.and_eq_false_iff]
    by_cases h1 : l.ptr = none
    · exact Or.inr (by simpa using fun h2 => hnl ⟨h1, h2⟩)
    · exact Or.inl (by simpa using h1)
  have hmlt : m < (upd t.heap f.a (ctxSet (f :: up) (some m))).length := by
    have := wf_lt hwb
    simpa using this
  have hexec : deleteNode t (some n) = (do
        let tb ← (pure { t with heap := upd (upd t.heap f.a (ctxSet (f :: up) (some m))) m (fun x => { x with parent := some f.a }) } : Except Err (RBTree K))
        let nb ← isBlack tb.heap (some n)
        if nb then
          let rr ← isRed tb.heap (some m)
          if rr then setColor tb (some m) .Black
          else deleteFixUp (tb.heap.length + 1) tb (some m)
        else pure tb) := by
    simp only [deleteNode, wf_isLeaf hw, hlf, wf_load hw, ok_bind, wf_direction hw, hptr, ctxPtr,
      Bool.false_eq_true, if_false, dirOf]
    cases hfl : f.isLeft
    · simp only [hfl, ctxSet, Bool.false_eq_true, if_false] at hn1 hmlt ⊢
      simp [store_of_lt _ (wf_frame_lt hw), pure, Except.pure, bind, Except.bind, isRoot,
        load_some (hn1.trans hcell), store_of_lt _ hmlt, ctxPtr]
    · simp only [hfl, ctxSet, if_true] at hn1 hmlt ⊢
      simp [store_of_lt _ (wf_frame_lt hw), pure, Except.pure, bind, Except.bind, isRoot,
        load_some (hn1.trans hcell), store_of_lt _ hmlt, ctxPtr]
  rw [hexec]
  simp only [pure, Except.pure, ok_bind, isBlack, load_some (hn2.trans hcell), wf_isRed hwb]
  cases c
  · -- a Red node: only the splice
    simp only [reduceCtorEq, if_false, Option.some.injEq] at hd
    subst hd
    exact ⟨_, by simp [bind, Except.bind], hwb, rfl, by simp⟩
  · simp only [if_true] at hd
    cases cm
    · -- Black node with a Red child: the child becomes Black
      simp only [Tree.isRed_red, if_true, Tree.setColor_node, Option.some.injEq] at hd
      subst hd
      obtain ⟨t', h1, h2, h3, h4⟩ := wf_setColor .Black hwb
      refine ⟨t', by simpa [bind, Except.bind] using h1, h2, by simpa using h3, by simpa using h4⟩
    · -- Black node with a Black child: fix-up from the child
      simp only [Tree.isRed_black, Bool.false_eq_true, if_false, Option.map_eq_some'] at hd
      obtain ⟨ctx1, hf, rfl⟩ := hd
      obtain ⟨t', h1, h2, h3, h4⟩ := deleteFixUp_spec (f :: up) hwb
        (Nat.lt_succ_of_le (wf_ctx_length_le hwb)) hf
      refine ⟨t', by simpa [bind, Except.bind] using h1, h2, by simpa using h3, by simpa using h4⟩

end RBT

namespace RBT

variable {K : Type}

theorem deleteNode_spec {t : RBTree K} {ctx : Ctx K} {n : Nat} {c : Color} {l r : Tree K} {k : K}
    {T' : Tree K} (hw : WF t (plug ctx (.node n c l k r))) (hd : delNode ctx c l r = some T') :
    ∃ t', deleteNode t (some n) = .ok t' ∧ WF t' T' ∧ t'.cnt = t.cnt ∧
      t'.heap.length = t.heap.length := by
  by_cases hleaf : l.ptr = none ∧ r.ptr = none
  · obtain ⟨rfl, rfl⟩ : l = .nil ∧ r = .nil :=
      ⟨Tree.eq_nil_of_ptr hleaf.1, Tree.eq_nil_of_ptr hleaf.2⟩
    exact deleteNode_leaf hw hd
  · cases ctx with
    | nil => simp [delNode, hleaf] at hd
    | cons f up => exact deleteNode_child hw hleaf hd

theorem Rep_mem {h : Heap K} {a : Nat} : ∀ {T : Tree K} {par : Ptr}, Rep h par T → a ∈ T.addrs →
    ∃ par' c l k r, Rep h par' (.node a c l k r)
  | .nil, _, _, ha => by simp [Tree.addrs] at ha
  | .node b c l k r, par, hr, ha => by
    simp only [Tree.addrs, List.mem_append, List.mem_cons] at ha
    have hr' := hr
    simp only [Rep] at hr'
    rcases ha with ha | ha | ha
    · exact Rep_mem hr'.2.1 ha
    · subst ha
      exact ⟨par, c, l, k, r, hr⟩
    · exact Rep_mem hr'.2.2 ha

theorem wf_maintain_mem {t : RBTree K} {T : Tree K} {par : Ptr} {a : Nat} (hw : Linked t par T)
    (ha : a ∈ T.addrs) : maintainRelationship t.heap (some a) = .ok t.heap := by
  obtain ⟨par', c, l, k, r, hr⟩ := Rep_mem hw.rep ha
  exact maintain_noop hr

theorem delFound_spec {t : RBTree K} {ctx : Ctx K} {a : Nat} {c : Color} {l r : Tree K} {k : K}
    {T' : Tree K} (hw : WF t (plug ctx (.node a c l k r)))
    (hd : delFound ctx a c l r = some T') :
    ∃ t', (do
        let (t1, n1) ← deleteSwap t (some a)
          { Val := k, parent := ctxPtr ctx, left := l.ptr, right := r.ptr, color := c }
        let t2 ← deleteNode t1 n1
        pure { t2 with cnt := (t2.cnt + uintModulus - 1) % uintModulus }) = .ok t' ∧
      WF t' T' ∧ t'.cnt = (t.cnt + uintModulus - 1) % uintModulus ∧
      t'.heap.length = t.heap.length := by
  unfold delFound at hd
  by_cases hlr : l.ptr = none ∨ r.ptr = none
  · simp only [hlr, if_true] at hd
    obtain ⟨t2, h1, h2, h3, h4⟩ := deleteNode_spec hw hd
    refine ⟨{ t2 with cnt := (t2.cnt + uintModulus - 1) % uintModulus }, ?_, ⟨h2.root, h2.rep, h2.nodup⟩,
      by simp [h3], h4⟩
    simp [deleteSwap_leaf hlr, ok_bind, h1, pure, Except.pure]
  · simp only [hlr, if_false] at hd
    have hl : l.ptr ≠ none := fun e => hlr (Or.inl e)
    have hr : r.ptr ≠ none := fun e => hlr (Or.inr e)
    obtain ⟨rel, s, cs, sk, sr, g1, -, -, -⟩ := leftSpine_spec r [] hr
    simp only [List.append_nil] at g1
    rw [g1] at hd
    simp only at hd
    obtain ⟨t1, e1, e2, e3, e4⟩ := deleteSwap_spec hw hl hr g1
    obtain ⟨t2, h1, h2, h3, h4⟩ := deleteNode_spec e2 hd
    refine ⟨{ t2 with cnt := (t2.cnt + uintModulus - 1) % uintModulus }, ?_, ⟨h2.root, h2.rep, h2.nodup⟩,
      by simp [h3, e3], by simp [h4, e4]⟩
    simp [e1, ok_bind, h1, pure, Except.pure]

theorem delete_spec [LinearOrder K] (v : K) :
    ∀ (x : Tree K) (ctx : Ctx K) (fuel : Nat) (t : RBTree K) (T' : Tree K),
      WF t (plug ctx x) → x.height < fuel → t.cnt ≠ 1 → delDown ctx x v = some T' →
      ∃ t', delete fuel t x.ptr v = .ok t' ∧ WF t' T' ∧
        t'.cnt = (t.cnt + uintModulus - 1) % uintModulus ∧ t'.heap.length = t.heap.length
  | .nil, _, _, _, _, _, _, _, hd => by simp [delDown] at hd
  | .node a c l k r, ctx, fuel, t, T', hw, hf, hc, hd => by
    obtain ⟨fuel, rfl⟩ : ∃ m, fuel = m + 1 := ⟨fuel - 1, by omega⟩
    rw [delDown] at hd
    rw [Tree.ptr_node, delete_eq]
    simp only [wf_load hw, ok_bind]
    by_cases hk : k = v
    · subst hk
      simp only [if_true] at hd
      have hs : ¬ Size t = 1 := hc
      simp only [ne_eq, not_true_eq_false, if_false, hs]
      exact delFound_spec hw hd
    · simp only [hk, if_false] at hd
      simp only [ne_eq, hk, not_false_eq_true, if_true]
      simp only [Tree.height] at hf
      by_cases hv : v < k
      · simp only [hv, if_true] at hd ⊢
        have hw' : WF t (plug ({ isLeft := true, a := a, c := c, k := k, sib := r } :: ctx) l) := hw
        obtain ⟨t1, h1, h2, h3, h4⟩ := delete_spec v l _ fuel t T' hw' (by omega) hc hd
        have hm := wf_maintain_mem h2 ((delDown_same v l _ hd).2 a (by simp [ctxAddrs]))
        exact ⟨t1, by simp [h1, ok_bind, hm, pure, Except.pure], h2, h3, h4⟩
      · simp only [hv, if_false] at hd ⊢
        have hw' : WF t (plug ({ isLeft := false, a := a, c := c, k := k, sib := l } :: ctx) r) := hw
        obtain ⟨t1, h1, h2, h3, h4⟩ := delete_spec v r _ fuel t T' hw' (by omega) hc hd
        have hm := wf_maintain_mem h2 ((delDown_same v r _ hd).2 a (by simp [ctxAddrs]))
        exact ⟨t1, by simp [h1, ok_bind, hm, pure, Except.pure], h2, h3, h4⟩

end RBT

namespace RBT

variable {K : Type}

/-! ## One call of `Delete` on a red-black tree -/

theorem sorted_remove [LinearOrder K] {p q : List K} {v : K}
    (h : (p ++ v :: q).Sorted (· < ·)) : (p ++ q).Sorted (· < ·) :=
  h.sublist (List.Sublist.append_left (List.sublist_cons_self v q) p)

theorem BST_remove [LinearOrder K] {T T' : Tree K} {p q : List K} {v : K} (hb : T.BST)
    (e1 : T.toList = p ++ v :: q) (e2 : T'.toList = p ++ q) : T'.BST := by
  rw [BST_iff_sorted, e2]
  apply sorted_remove (v := v)
  rw [← e1]
  exact (BST_iff_sorted _).1 hb

theorem Delete_spec [LinearOrder K] {t : RBTree K} {a : Nat} {c : Color} {l r : Tree K} {k : K}
    (v : K) (hw : WF t (.node a c l k r)) (hrb : (Tree.node a c l k r).RB)
    (hcnt : t.cnt = (Tree.node a c l k r).size)
    (hlt : (Tree.node a c l k r).size < uintModulus)
    (hv : ((Tree.node a c l k r).lookup v).2 = true)
    (hroot : k = v → l.ptr ≠ none ∧ r.ptr ≠ none) :
    ∃ t' T', Delete t v = .ok t' ∧ WF t' T' ∧ T'.RB ∧ t'.cnt = T'.size ∧
      T'.size < uintModulus ∧
      ∃ p q, (Tree.node a c l k r).toList = p ++ v :: q ∧ T'.toList = p ++ q := by
  obtain ⟨T', hd, hrb'⟩ := delDown_RB v (.node a c l k r) [] hrb hv (by
    intro _ a' c' l' k' r' e hk
    simp only [Tree.node.injEq] at e
    obtain ⟨-, -, rfl, rfl, rfl⟩ := e
    exact hroot hk)
  obtain ⟨⟨p, q, e1, e2⟩, -⟩ := delDown_same v _ [] hd
  simp only [ctxBefore, ctxAfter, List.nil_append, List.append_nil] at e2
  have hsz : (Tree.node a c l k r).size = T'.size + 1 := by
    rw [← Tree.length_toList, ← Tree.length_toList, e1, e2]
    simp only [List.length_append, List.length_cons]
    omega
  have hc1 : t.cnt ≠ 1 := by
    rw [hcnt]
    intro h1
    simp only [Tree.size] at h1
    have hl0 : l.size = 0 := by omega
    have hr0 : r.size = 0 := by omega
    have hln : l = .nil := by
      cases l with
      | nil => rfl
      | node => simp [Tree.size] at hl0
    have hrn : r = .nil := by
      cases r with
      | nil => rfl
      | node => simp [Tree.size] at hr0
    subst hln hrn
    by_cases hk : k = v
    · exact (hroot hk).1 rfl
    · simp [Tree.lookup, hk] at hv
  have hwp : WF t (plug [] (.node a c l k r)) := hw
  obtain ⟨t', h1, h2, h3, h4⟩ := delete_spec v _ [] (t.heap.length + 1) t T' hwp
    (Shaped_height_lt (Rep_shaped hw.rep) hw.nodup) hc1 hd
  refine ⟨t', T', ?_, h2, hrb', ?_, by omega, p, q, e1, e2⟩
  · have hr : t.root = some a := hw.root
    simp only [Delete, hr]
    simpa using h1
  · rw [h3, hcnt, hsz]
    have : T'.size + 1 < uintModulus := by omega
    rw [show T'.size + 1 + uintModulus - 1 = T'.size + uintModulus by omega,
      Nat.add_mod_right, Nat.mod_eq_of_lt (by omega)]

end RBT

namespace RBT

variable {K : Type}

/-! ## The last two nodes -/

theorem Single_Get [LinearOrder K] {t : RBTree K} {k : K} (h : Single t k) :
    ∃ a x, Get t k = .ok (some a, true) ∧ load t.heap (some a) = .ok x ∧ x.Val = k := by
  obtain ⟨b, x, hr, hx, hv, -, -, -⟩ := h
  refine ⟨b, x, ?_, load_some hx, hv⟩
  simp [Get, hr, search, load_some hx, hv, bind, Except.bind, pure, Except.pure]

theorem Single_Has_ne [LinearOrder K] {t : RBTree K} {k v : K} (h : Single t k) (hne : v ≠ k) :
    Has t v = .ok false := by
  obtain ⟨b, x, hr, hx, hv, hl, hrr, -⟩ := h
  have hlt : b < t.heap.length := (List.getElem?_eq_some.1 hx).1
  obtain ⟨m, hm⟩ : ∃ m, t.heap.length = m + 1 := ⟨t.heap.length - 1, by omega⟩
  have hkv : ¬ x.Val = v := fun e => hne (by rw [← e, hv])
  simp only [Has, hr, hm, search, load_some hx, ok_bind, hkv, if_false, hl, hrr]
  split <;> rfl

theorem Single_Delete [LinearOrder K] {t : RBTree K} {k : K} (h : Single t k) :
    ∃ t1, Delete t k = .ok t1 ∧ t1.root = none ∧ t1.cnt = 0 := by
  obtain ⟨b, x, hr, hx, hv, hl, hrr, hc⟩ := h
  have hlt : b < t.heap.length := (List.getElem?_eq_some.1 hx).1
  have hx1 : (upd t.heap b (fun y => { y with parent := none }))[b]? =
      some { x with parent := none } := by
    rw [getElem?_upd_self]
    simp [hx]
  refine ⟨{ heap := upd t.heap b (fun y => { y with parent := none }), root := none, cnt := 0 },
    ?_, rfl, rfl⟩
  have hs : Size t = 1 := hc
  simp only [Delete, hr, delete_eq, load_some hx, ok_bind, hv, hs, Clear, release,
    store_of_lt _ hlt, load_some hx1, hl, hrr]
  simp [pure, Except.pure, bind, Except.bind, load_some hx1, hrr]

theorem empty_Has [LinearOrder K] {t : RBTree K} (h : t.root = none) (v : K) :
    Has t v = .ok false := by
  simp [Has, h, search, bind, Except.bind, pure, Except.pure]

theorem empty_InOrder {t : RBTree K} (h : t.root = none) : InOrder t = .ok [] := by
  simp [InOrder, h, inOrder, pure, Except.pure]

theorem Tree.eq_nil_of_bh {x : Tree K} (hb : x.bh = 0) (hr : x.isRed = false) : x = .nil := by
  rcases x with _ | ⟨a, c, l, k, r⟩
  · rfl
  · cases c
    · simp at hr
    · simp [Tree.bh] at hb

/-- A node of a red-black tree with exactly one child is Black, and the child is
a Red node without children. -/
theorem RB_one_child {a : Nat} {c : Color} {l r : Tree K} {k : K}
    (hrb : (Tree.node a c l k r).RB) (hlr : l.ptr = none ∨ r.ptr = none)
    (hnl : ¬ (l.ptr = none ∧ r.ptr = none)) :
    c = .Black ∧ ∃ b kb, (l = .node b .Red .nil kb .nil ∧ r = .nil) ∨
      (l = .nil ∧ r = .node b .Red .nil kb .nil) := by
  obtain ⟨h1, h2, h3⟩ := hrb
  have hc : c = .Black := by
    cases c
    · simp at h1
    · rfl
  subst hc
  refine ⟨rfl, ?_⟩
  simp only [Tree.NoRedRed, Tree.Balanced] at h2 h3
  rcases hlr with e | e
  · obtain rfl := Tree.eq_nil_of_ptr e
    rcases r with _ | ⟨b, cb, bl, kb, br⟩
    · simp at hnl
    · simp only [Tree.bh, Tree.NoRedRed, Tree.Balanced] at h2 h3
      cases cb
      · simp only [reduceCtorEq, if_false, add_zero, forall_const] at h2 h3
        have e1 : bl = .nil := Tree.eq_nil_of_bh h3.2.2.symm h2.2.2.1.1
        subst e1
        have e2 : br = .nil := Tree.eq_nil_of_bh h3.2.1.2.2.symm h2.2.2.1.2
        subst e2
        exact ⟨b, kb, Or.inr ⟨rfl, rfl⟩⟩
      · simp at h3
  · obtain rfl := Tree.eq_nil_of_ptr e
    rcases l with _ | ⟨b, cb, bl, kb, br⟩
    · simp at hnl
    · simp only [Tree.bh, Tree.NoRedRed, Tree.Balanced] at h2 h3
      cases cb
      · simp only [reduceCtorEq, if_false, add_zero, forall_const] at h2 h3
        have e1 : bl = .nil := Tree.eq_nil_of_bh h3.2.2 h2.2.1.1.1
        subst e1
        have e2 : br = .nil := Tree.eq_nil_of_bh h3.1.2.2.symm h2.2.1.1.2
        subst e2
        exact ⟨b, kb, Or.inl ⟨rfl, rfl⟩⟩
      · simp at h3

/-- The root is deleted while it has a single child: the child becomes the root
and keeps its parent field. -/
theorem Delete_root_one_child_eq [LinearOrder K] {t : RBTree K} {a b : Nat} {l r : Tree K} {k kb : K}
    (hw : WF t (.node a .Black l k r)) (hcnt : t.cnt = 2)
    (hs : (l = .node b .Red .nil kb .nil ∧ r = .nil) ∨ (l = .nil ∧ r = .node b .Red .nil kb .nil)) :
    Delete t k = .ok { heap := upd t.heap b (fun x => { x with color := .Black }), root := some b, cnt := 1 } ∧
      t.heap[b]? = some { Val := kb, parent := some a, left := none, right := none, color := .Red } := by
  have hr : t.root = some a := hw.root
  have hwp : WF t (plug [] (.node a .Black l k r)) := hw
  have hs1 : ¬ Size t = 1 := by simp [Size, hcnt]
  have hlr : l.ptr = none ∨ r.ptr = none := by
    rcases hs with ⟨-, e⟩ | ⟨e, -⟩ <;> simp [e]
  have hb : t.heap[b]? = some { Val := kb, parent := some a, left := none, right := none, color := .Red } ∧
      (if (l.ptr != none) = true then l.ptr else r.ptr) = some b ∧
      (l.ptr == none && r.ptr == none) = false := by
    rcases hs with ⟨e1, e2⟩ | ⟨e1, e2⟩
    · subst e1 e2
      have hwc : WF t (plug [{ isLeft := true, a := a, c := .Black, k := k, sib := .nil }] (.node b .Red .nil kb .nil)) := hw
      exact ⟨wf_cell hwc, by simp, by simp⟩
    · subst e1 e2
      have hwc : WF t (plug [{ isLeft := false, a := a, c := .Black, k := k, sib := .nil }] (.node b .Red .nil kb .nil)) := hw
      exact ⟨wf_cell hwc, by simp, by simp⟩
  obtain ⟨hbc, hrep, hlf⟩ := hb
  have hblt : b < t.heap.length := (List.getElem?_eq_some.1 hbc).1
  refine ⟨?_, hbc⟩
  have hsw := @deleteSwap_leaf K t [] a .Black l r k hlr
  simp only [ctxPtr] at hsw
  simp only [Delete, hr, delete_eq, wf_load hwp, ok_bind, hs1, ctxPtr, hsw, deleteNode,
    wf_isLeaf hwp, hlf, wf_direction hwp, dirOf, hrep, wf_isRoot hwp, wf_isBlack hwp, isRed,
    load_some hbc]
  simp only [pure, Except.pure, bind, Except.bind, wf_isRoot hwp, wf_isBlack hwp, ctxPtr,
    load_some hbc, beq_self_eq_true, Bool.not_true, Bool.false_eq_true, if_false, if_true,
    beq_iff_eq, reduceCtorEq, ne_eq, not_true_eq_false]
  have hsc : setColor { heap := t.heap, root := some b, cnt := t.cnt } (some b) .Black =
      .ok { heap := upd t.heap b (fun x => { x with color := .Black }), root := some b, cnt := t.cnt } :=
    @setColor_eq K { heap := t.heap, root := some b, cnt := t.cnt } b .Black hblt
  rw [hsc]
  simp only [hcnt, uintModulus]
  norm_num

theorem Delete_root_one_child [LinearOrder K] {t : RBTree K} {a b : Nat} {l r : Tree K} {k kb : K}
    (hw : WF t (.node a .Black l k r)) (hcnt : t.cnt = 2)
    (hs : (l = .node b .Red .nil kb .nil ∧ r = .nil) ∨ (l = .nil ∧ r = .node b .Red .nil kb .nil)) :
    ∃ t1, Delete t k = .ok t1 ∧ Single t1 kb := by
  obtain ⟨h1, hbc⟩ := Delete_root_one_child_eq hw hcnt hs
  exact ⟨_, h1, b, _, rfl, by rw [getElem?_upd_self, hbc]; rfl, rfl, rfl, rfl, rfl⟩

end RBT

namespace RBT

variable {K : Type}

/-! ## Deleting every key -/

theorem wf_search [LinearOrder K] {t : RBTree K} {T : Tree K} (hw : WF t T) (v : K) :
    search (t.heap.length + 1) t.heap t.root v = .ok (T.lookup v) := by
  rw [hw.root]
  exact search_spec v (Rep_shaped hw.rep) (Shaped_height_lt (Rep_shaped hw.rep) hw.nodup)

theorem wf_Get_mem [LinearOrder K] {t : RBTree K} {T : Tree K} (hw : WF t T) (hb : T.BST)
    {v : K} (hv : v ∈ T.toList) :
    ∃ a x, Get t v = .ok (some a, true) ∧ load t.heap (some a) = .ok x ∧ x.Val = v := by
  have hl : (T.lookup v).2 = true := (lookup_mem_iff v hb).2 hv
  obtain ⟨x, hx, hxv⟩ := lookup_found v (Rep_shaped hw.rep) hl
  cases hp : (T.lookup v).1 with
  | none => simp [hp, load] at hx
  | some a =>
    refine ⟨a, x, ?_, hp ▸ hx, hxv⟩
    rw [Get, wf_search hw v, ← hp, ← hl]

theorem wf_Has_not_mem [LinearOrder K] {t : RBTree K} {T : Tree K} (hw : WF t T) (hb : T.BST)
    {v : K} (hv : v ∉ T.toList) : Has t v = .ok false := by
  have hl : (T.lookup v).2 = false := by
    cases h : (T.lookup v).2
    · rfl
    · exact absurd ((lookup_mem_iff v hb).1 h) hv
  simp [Has, wf_search hw v, hl, bind, Except.bind, pure, Except.pure]

theorem Tree.toList_eq_nil {T : Tree K} (h : T.toList = []) : T = .nil := by
  cases T with
  | nil => rfl
  | node a c l k r => simp [Tree.toList] at h

theorem deletes_all [LinearOrder K] : ∀ (dels : List K) (t : RBTree K),
    ((∃ T, WF t T ∧ T.RB ∧ T.BST ∧ t.cnt = T.size ∧ T.size < uintModulus ∧ T.toList.Perm dels) ∨
      (∃ k, Single t k ∧ dels = [k])) → DeletesAll t dels
  | [], t, h => by
    rcases h with ⟨T, hw, -, -, hc, -, hp⟩ | ⟨k, -, e⟩
    · obtain rfl := Tree.toList_eq_nil (List.perm_nil.1 hp)
      have hr : t.root = none := hw.root
      exact ⟨hr, by simpa [Size, Tree.size] using hc, empty_InOrder hr⟩
    · simp at e
  | k :: ks, t, h => by
    -- the case of a single node, with any parent field
    have single : ∀ {k'}, Single t k' → k :: ks = [k'] → DeletesAll t (k :: ks) := by
      intro k' hs e
      simp only [List.cons.injEq] at e
      obtain ⟨rfl, rfl⟩ := e
      obtain ⟨t1, h1, h2, h3⟩ := Single_Delete hs
      refine ⟨Single_Get hs, t1, h1, empty_Has h2 k, ?_⟩
      exact deletes_all [] t1 (Or.inl ⟨.nil, WF_nil_iff.2 h2, by simp [Tree.RB, Tree.NoRedRed,
        Tree.Balanced], trivial, by simpa [Tree.size] using h3, by simp [Tree.size, uintModulus],
        by simp [Tree.toList]⟩)
    rcases h with ⟨T, hw, hrb, hb, hc, hlt, hp⟩ | ⟨k', hs, e⟩
    · have hk : k ∈ T.toList := hp.mem_iff.2 (List.mem_cons_self k ks)
      have hnd : T.toList.Nodup := ((BST_iff_sorted T).1 hb).nodup
      rcases T with _ | ⟨a, c, l, kr, r⟩
      · simp [Tree.toList] at hk
      by_cases hroot : kr = k → l.ptr ≠ none ∧ r.ptr ≠ none
      · -- the covered cases
        obtain ⟨t', T', h1, h2, h3, h5, h6, p, q, e1, e2⟩ :=
          Delete_spec k hw hrb hc hlt ((lookup_mem_iff k hb).2 hk) hroot
        have h4 : T'.BST := BST_remove hb e1 e2
        rw [e1] at hnd hp
        have hkn : k ∉ T'.toList := by
          rw [e2]
          have := List.nodup_middle.1 hnd
          exact (List.nodup_cons.1 this).1
        refine ⟨wf_Get_mem hw hb hk, t', h1, wf_Has_not_mem h2 h4 hkn, ?_⟩
        refine deletes_all ks t' (Or.inl ⟨T', h2, h3, h4, h5, h6, ?_⟩)
        rw [e2]
        exact (List.perm_middle.symm.trans hp).cons_inv
      · -- the root is deleted and has at most one child
        simp only [not_forall] at hroot
        obtain ⟨rfl, hno⟩ := hroot
        have hlr : l.ptr = none ∨ r.ptr = none := by
          by_contra hcon
          simp only [not_or] at hcon
          exact hno ⟨hcon.1, hcon.2⟩
        by_cases hleaf : l.ptr = none ∧ r.ptr = none
        · obtain ⟨rfl, rfl⟩ : l = .nil ∧ r = .nil :=
            ⟨Tree.eq_nil_of_ptr hleaf.1, Tree.eq_nil_of_ptr hleaf.2⟩
          have hroot : t.root = some a := hw.root
          have hs : Single t kr := ⟨a, _, hroot, wf_cell (show WF t (plug [] _) from hw), rfl, rfl,
            rfl, by simpa [Tree.size] using hc⟩
          apply single hs
          have := hp.symm
          simp only [Tree.toList, List.nil_append] at this
          exact List.perm_singleton.1 this
        · obtain ⟨rfl, b, kb, hshape⟩ := RB_one_child hrb hlr hleaf
          have hc2 : t.cnt = 2 := by
            rw [hc]
            rcases hshape with ⟨rfl, rfl⟩ | ⟨rfl, rfl⟩ <;> simp [Tree.size]
          obtain ⟨t1, h1, h2⟩ := Delete_root_one_child hw hc2 hshape
          have hks : ks = [kb] ∧ kr ≠ kb := by
            rcases hshape with ⟨rfl, rfl⟩ | ⟨rfl, rfl⟩
            · simp only [Tree.toList, List.nil_append] at hp hnd
              have hp' : ([kb, kr] : List K).Perm (kr :: ks) := hp
              have : ([kr, kb] : List K).Perm (kr :: ks) := (List.Perm.swap kb kr []).trans hp'
              refine ⟨(List.perm_singleton.1 this.cons_inv.symm), ?_⟩
              intro e
              simp [e] at hnd
            · simp only [Tree.toList, List.nil_append] at hp hnd
              have hp' : ([kr, kb] : List K).Perm (kr :: ks) := hp
              refine ⟨(List.perm_singleton.1 hp'.cons_inv.symm), ?_⟩
              intro e
              simp [e] at hnd
          obtain ⟨rfl, hne⟩ := hks
          exact ⟨wf_Get_mem hw hb hk, t1, h1, Single_Has_ne h2 hne,
            deletes_all [kb] t1 (Or.inr ⟨kb, h2, rfl⟩)⟩
    · exact single hs e

end RBT

namespace RBT

variable {K : Type}

theorem run_inserts_RB [LinearOrder K] :
    ∀ (keys done : List K) (t : RBTree K) (T : Tree K), WF t T → T.BST → T.RB →
      (∀ x, x ∈ T.toList ↔ x ∈ done) → t.cnt = T.size →
      done.length + keys.length < uintModulus →
      ∃ t' T', runCalls (keys.map Call.insert) t = .ok t' ∧ WF t' T' ∧ T'.BST ∧ T'.RB ∧
        (∀ x, x ∈ T'.toList ↔ x ∈ done ++ keys) ∧ t'.cnt = T'.size
  | [], done, t, T, hw, hb, hr, hm, hc, _ => ⟨t, T, rfl, hw, hb, hr, by simpa using hm, hc⟩
  | v :: keys, done, t, T, hw, hb, hr, hm, hc, hlen => by
    obtain ⟨t1, he, hw1, hc1⟩ := Insert_spec v hw
    have hsz := BST_size_le hb (fun x hx => (hm x).1 hx)
    have hc1' : t1.cnt = (insT t.heap.length T v).size := by
      rw [hc1, size_insT, hc]
      split
      · rfl
      · simp only [List.length_cons] at hlen
        exact Nat.mod_eq_of_lt (by omega)
    obtain ⟨t', T', he', hw', hb', hr', hm', hc'⟩ := run_inserts_RB keys (done ++ [v]) t1 _ hw1
      (BST_insT _ v hb) (insT_RB _ v hr)
      (fun x => by rw [mem_insT, hm x]; simp [or_comm]) hc1'
      (by simp only [List.length_cons, List.length_append, List.length_nil] at hlen ⊢; omega)
    refine ⟨t', T', ?_, hw', hb', hr', ?_, hc'⟩
    · simp [runCalls, applyCall, he, he', bind, Except.bind]
    · intro x; rw [hm' x]; simp

end RBT

namespace RBT

variable {K : Type}

/-! ## Clearing a tree -/

theorem Shaped_congr_fields {h h' : Heap K} : ∀ {T : Tree K},
    (∀ (a : Nat) (x : RBNode K), h[a]? = some x → ∃ y : RBNode K, h'[a]? = some y ∧
      y.Val = x.Val ∧ y.left = x.left ∧ y.right = x.right ∧ y.color = x.color) →
    Shaped h T → Shaped h' T
  | .nil, _, _ => trivial
  | .node a c l k r, hag, hs => by
    simp only [Shaped] at hs ⊢
    obtain ⟨⟨x, hx, h1, h2, h3, h4⟩, hl, hr⟩ := hs
    obtain ⟨y, hy, g1, g2, g3, g4⟩ := hag a x hx
    exact ⟨⟨y, hy, g1.trans h1, g2.trans h2, g3.trans h3, g4.trans h4⟩,
      Shaped_congr_fields hag hl, Shaped_congr_fields hag hr⟩

/-- Method `release` on a finite tree: the parent field of every node of the tree
is cleared and nothing else changes. -/
theorem release_spec : ∀ (T : Tree K) (fuel : Nat) (h : Heap K), T.ptr ≠ none → Shaped h T →
    T.height ≤ fuel →
    ∃ h', release fuel h T.ptr = .ok h' ∧ h'.length = h.length ∧
      ∀ b, h'[b]? = if b ∈ T.addrs then (h[b]?).map (fun c => { c with parent := none }) else h[b]?
  | .nil, _, _, hne, _, _ => by simp at hne
  | .node a c l k r, fuel, h, _, hs, hf => by
    obtain ⟨fuel, rfl⟩ : ∃ m, fuel = m + 1 := ⟨fuel - 1, by simp [Tree.height] at hf; omega⟩
    simp only [Tree.height] at hf
    have hs' := hs
    simp only [Shaped] at hs'
    obtain ⟨⟨x, hx, hxv, hxl, hxr, hxc⟩, hsl, hsr⟩ := hs'
    have hlt : a < h.length := (List.getElem?_eq_some.1 hx).1
    have hag1 : ∀ (b : Nat) (y : RBNode K),
        h[b]? = some y → ∃ z, (upd h a (fun c => { c with parent := none }))[b]? = some z ∧
          z.Val = y.Val ∧ z.left = y.left ∧ z.right = y.right ∧ z.color = y.color := by
      intro b y hy
      rw [getElem?_upd]
      by_cases e : a = b
      · simp [e, hy]
      · simp [e, hy]
    have hx1 : (upd h a (fun c => { c with parent := none }))[a]? = some { x with parent := none } := by
      rw [getElem?_upd_self, hx]; rfl
    -- the left subtree
    obtain ⟨h2, e2, l2, g2⟩ : ∃ h2,
        (if (l.ptr != none) = true then release fuel (upd h a (fun c => { c with parent := none })) l.ptr
          else pure (upd h a (fun c => { c with parent := none }))) = .ok h2 ∧
        h2.length = h.length ∧
        ∀ b, h2[b]? = if b ∈ l.addrs ∨ b = a then (h[b]?).map (fun c => { c with parent := none })
          else h[b]? := by
      by_cases hl : l.ptr = none
      · refine ⟨upd h a (fun c => { c with parent := none }), by simp [hl, pure, Except.pure],
          by simp, fun b => ?_⟩
        obtain rfl := Tree.eq_nil_of_ptr hl
        rw [getElem?_upd]
        by_cases e : a = b
        · simp [e, Tree.addrs]
        · have : ¬ b = a := fun h => e h.symm
          simp [e, this, Tree.addrs]
      · obtain ⟨h2, e2, l2, g2⟩ := release_spec l fuel _ hl (Shaped_congr_fields hag1 hsl)
          (by omega)
        refine ⟨h2, by simp [hl, e2], by simpa using l2, fun b => ?_⟩
        rw [g2 b, getElem?_upd]
        by_cases e : a = b
        · subst e
          by_cases hb : a ∈ l.addrs
          · cases h[a]? <;> simp [hb]
          · simp [hb]
        · have : ¬ b = a := fun h => e h.symm
          simp [e, this]
    have hy2 : h2[a]? = some { x with parent := none } := by
      rw [g2 a]; simp [hx]
    have hag2 : ∀ (b : Nat) (y : RBNode K),
        h[b]? = some y → ∃ z, h2[b]? = some z ∧
          z.Val = y.Val ∧ z.left = y.left ∧ z.right = y.right ∧ z.color = y.color := by
      intro b y hy
      rw [g2 b]
      split <;> simp [hy]
    have fin : ∀ res, (do
          let y ← load h2 (some a)
          if (y.right != none) = true then release fuel h2 y.right else pure h2) = .ok res →
        release (fuel + 1) h (some a) = .ok res := by
      intro res hk
      rw [release]
      simp only [store_of_lt _ hlt, ok_bind, load_some hx1, hxl]
      by_cases hl : l.ptr = none
      · have e2' : upd h a (fun c => { c with parent := none }) = h2 := by
          simpa [hl, pure, Except.pure] using e2
        rw [e2']
        simpa [hl, pure, Except.pure, bind, Except.bind] using hk
      · have e2' : release fuel (upd h a (fun c => { c with parent := none })) l.ptr = .ok h2 := by
          simpa [hl] using e2
        rw [e2']
        simpa [hl, pure, Except.pure, bind, Except.bind] using hk
    -- the right subtree
    by_cases hr : r.ptr = none
    · obtain rfl := Tree.eq_nil_of_ptr hr
      refine ⟨h2, ?_, l2, fun b => ?_⟩
      · exact fin h2 (by simp [load_some hy2, hxr, pure, Except.pure, bind, Except.bind])
      · rw [g2 b]
        simp [Tree.addrs]
    · obtain ⟨h3, e3, l3, g3⟩ := release_spec r fuel h2 hr (Shaped_congr_fields hag2 hsr)
        (by omega)
      refine ⟨h3, ?_, by omega, fun b => ?_⟩
      · exact fin h3 (by simp [load_some hy2, hxr, hr, e3, bind, Except.bind])
      · rw [g3 b, g2 b]
        simp only [Tree.addrs, List.mem_append, List.mem_cons]
        by_cases hb1 : b ∈ r.addrs <;> by_cases hb2 : b ∈ l.addrs <;> by_cases hb3 : b = a <;>
          cases h[b]? <;> simp [hb1, hb2, hb3]

theorem Clear_spec {t : RBTree K} {T : Tree K} (hT : IsTree t T) :
    ∃ t', Clear t = .ok t' ∧ t'.root = none ∧ t'.cnt = 0 ∧ t'.heap.length = t.heap.length ∧
      ∀ b, t'.heap[b]? =
        if b ∈ T.addrs then (t.heap[b]?).map (fun c => { c with parent := none }) else t.heap[b]? := by
  by_cases hr : T.ptr = none
  · obtain rfl := Tree.eq_nil_of_ptr hr
    have hroot : t.root = none := hT.root
    refine ⟨{ t with cnt := 0 }, by simp [Clear, hroot, pure, Except.pure], hroot, rfl, rfl,
      fun b => by simp [Tree.addrs]⟩
  · obtain ⟨h', e, l, g⟩ := release_spec T (t.heap.length + 1) t.heap hr hT.shaped
      (Nat.le_of_lt (Shaped_height_lt hT.shaped hT.nodup))
    have hroot : (t.root != none) = true := by rw [hT.root]; simpa using hr
    refine ⟨{ heap := h', root := none, cnt := 0 }, ?_, rfl, rfl, l, g⟩
    simp [Clear, hT.root, hr, e, pure, Except.pure, bind, Except.bind]

end RBT

namespace RBT

variable {K : Type}

/-! ## One call on a well-formed red-black tree -/

theorem isTree_InOrder {t : RBTree K} {T : Tree K} (hT : IsTree t T) :
    InOrder t = .ok T.toList := by
  have := inOrder_spec [] hT.shaped (Shaped_height_lt hT.shaped hT.nodup)
  simpa [InOrder, hT.root] using this

theorem WF.isTree {t : RBTree K} {T : Tree K} (hw : WF t T) : IsTree t T :=
  ⟨hw.root, Rep_shaped hw.rep, hw.nodup⟩

theorem insList_eq [LinearOrder K] {T : Tree K} (hb : T.BST) (k : K) :
    insList T k = if k ∈ T.toList then T.toList else T.toList.orderedInsert (· ≤ ·) k := by
  have hs := sorted_insList k T hb
  have hs0 := (BST_iff_sorted T).1 hb
  split
  · rename_i hk
    apply List.eq_of_perm_of_sorted (r := (· ≤ ·))
    · apply (List.perm_ext_iff_of_nodup hs.nodup hs0.nodup).2
      intro x
      rw [mem_insList]
      constructor
      · rintro (rfl | h)
        · exact hk
        · exact h
      · exact Or.inr
    · exact hs.le_of_lt
    · exact hs0.le_of_lt
  · rename_i hk
    apply List.eq_of_perm_of_sorted (r := (· ≤ ·))
    · refine List.Perm.trans ?_ (List.perm_orderedInsert (· ≤ ·) k T.toList).symm
      apply (List.perm_ext_iff_of_nodup hs.nodup (List.nodup_cons.2 ⟨hk, hs0.nodup⟩)).2
      intro x
      rw [mem_insList, List.mem_cons]
    · exact hs.le_of_lt
    · exact hs0.le_of_lt.orderedInsert k _

theorem Delete_absent_ok [LinearOrder K] {t : RBTree K} {T : Tree K} {par : Ptr} {k : K}
    (hT : Linked t par T) (hl : (T.lookup k).2 = false) : Delete t k = .ok t := by
  have hsh := Rep_shaped hT.rep
  have hf := Shaped_height_lt hsh hT.nodup
  unfold Delete
  split
  · rfl
  · rw [hT.root]
    exact delete_absent t k hT.rep hf hl

/-- `Delete` of a key that is found, on a well-formed red-black tree whose counter
is the number of nodes: the nodes reachable from the root afterwards form a
red-black tree with that key taken out of the in-order sequence. -/
theorem Delete_present [LinearOrder K] {t : RBTree K} {T : Tree K} {v : K}
    (hw : WF t T) (hrb : T.RB) (hc : t.cnt = T.size) (hlt : T.size < uintModulus)
    (hv : (T.lookup v).2 = true) :
    ∃ t' T', Delete t v = .ok t' ∧ IsTree t' T' ∧ T'.RB ∧ t'.cnt = T'.size ∧
      ∃ p q, T.toList = p ++ v :: q ∧ T'.toList = p ++ q := by
  rcases T with _ | ⟨a, c, l, kr, r⟩
  · simp [Tree.lookup] at hv
  by_cases hroot : kr = v → l.ptr ≠ none ∧ r.ptr ≠ none
  · obtain ⟨t', T', h1, h2, h3, h5, -, p, q, e1, e2⟩ := Delete_spec v hw hrb hc hlt hv hroot
    exact ⟨t', T', h1, h2.isTree, h3, h5, p, q, e1, e2⟩
  · simp only [not_forall] at hroot
    obtain ⟨rfl, hno⟩ := hroot
    have hlr : l.ptr = none ∨ r.ptr = none := by
      by_contra hcon
      simp only [not_or] at hcon
      exact hno ⟨hcon.1, hcon.2⟩
    by_cases hleaf : l.ptr = none ∧ r.ptr = none
    · obtain ⟨rfl, rfl⟩ : l = .nil ∧ r = .nil :=
        ⟨Tree.eq_nil_of_ptr hleaf.1, Tree.eq_nil_of_ptr hleaf.2⟩
      have hs : Single t kr := ⟨a, _, hw.root, wf_cell (show WF t (plug [] _) from hw), rfl, rfl,
        rfl, by simpa [Tree.size] using hc⟩
      obtain ⟨t1, h1, h2, h3⟩ := Single_Delete hs
      exact ⟨t1, .nil, h1, ⟨h2, trivial, List.nodup_nil⟩,
        by simp [Tree.RB, Tree.NoRedRed, Tree.Balanced], by simpa [Tree.size] using h3,
        [], [], by simp [Tree.toList], by simp [Tree.toList]⟩
    · obtain ⟨rfl, b, kb, hshape⟩ := RB_one_child hrb hlr hleaf
      have hc2 : t.cnt = 2 := by
        rw [hc]
        rcases hshape with ⟨rfl, rfl⟩ | ⟨rfl, rfl⟩ <;> simp [Tree.size]
      obtain ⟨h1, hbc⟩ := Delete_root_one_child_eq hw hc2 hshape
      refine ⟨_, .node b .Black .nil kb .nil, h1, ⟨rfl, ?_, by simp [Tree.addrs]⟩,
        by simp [Tree.RB, Tree.NoRedRed, Tree.Balanced], by simp [Tree.size], ?_⟩
      · simp only [Shaped, and_true]
        exact ⟨_, by rw [getElem?_upd_self, hbc]; rfl, rfl, rfl, rfl, rfl⟩
      · rcases hshape with ⟨rfl, rfl⟩ | ⟨rfl, rfl⟩
        · exact ⟨[kb], [], by simp [Tree.toList], by simp [Tree.toList]⟩
        · exact ⟨[], [kb], by simp [Tree.toList], by simp [Tree.toList]⟩

end RBT

namespace RBT

variable {K : Type}

/-! ## Deletion on shapes: which node holds which key -/

theorem pairs_fst : ∀ T : Tree K, T.pairs.map Prod.fst = T.addrs
  | .nil => rfl
  | .node a c l k r => by simp [Tree.pairs, Tree.addrs, pairs_fst l, pairs_fst r]

theorem pairs_snd : ∀ T : Tree K, T.pairs.map Prod.snd = T.toList
  | .nil => rfl
  | .node a c l k r => by simp [Tree.pairs, Tree.toList, pairs_snd l, pairs_snd r]

theorem pairs_fill (f : Frame K) (x : Tree K) :
    (f.fill x).pairs =
      (if f.isLeft then [] else f.sib.pairs ++ [(f.a, f.k)]) ++ x.pairs ++
        (if f.isLeft then (f.a, f.k) :: f.sib.pairs else []) := by
  unfold Frame.fill
  cases f.isLeft <;> simp [Tree.pairs]

theorem pairs_plug : ∀ (ctx : Ctx K) (x : Tree K),
    (plug ctx x).pairs = ctxBeforeP ctx ++ x.pairs ++ ctxAfterP ctx
  | [], x => by simp [ctxBeforeP, ctxAfterP]
  | f :: up, x => by
    rw [plug_cons, pairs_plug up, pairs_fill]
    simp [ctxBeforeP, ctxAfterP, List.append_assoc]

theorem pairs_setColor (c : Color) (x : Tree K) : (x.setColor c).pairs = x.pairs := by
  cases x <;> rfl

theorem blackenRoot_sameP : ∀ (ctx : Ctx K),
    ctxBeforeP (blackenRoot ctx) = ctxBeforeP ctx ∧ ctxAfterP (blackenRoot ctx) = ctxAfterP ctx
  | [] => ⟨rfl, rfl⟩
  | [f] => ⟨rfl, rfl⟩
  | f :: g :: up => by
    obtain ⟨h1, h2⟩ := blackenRoot_sameP (g :: up)
    exact ⟨congrArg (· ++ (if f.isLeft then [] else f.sib.pairs ++ [(f.a, f.k)])) h1,
      congrArg ((if f.isLeft then (f.a, f.k) :: f.sib.pairs else []) ++ ·) h2⟩

theorem delNephews_sameP {f : Frame K} {up : Ctx K} {recur : Option (Ctx K)} {ctx' : Ctx K}
    (hrec : ∀ up', recur = some up' →
      ctxBeforeP up' = ctxBeforeP up ∧ ctxAfterP up' = ctxAfterP up)
    (hd : delNephews f up recur = some ctx') :
    ctxBeforeP ctx' = ctxBeforeP (f :: up) ∧ ctxAfterP ctx' = ctxAfterP (f :: up) := by
  obtain ⟨isLeft, p, cp, kp, sib⟩ := f
  rcases sib with _ | ⟨s, cs, sl, sk, sr⟩
  · simp [delNephews] at hd
  simp only [delNephews] at hd
  by_cases hboth : (if isLeft then sl else sr).isRed = false ∧ (if isLeft then sr else sl).isRed = false
  · simp only [hboth, and_self, if_true] at hd
    by_cases hcp : cp = .Red
    · simp only [hcp, if_true, Option.some.injEq] at hd
      subst hd
      simp [ctxBeforeP, ctxAfterP, Tree.pairs]
    · simp only [hcp, if_false, Option.map_eq_some'] at hd
      obtain ⟨up', e, rfl⟩ := hd
      obtain ⟨h1, h2⟩ := hrec up' e
      simp [ctxBeforeP, ctxAfterP, Tree.pairs, h1, h2]
  simp only [hboth, if_false] at hd
  cases isLeft
  · rcases sr with _ | ⟨c, cc, cl, ck, cr⟩
    · simp only [delCase3, delCase4, Bool.false_eq_true, if_false, Option.some.injEq] at hd
      subst hd
      obtain ⟨h1, h2⟩ := blackenRoot_sameP ({ isLeft := false, a := p, c := .Black, k := kp, sib := .nil } :: { isLeft := false, a := s, c := cp, k := sk, sib := sl.setColor .Black } :: up)
      rw [h1, h2]
      simp [ctxBeforeP, ctxAfterP, Tree.pairs, pairs_setColor]
    · cases cc
      · simp only [delCase3, delCase4, Bool.false_eq_true, if_false, Option.some.injEq] at hd
        subst hd
        obtain ⟨h1, h2⟩ := blackenRoot_sameP ({ isLeft := false, a := p, c := .Black, k := kp, sib := cr } :: { isLeft := false, a := c, c := cp, k := ck, sib := (Tree.node s .Red sl sk cl).setColor .Black } :: up)
        rw [h1, h2]
        simp [ctxBeforeP, ctxAfterP, Tree.pairs]
      · simp only [delCase3, delCase4, Bool.false_eq_true, if_false, Option.some.injEq] at hd
        subst hd
        obtain ⟨h1, h2⟩ := blackenRoot_sameP ({ isLeft := false, a := p, c := .Black, k := kp, sib := .node c .Black cl ck cr } :: { isLeft := false, a := s, c := cp, k := sk, sib := sl.setColor .Black } :: up)
        rw [h1, h2]
        simp [ctxBeforeP, ctxAfterP, Tree.pairs, pairs_setColor]
  · rcases sl with _ | ⟨c, cc, cl, ck, cr⟩
    · simp only [delCase3, delCase4, if_true, Option.some.injEq] at hd
      subst hd
      obtain ⟨h1, h2⟩ := blackenRoot_sameP ({ isLeft := true, a := p, c := .Black, k := kp, sib := .nil } :: { isLeft := true, a := s, c := cp, k := sk, sib := sr.setColor .Black } :: up)
      rw [h1, h2]
      simp [ctxBeforeP, ctxAfterP, Tree.pairs, pairs_setColor]
    · cases cc
      · simp only [delCase3, delCase4, if_true, Option.some.injEq] at hd
        subst hd
        obtain ⟨h1, h2⟩ := blackenRoot_sameP ({ isLeft := true, a := p, c := .Black, k := kp, sib := cl } :: { isLeft := true, a := c, c := cp, k := ck, sib := (Tree.node s .Red cr sk sr).setColor .Black } :: up)
        rw [h1, h2]
        simp [ctxBeforeP, ctxAfterP, Tree.pairs]
      · simp only [delCase3, delCase4, if_true, Option.some.injEq] at hd
        subst hd
        obtain ⟨h1, h2⟩ := blackenRoot_sameP ({ isLeft := true, a := p, c := .Black, k := kp, sib := .node c .Black cl ck cr } :: { isLeft := true, a := s, c := cp, k := sk, sib := sr.setColor .Black } :: up)
        rw [h1, h2]
        simp [ctxBeforeP, ctxAfterP, Tree.pairs, pairs_setColor]

theorem delFix_sameP : ∀ (ctx : Ctx K) {ctx' : Ctx K}, delFix ctx = some ctx' →
    ctxBeforeP ctx' = ctxBeforeP ctx ∧ ctxAfterP ctx' = ctxAfterP ctx
  | [], ctx', h => by
    simp only [delFix, Option.some.injEq] at h
    subst h
    simp
  | ⟨isLeft, p, cp, kp, sib⟩ :: up, ctx', h => by
    rcases sib with _ | ⟨s, cs, sl, sk, sr⟩
    · simp [delFix] at h
    cases cs
    · cases isLeft
      · simp only [delFix, Bool.false_eq_true, if_false] at h
        obtain ⟨h1, h2⟩ := delNephews_sameP (by simp) h
        rw [h1, h2]
        simp [ctxBeforeP, ctxAfterP, Tree.pairs]
      · simp only [delFix, if_true] at h
        obtain ⟨h1, h2⟩ := delNephews_sameP (by simp) h
        rw [h1, h2]
        simp [ctxBeforeP, ctxAfterP, Tree.pairs]
    · simp only [delFix] at h
      exact delNephews_sameP (fun up' e => delFix_sameP up e) h

theorem pairs_plug_delFix {ctx ctx' : Ctx K} (h : delFix ctx = some ctx') (x : Tree K) :
    (plug ctx' x).pairs = ctxBeforeP ctx ++ x.pairs ++ ctxAfterP ctx := by
  obtain ⟨h1, h2⟩ := delFix_sameP ctx h
  rw [pairs_plug, h1, h2]

theorem ctxBeforeP_append : ∀ (rel rest : Ctx K),
    ctxBeforeP (rel ++ rest) = ctxBeforeP rest ++ ctxBeforeP rel
  | [], rest => by simp [ctxBeforeP]
  | f :: rel, rest => by
    show ctxBeforeP (rel ++ rest) ++ _ = _
    rw [ctxBeforeP_append rel rest, List.append_assoc]
    rfl

theorem ctxAfterP_append : ∀ (rel rest : Ctx K),
    ctxAfterP (rel ++ rest) = ctxAfterP rel ++ ctxAfterP rest
  | [], rest => by simp [ctxAfterP]
  | f :: rel, rest => by
    show _ ++ ctxAfterP (rel ++ rest) = _
    rw [ctxAfterP_append rel rest, ← List.append_assoc]
    rfl

theorem leftSpine_beforeP : ∀ (x : Tree K), ctxBeforeP (leftSpine x []).1 = []
  | .nil => rfl
  | .node s cs sl sk sr => by
    rw [leftSpine]
    by_cases hl : sl.ptr = none
    · simp [hl, ctxBeforeP]
    · simp only [hl, if_false]
      rw [leftSpine_acc, ctxBeforeP_append, leftSpine_beforeP sl]
      simp [ctxBeforeP]

theorem delNode_pairs {ctx : Ctx K} {c : Color} {l r : Tree K} {T' : Tree K}
    (h : delNode ctx c l r = some T') (hlr : l.ptr = none ∨ r.ptr = none) :
    T'.pairs = ctxBeforeP ctx ++ (l.pairs ++ r.pairs) ++ ctxAfterP ctx := by
  unfold delNode at h
  by_cases hleaf : l.ptr = none ∧ r.ptr = none
  · obtain ⟨rfl, rfl⟩ : l = .nil ∧ r = .nil :=
      ⟨Tree.eq_nil_of_ptr hleaf.1, Tree.eq_nil_of_ptr hleaf.2⟩
    simp only [Tree.ptr_nil, and_self, if_true] at h
    by_cases hc : c = .Black
    · simp only [hc, if_true] at h
      cases hd : delFix ctx with
      | none => simp [hd] at h
      | some ctx' =>
        rw [hd] at h
        cases ctx' with
        | nil => simp at h
        | cons f up =>
          simp only [Option.some.injEq] at h
          subst h
          simpa [Tree.pairs] using pairs_plug_delFix hd .nil
    · simp only [hc, if_false] at h
      cases ctx with
      | nil => simp at h
      | cons f up =>
        simp only [Option.some.injEq] at h
        subst h
        rw [pairs_plug]
        simp [Tree.pairs]
  · simp only [hleaf, if_false] at h
    have hrep : (if l.ptr = none then r else l).pairs = l.pairs ++ r.pairs := by
      rcases hlr with h1 | h1
      · simp [h1, Tree.eq_nil_of_ptr h1, Tree.pairs]
      · have h2 : ¬ l.ptr = none := fun h2 => hleaf ⟨h2, h1⟩
        simp [h2, Tree.eq_nil_of_ptr h1, Tree.pairs]
    cases ctx with
    | nil => simp at h
    | cons f up =>
      simp only at h
      by_cases hc : c = .Black
      · simp only [hc, if_true] at h
        by_cases hred : (if l.ptr = none then r else l).isRed = true
        · simp only [hred, if_true, Option.some.injEq] at h
          subst h
          rw [pairs_plug, pairs_setColor, hrep]
        · simp only [hred, Bool.false_eq_true, if_false, Option.map_eq_some'] at h
          obtain ⟨ctx1, hd, rfl⟩ := h
          rw [pairs_plug_delFix hd, hrep]
      · simp only [hc, if_false, Option.some.injEq] at h
        subst h
        rw [pairs_plug, hrep]

/-- Deletion at a node with two children: the successor is the in-order neighbour,
its key moves to the node `a`, and the successor's node leaves the tree. -/
theorem delFound_pairs {ctx : Ctx K} {a : Nat} {c : Color} {l r : Tree K} {k : K} {T' : Tree K}
    (hl : l.ptr ≠ none) (hr : r.ptr ≠ none) (h : delFound ctx a c l r = some T') :
    ∃ s sk P Q, (leftSpine r []).2.ptr = some s ∧ r.toList.head? = some sk ∧
      (plug ctx (.node a c l k r)).pairs = P ++ (a, k) :: (s, sk) :: Q ∧
      T'.pairs = P ++ (a, sk) :: Q := by
  unfold delFound at h
  have hlr : ¬ (l.ptr = none ∨ r.ptr = none) := by
    rintro (e | e)
    · exact hl e
    · exact hr e
  simp only [hlr, if_false] at h
  obtain ⟨rel, s, cs, sk, sr, h1, h2, -, -⟩ := leftSpine_spec r [] hr
  have hb := leftSpine_beforeP r
  rw [h1] at h hb
  simp only [List.append_nil] at h hb
  have e1 := delNode_pairs h (Or.inl Tree.ptr_nil)
  have hrp : r.pairs = (s, sk) :: (sr.pairs ++ ctxAfterP rel) := by
    rw [← h2, pairs_plug, hb]
    simp [Tree.pairs]
  refine ⟨s, sk, ctxBeforeP ctx ++ l.pairs, sr.pairs ++ ctxAfterP rel ++ ctxAfterP ctx, ?_, ?_,
    ?_, ?_⟩
  · rw [h1]; rfl
  · rw [← pairs_snd, hrp]; rfl
  · rw [pairs_plug, Tree.pairs, hrp]
    simp
  · rw [e1, ctxBeforeP_append, ctxAfterP_append, hb]
    simp [ctxBeforeP, ctxAfterP, Tree.pairs]

end RBT

namespace RBT

variable {K : Type}

theorem BST_of_plug [LinearOrder K] (ctx : Ctx K) {x : Tree K} (h : (plug ctx x).BST) : x.BST := by
  rw [BST_iff_sorted, toList_plug] at h
  rw [BST_iff_sorted]
  exact (h.sublist (List.sublist_append_left _ _)).sublist (List.sublist_append_right _ _)

/-- The descent of `delete` from the root reaches the subtree that holds the key. -/
theorem delDown_plug [LinearOrder K] (v : K) (ctx0 : Ctx K) : ∀ (rel : Ctx K) (x : Tree K),
    (plug rel x).BST → v ∈ x.toList → delDown ctx0 (plug rel x) v = delDown (rel ++ ctx0) x v
  | [], _, _, _ => rfl
  | f :: up, x, hb, hv => by
    have hb1 : (plug up (f.fill x)).BST := hb
    have hv1 : v ∈ (f.fill x).toList := by
      rw [toList_fill]
      simp [hv]
    rw [plug_cons, delDown_plug v ctx0 up (f.fill x) hb1 hv1]
    have hb2 := BST_of_plug up hb1
    obtain ⟨fl, fa, fc, fk, fs⟩ := f
    cases fl
    · simp only [fill_right, Tree.BST] at hb2
      have hlt : fk < v := hb2.2.1 v hv
      rw [fill_right, delDown]
      simp [ne_of_lt hlt, not_lt.2 hlt.le]
    · simp only [fill_left, Tree.BST] at hb2
      have hlt : v < fk := hb2.1 v hv
      rw [fill_left, delDown]
      simp [ne_of_gt hlt, hlt]

theorem Rep_pairs {h : Heap K} {b : Nat} {kb : K} : ∀ {T : Tree K} {par : Ptr}, Rep h par T →
    (b, kb) ∈ T.pairs → ∃ x, h[b]? = some x ∧ x.Val = kb
  | .nil, _, _, hm => by simp [Tree.pairs] at hm
  | .node a c l k r, par, hr, hm => by
    simp only [Tree.pairs, List.mem_append, List.mem_cons, Prod.mk.injEq] at hm
    simp only [Rep] at hr
    rcases hm with hm | ⟨rfl, rfl⟩ | hm
    · exact Rep_pairs hr.2.1 hm
    · exact ⟨_, hr.1, rfl⟩
    · exact Rep_pairs hr.2.2 hm

theorem ctxRoot_ne_none : ∀ (ctx : Ctx K) {p : Ptr}, p ≠ none → ctxRoot ctx p ≠ none
  | [], _, h => h
  | f :: up, _, _ => ctxRoot_ne_none up (by simp)

theorem size_le_plug (ctx : Ctx K) (x : Tree K) : x.size ≤ (plug ctx x).size := by
  rw [← Tree.length_toList, ← Tree.length_toList, toList_plug]
  simp only [List.length_append]
  omega

/-- `Delete` of the key of a node with two children, on a well-formed red-black tree. -/
theorem Delete_two_children [LinearOrder K] {t : RBTree K} {ctx : Ctx K} {a : Nat} {c : Color}
    {l r : Tree K} {k : K}
    (hw : WF t (plug ctx (.node a c l k r))) (hrb : (plug ctx (.node a c l k r)).RB)
    (hb : (plug ctx (.node a c l k r)).BST) (hc : t.cnt = (plug ctx (.node a c l k r)).size)
    (hl : l.ptr ≠ none) (hr : r.ptr ≠ none) :
    ∃ t' T' s sk P Q, Delete t k = .ok t' ∧ WF t' T' ∧
      (leftSpine r []).2.ptr = some s ∧ r.toList.head? = some sk ∧
      (plug ctx (.node a c l k r)).pairs = P ++ (a, k) :: (s, sk) :: Q ∧
      T'.pairs = P ++ (a, sk) :: Q := by
  obtain ⟨T', hd, -⟩ := @delFound_RB K ctx a c l r k (Or.inr ⟨hl, hr⟩) hrb
  obtain ⟨s, sk, P, Q, e1, e2, e3, e4⟩ := @delFound_pairs K ctx a c l r k T' hl hr hd
  have hdd : delDown [] (plug ctx (.node a c l k r)) k = some T' := by
    rw [delDown_plug k [] ctx _ hb (by simp [Tree.toList]), delDown]
    simpa using hd
  have hc1 : t.cnt ≠ 1 := by
    have h1 := size_le_plug ctx (.node a c l k r)
    have h2 : 1 ≤ l.size := by
      cases l with
      | nil => simp at hl
      | node => simp only [Tree.size]; omega
    have h3 : 1 ≤ r.size := by
      cases r with
      | nil => simp at hr
      | node => simp only [Tree.size]; omega
    simp only [Tree.size] at h1 ⊢
    omega
  have hwp : WF t (plug [] (plug ctx (.node a c l k r))) := hw
  obtain ⟨t', h1, h2, -, -⟩ := delete_spec k _ [] (t.heap.length + 1) t T' hwp
    (Shaped_height_lt (Rep_shaped hw.rep) hw.nodup) hc1 hdd
  refine ⟨t', T', s, sk, P, Q, ?_, h2, e1, e2, e3, e4⟩
  have hne : (plug ctx (.node a c l k r)).ptr ≠ none := by
    rw [plug_ptr]
    exact ctxRoot_ne_none ctx (by simp)
  have hroot : (t.root == none) = false := by
    rw [hw.root]
    simpa using hne
  simp only [Delete, hroot, Bool.false_eq_true, if_false]
  rw [hw.root]
  exact h1

end RBT

namespace RBT

/-! ## Claims settled by running the code on a concrete call sequence -/

/-- C1 (code at the failing input): after `Insert 1, Insert 2, Delete 1, Insert 3,
Insert 4` on a new tree every call has returned and the node the tree's root
pointer refers to is Red, so invariant (a) is broken.  `Delete 1` removed a root
with a single child and left the child's parent field pointing at the removed
node; `insertFixUp` and `leftRotate` then treat the root as an inner node. -/
theorem C1_root_red_after_root_delete :
    ∃ t x, runCalls (rootDeleted ++ [.insert 3, .insert 4]) NewRBTree = .ok t ∧
      load t.heap t.root = .ok x ∧ x.color = .Red :=
  ⟨_, _, rfl, rfl, rfl⟩

/-- C2 (code at the failing input): in the tree reached by `Insert 1, Insert 2,
Delete 1, Insert 3`, the key 3 is present and 4 is absent; after `Insert 4` the
call `Has 4` answers false, `InOrder` is `[2]`, and the key 3 is gone as well. -/
theorem C2_inserted_key_missing :
    ∃ t t', runCalls (rootDeleted ++ [.insert 3]) NewRBTree = .ok t ∧
      Has t 3 = .ok true ∧ Insert t 4 = .ok t' ∧
      Has t' 4 = .ok false ∧ Has t' 3 = .ok false ∧ InOrder t' = .ok [2] :=
  ⟨_, _, rfl, rfl, rfl, rfl, rfl, rfl⟩

/-- C3 (code at the failing input): in the tree reached by `Insert 1, Insert 2,
Delete 1, Insert 1`, after `Delete 2` the call `Has 2` still answers true and 2
still occurs in `InOrder`. -/
theorem C3_deleted_key_present :
    ∃ t t', runCalls (rootDeleted ++ [.insert 1]) NewRBTree = .ok t ∧
      Delete t 2 = .ok t' ∧ Has t' 2 = .ok true ∧ InOrder t' = .ok [1, 2] :=
  ⟨_, _, rfl, rfl, rfl, rfl⟩

/-- C4 (code at the failing input): after `Insert 1, Insert 2, Delete 1, Insert 1,
Delete 2` on a new tree `Size` is 1 while `InOrder` has two elements. -/
theorem C4_size_differs_from_inorder_length :
    ∃ t l, runCalls (rootDeleted ++ [.insert 1, .delete 2]) NewRBTree = .ok t ∧
      InOrder t = .ok l ∧ Size t = 1 ∧ l.length = 2 :=
  ⟨_, _, rfl, rfl, rfl, rfl⟩

/-- C8 (code at the failing input): in the tree reached by `Insert 1, Insert 2,
Delete 1, Insert 3`, a second `Insert 4` changes the state left by the first:
`Size` goes from 3 to 4 and `InOrder` from `[2]` to `[2, 4]`. -/
theorem C8_second_insert_changes_state :
    ∃ t t1 t2, runCalls (rootDeleted ++ [.insert 3]) NewRBTree = .ok t ∧
      Insert t 4 = .ok t1 ∧ Insert t1 4 = .ok t2 ∧
      Size t1 = 3 ∧ Size t2 = 4 ∧ InOrder t1 = .ok [2] ∧ InOrder t2 = .ok [2, 4] :=
  ⟨_, _, _, rfl, rfl, rfl, rfl, rfl, rfl, rfl⟩

/-- C10 (counterexample): after inserting 1, 2, ..., 7 in that order into a new tree
the root does not hold the key 4. -/
theorem C10_root_key_is_not_four :
    ∃ t x, runCalls oneToSeven NewRBTree = .ok t ∧ load t.heap t.root = .ok x ∧ x.Val ≠ 4 :=
  ⟨_, _, rfl, rfl, by decide⟩

/-- C10 (amended): inserting 1, 2, ..., 7 in that order into a new tree yields a tree
whose `InOrder` is `[1, 2, 3, 4, 5, 6, 7]`, whose root holds the key 2, and whose
root is Black. -/
theorem C10_one_to_seven :
    ∃ t x, runCalls oneToSeven NewRBTree = .ok t ∧ InOrder t = .ok [1, 2, 3, 4, 5, 6, 7] ∧
      load t.heap t.root = .ok x ∧ x.Val = 2 ∧ x.color = .Black :=
  ⟨_, _, rfl, rfl, rfl, rfl, rfl⟩

end RBT

namespace RBT

variable {K : Type}

/-! ## Lookup (C7) and deletion of an absent key (C9) -/

/-- C7: for every tree record whose nodes reachable through child links form a
finite tree `T` in binary-search-tree order, and every key `k`: `Get k` returns a
pair `(p, found)`, `InOrder` returns the keys of `T`, `found` is true exactly when
`k` occurs in that list, a found node holds the key `k`, a not-found answer
carries the `nil` pointer, and `Has k` returns the same flag.  `Get` and `Has`
contain no assignment, so they return no new tree record. -/
theorem C7_get_has [LinearOrder K] (t : RBTree K) (T : Tree K) (k : K)
    (hT : IsTree t T) (hb : T.BST) :
    ∃ p found, Get t k = .ok (p, found) ∧ Has t k = .ok found ∧
      InOrder t = .ok T.toList ∧ (found = true ↔ k ∈ T.toList) ∧
      (found = true → ∃ x, load t.heap p = .ok x ∧ x.Val = k) ∧
      (found = false → p = none) := by
  have hf := Shaped_height_lt hT.shaped hT.nodup
  have hs : search (t.heap.length + 1) t.heap t.root k = .ok (T.lookup k) := by
    rw [hT.root]; exact search_spec k hT.shaped hf
  refine ⟨(T.lookup k).1, (T.lookup k).2, hs, ?_, ?_, lookup_mem_iff k hb,
    lookup_found k hT.shaped, lookup_absent k⟩
  · simp [Has, hs, bind, Except.bind, pure, Except.pure]
  · have := inOrder_spec [] hT.shaped hf
    simpa [InOrder, hT.root] using this

/-- C7 (witness): the three-node tree with root 2 and children 1 and 3, key 3. -/
theorem C7_get_has_witness :
    IsTree sampleTree sampleShape ∧ sampleShape.BST ∧
    ∃ p found, Get sampleTree 3 = .ok (p, found) ∧ Has sampleTree 3 = .ok found ∧
      InOrder sampleTree = .ok sampleShape.toList ∧ (found = true ↔ (3 : Int) ∈ sampleShape.toList) ∧
      (found = true → ∃ x, load sampleTree.heap p = .ok x ∧ x.Val = 3) ∧
      (found = false → p = none) :=
  have h1 : IsTree sampleTree sampleShape :=
    ⟨rfl, by simp [sampleTree, sampleShape, Shaped], by decide⟩
  have h2 : sampleShape.BST := by simp [sampleShape, Tree.BST, Tree.toList]
  ⟨h1, h2, C7_get_has sampleTree sampleShape 3 h1 h2⟩

/-- C9: for every tree record whose reachable nodes form a finite tree in which
each child's parent field points to the node holding it (the parent field of the
root node may be anything), and every key `k` for which `Has k` answers false,
`Delete k` returns without fault and the whole record is unchanged: heap (keys,
colours, child and parent fields of every node), root pointer and counter. -/
theorem C9_delete_absent [LinearOrder K] (t : RBTree K) (T : Tree K) (par : Ptr) (k : K)
    (hT : Linked t par T) (hk : Has t k = .ok false) : Delete t k = .ok t := by
  have hsh := Rep_shaped hT.rep
  have hf := Shaped_height_lt hsh hT.nodup
  have hs : search (t.heap.length + 1) t.heap t.root k = .ok (T.lookup k) := by
    rw [hT.root]; exact search_spec k hsh hf
  have hl : (T.lookup k).2 = false := by
    simpa [Has, hs, bind, Except.bind, pure, Except.pure] using hk
  unfold Delete
  split
  · rfl
  · rw [hT.root]
    exact delete_absent t k hT.rep hf hl

/-- C9 (witness): the three-node tree with root 2 and children 1 and 3, absent key 5. -/
theorem C9_delete_absent_witness :
    Linked sampleTree none sampleShape ∧ Has sampleTree 5 = .ok false ∧
      Delete sampleTree 5 = .ok sampleTree :=
  have h1 : Linked sampleTree none sampleShape :=
    ⟨rfl, by simp [sampleTree, sampleShape, Rep], by decide⟩
  ⟨h1, rfl, C9_delete_absent sampleTree sampleShape none 5 h1 rfl⟩

end RBT

namespace RBT

variable {K : Type}

/-! ## Building a tree by insertions (C5) -/

/-- C5: for every list of keys, in any order and with duplicates allowed, whose
length fits the `uint` counter, inserting the keys one by one into a new tree
returns a tree whose `InOrder` is the ascending list of the distinct keys and
whose `Size` is the number of distinct keys. -/
theorem C5_insert_all [LinearOrder K] (keys : List K) (hlen : keys.length < uintModulus) :
    ∃ t, runCalls (keys.map Call.insert) NewRBTree = .ok t ∧
      InOrder t = .ok (keys.toFinset.sort (· ≤ ·)) ∧ Size t = keys.toFinset.card := by
  have hw0 : WF (NewRBTree : RBTree K) .nil := ⟨rfl, trivial, List.nodup_nil⟩
  obtain ⟨t, T, he, hw, hb, hm, hc⟩ := run_inserts keys [] NewRBTree .nil hw0 trivial
    (by simp [Tree.toList]) rfl (by simpa using hlen)
  have hl : T.toList = keys.toFinset.sort (· ≤ ·) :=
    sorted_eq_sort ((BST_iff_sorted T).1 hb) (by simpa using hm)
  refine ⟨t, he, ?_, ?_⟩
  · have hsh := Rep_shaped hw.rep
    have := inOrder_spec [] hsh (Shaped_height_lt hsh hw.nodup)
    rw [← hl]
    simpa [InOrder, hw.root] using this
  · rw [Size, hc, ← Tree.length_toList, hl, Finset.length_sort]

/-- C5 (witness): the keys 3, 1, 2, 3. -/
theorem C5_insert_all_witness :
    ∃ t, runCalls ([3, 1, 2, 3].map Call.insert) (NewRBTree : RBTree Int) = .ok t ∧
      InOrder t = .ok (([3, 1, 2, 3] : List Int).toFinset.sort (· ≤ ·)) ∧
      Size t = ([3, 1, 2, 3] : List Int).toFinset.card :=
  C5_insert_all [3, 1, 2, 3] (by decide)

end RBT

namespace RBT

variable {K : Type}

/-! ## Inserting keys and deleting all of them (C6) -/

/-- C6: for every list of distinct keys whose length fits the `uint` counter and
every order `dels` of those keys, inserting the keys one by one into a new tree
returns a tree on which the deletions of `dels` pass every check of
`DeletesAll`: before each `Delete k`, `Get k` answers found with a node holding
`k`; after it `Has k` is false; and after the last deletion the root is absent,
`Size` is 0 and `InOrder` is empty. -/
theorem C6_insert_then_delete_all [LinearOrder K] (keys dels : List K) (hnd : keys.Nodup)
    (hperm : dels.Perm keys) (hlen : keys.length < uintModulus) :
    ∃ t, runCalls (keys.map Call.insert) NewRBTree = .ok t ∧ DeletesAll t dels := by
  have hw0 : WF (NewRBTree : RBTree K) .nil := ⟨rfl, trivial, List.nodup_nil⟩
  obtain ⟨t, T, he, hw, hb, hr, hm, hc⟩ := run_inserts_RB keys [] NewRBTree .nil hw0 trivial
    (by simp [Tree.RB, Tree.NoRedRed, Tree.Balanced]) (by simp [Tree.toList]) rfl
    (by simpa using hlen)
  have hp : T.toList.Perm keys :=
    (List.perm_ext_iff_of_nodup ((BST_iff_sorted T).1 hb).nodup hnd).2 (by simpa using hm)
  refine ⟨t, he, deletes_all dels t (Or.inl ⟨T, hw, hr, hb, hc, ?_, hp.trans hperm.symm⟩)⟩
  rw [← Tree.length_toList, hp.length_eq]
  exact hlen

/-- C6 (witness): the keys 2, 1, 3 deleted in the order 1, 3, 2. -/
theorem C6_insert_then_delete_all_witness :
    ([2, 1, 3] : List Int).Nodup ∧ ([1, 3, 2] : List Int).Perm [2, 1, 3] ∧
    ([2, 1, 3] : List Int).length < uintModulus ∧
    ∃ t, runCalls (([2, 1, 3] : List Int).map Call.insert) NewRBTree = .ok t ∧
      DeletesAll t [1, 3, 2] :=
  ⟨by decide, by decide, by decide,
    C6_insert_then_delete_all [2, 1, 3] [1, 3, 2] (by decide) (by decide) (by decide)⟩

end RBT

namespace RBT

variable {K : Type}

/-! ## Height after a deletion of the root (C11), faults (C12), `Clear` (C13), the parent of the root (C14) -/

/-- C11 (failing run): after the calls `Insert 1`, `Insert 4`, `Delete 1`, `Insert 1`,
`Delete 4`, `Insert 2`, `Delete 1`, `Insert 3` on a new tree every call has
returned, `Size` is 2, and the longest path from the root through child links
has 4 nodes, so that `2 ^ (height / 2) = 4` exceeds `Size + 1 = 3` (and
`2 ^ height = 16` exceeds `(Size + 1) ^ 2 = 9`). -/
theorem C11_height_exceeds_bound :
    ∃ t, runCalls tallRun NewRBTree = .ok t ∧ Size t = 2 ∧ treeHeight t = 4 ∧
      InOrder t = .ok [1, 2, 3, 4] ∧
      ¬ (2 ^ (treeHeight t / 2) ≤ Size t + 1) ∧ ¬ (2 ^ treeHeight t ≤ (Size t + 1) ^ 2) :=
  ⟨_, rfl, rfl, rfl, rfl, by decide, by decide⟩

/-- C12 (failing run): after the calls `Insert 1`, `Insert 2`, `Delete 1`, `Insert 1`,
`Delete 2`, `Insert 3` on a new tree, which all return, the call `Delete 1` does
not run to completion: `deleteFixUp` reaches the node with key 1 at address 2,
whose sibling is absent, and reads the colour of that sibling. -/
theorem C12_delete_faults :
    ∃ t, runCalls strayRun NewRBTree = .ok t ∧ Has t 1 = .ok true ∧
      sibling t.heap (some 2) = .ok none ∧ Delete t 1 = .error .nilDeref :=
  ⟨_, rfl, rfl, rfl, rfl⟩

/-- C13: for every tree record whose nodes reachable through child links form a
finite tree `T`, `Clear` returns a record with absent root, `Size` 0, `Empty`
true, empty `InOrder`, `Has k` false for every key, and in which every node of
`T` has an absent parent field. -/
theorem C13_clear [LinearOrder K] (t : RBTree K) (T : Tree K) (hT : IsTree t T) :
    ∃ t', Clear t = .ok t' ∧ t'.root = none ∧ Size t' = 0 ∧ Empty t' = true ∧
      InOrder t' = .ok [] ∧ (∀ k : K, Has t' k = .ok false) ∧
      ∀ a ∈ T.addrs, ∃ x, t'.heap[a]? = some x ∧ x.parent = none := by
  obtain ⟨t', h1, h2, h3, h4, h5⟩ := Clear_spec hT
  refine ⟨t', h1, h2, h3, by simp [Empty, h3], empty_InOrder h2, fun k => empty_Has h2 k,
    fun a ha => ?_⟩
  have hlt : a < t.heap.length := Shaped_lt hT.shaped a ha
  rw [h5 a, if_pos ha, List.getElem?_eq_getElem hlt]
  exact ⟨_, rfl, rfl⟩

/-- C13 (witness): the three-node tree with root 2 and children 1 and 3. -/
theorem C13_clear_witness :
    IsTree sampleTree sampleShape ∧
    ∃ t', Clear sampleTree = .ok t' ∧ t'.root = none ∧ Size t' = 0 ∧ Empty t' = true ∧
      InOrder t' = .ok [] ∧ (∀ k : Int, Has t' k = .ok false) ∧
      ∀ a ∈ sampleShape.addrs, ∃ x, t'.heap[a]? = some x ∧ x.parent = none :=
  have h1 : IsTree sampleTree sampleShape :=
    ⟨rfl, by simp [sampleTree, sampleShape, Shaped], by decide⟩
  ⟨h1, C13_clear sampleTree sampleShape h1⟩

/-- C14 (failing run): the record `twoTree`, reached by `Insert 1`, `Insert 2`, holds
a well-formed red-black tree: Black root 1 with the Red right child 2.  After
`Delete 1` the root is the node with key 2 at address 1, its parent field still
points to the removed node at address 0, `isRoot` is false for it and
`direction` reports `DirRight`. -/
theorem C14_root_keeps_parent :
    runCalls [.insert 1, .insert 2] NewRBTree = .ok twoTree ∧
    WF twoTree twoShape ∧ twoShape.RB ∧ twoShape.BST ∧
    ∃ t x, Delete twoTree 1 = .ok t ∧ t.root = some 1 ∧ load t.heap t.root = .ok x ∧
      x.Val = 2 ∧ x.parent = some 0 ∧ isRoot t.heap t.root = .ok false ∧
      direction t.heap t.root = .ok .DirRight :=
  ⟨rfl, ⟨rfl, by simp [twoTree, twoShape, Rep], by decide⟩,
    by simp [twoShape, Tree.RB, Tree.NoRedRed, Tree.Balanced, Tree.bh],
    by simp [twoShape, Tree.BST, Tree.toList],
    _, _, rfl, rfl, rfl, rfl, rfl, rfl, rfl⟩

end RBT

namespace RBT

variable {K : Type}

/-! ## Rotations (C15), one insertion (C16), one deletion (C17), absent nodes (C20) -/

/-- C15: for every tree record with consistent parent and child links and every
node `n` of it, given by the path `ctx` to it: `leftRotate` and `rightRotate` of
an absent node, `leftRotate n` without a right child and `rightRotate n`
without a left child return the record unchanged; with a right child `s`,
`leftRotate n` returns a record with consistent links in which `s` stands at
the end of the same path, with `n` as its left child, all colours and keys
being those of before, and `InOrder` and `Size` unchanged; `rightRotate` does
the mirrored change with the left child. -/
theorem C15_rotations (t : RBTree K) (ctx : Ctx K) (n : Nat) (c : Color) (l r : Tree K) (k : K)
    (hw : WF t (plug ctx (.node n c l k r))) :
    leftRotate t none = .ok t ∧ rightRotate t none = .ok t ∧
    (r = .nil → leftRotate t (some n) = .ok t) ∧
    (l = .nil → rightRotate t (some n) = .ok t) ∧
    (∀ s cs b ks d, r = .node s cs b ks d →
      ∃ t', leftRotate t (some n) = .ok t' ∧
        WF t' (plug ctx (.node s cs (.node n c l k b) ks d)) ∧
        InOrder t' = InOrder t ∧ Size t' = Size t) ∧
    (∀ s cs b ks d, l = .node s cs b ks d →
      ∃ t', rightRotate t (some n) = .ok t' ∧
        WF t' (plug ctx (.node s cs b ks (.node n c d k r))) ∧
        InOrder t' = InOrder t ∧ Size t' = Size t) := by
  refine ⟨rfl, rfl, ?_, ?_, ?_, ?_⟩
  · rintro rfl
    simp [leftRotate, wf_load hw, bind, Except.bind, pure, Except.pure]
  · rintro rfl
    simp [rightRotate, wf_load hw, bind, Except.bind, pure, Except.pure]
  · rintro s cs b ks d rfl
    obtain ⟨t', h1, h2, h3, -⟩ := leftRotate_spec hw
    refine ⟨t', h1, h2, ?_, h3⟩
    rw [isTree_InOrder h2.isTree, isTree_InOrder hw.isTree, toList_plug, toList_plug]
    simp [Tree.toList]
  · rintro s cs b ks d rfl
    obtain ⟨t', h1, h2, h3, -⟩ := rightRotate_spec hw
    refine ⟨t', h1, h2, ?_, h3⟩
    rw [isTree_InOrder h2.isTree, isTree_InOrder hw.isTree, toList_plug, toList_plug]
    simp [Tree.toList]

/-- C15 (witness): the root of the three-node tree with root 2 and children 1 and 3. -/
theorem C15_rotations_witness :
    WF sampleTree (plug [] (.node 0 .Black (.node 1 .Red .nil 1 .nil) 2 (.node 2 .Red .nil 3 .nil))) ∧
    ∃ t', leftRotate sampleTree (some 0) = .ok t' ∧
      WF t' (plug [] (.node 2 .Red (.node 0 .Black (.node 1 .Red .nil 1 .nil) 2 .nil) 3 .nil)) ∧
      InOrder t' = InOrder sampleTree ∧ Size t' = Size sampleTree :=
  have hw : WF sampleTree
      (plug [] (.node 0 .Black (.node 1 .Red .nil 1 .nil) 2 (.node 2 .Red .nil 3 .nil))) :=
    ⟨rfl, by simp [sampleTree, plug, Rep], by decide⟩
  ⟨hw, (C15_rotations sampleTree [] 0 .Black _ _ 2 hw).2.2.2.2.1 2 .Red .nil 3 .nil rfl⟩

/-- C16: for every well-formed red-black tree (consistent links, root without
parent, Black root, no Red node with a Red child, uniform black-height, keys in
strictly ascending order, `Size` equal to the number of nodes, one more node
fitting the `uint` counter) and every key `k`, `Insert k` returns a tree that is
well-formed in the same sense and whose `InOrder` is the previous sequence,
unchanged when `k` was present and with `k` put at its sorted position
otherwise. -/
theorem C16_insert_preserves [LinearOrder K] (t : RBTree K) (T : Tree K) (k : K)
    (hw : WF t T) (hrb : T.RB) (hb : T.BST) (hc : Size t = T.size)
    (hlt : T.size + 1 < uintModulus) :
    ∃ t' T', Insert t k = .ok t' ∧ WF t' T' ∧ T'.RB ∧ T'.BST ∧ Size t' = T'.size ∧
      InOrder t' = .ok T'.toList ∧
      T'.toList = if k ∈ T.toList then T.toList else T.toList.orderedInsert (· ≤ ·) k := by
  obtain ⟨t', h1, h2, h3⟩ := Insert_spec k hw
  refine ⟨t', _, h1, h2, insT_RB _ k hrb, BST_insT _ k hb, ?_, isTree_InOrder h2.isTree, ?_⟩
  · have hc' : t.cnt = T.size := hc
    rw [Size, h3, size_insT, hc']
    split
    · rfl
    · exact Nat.mod_eq_of_lt hlt
  · rw [toList_insT, insList_eq hb]

/-- C16 (witness): the key 4 inserted into the three-node tree with root 2 and
children 1 and 3. -/
theorem C16_insert_preserves_witness :
    WF sampleTree sampleShape ∧ sampleShape.RB ∧ sampleShape.BST ∧
    Size sampleTree = sampleShape.size ∧ sampleShape.size + 1 < uintModulus ∧
    ∃ t' T', Insert sampleTree 4 = .ok t' ∧ WF t' T' ∧ T'.RB ∧ T'.BST ∧ Size t' = T'.size ∧
      InOrder t' = .ok T'.toList ∧
      T'.toList = if (4 : Int) ∈ sampleShape.toList then sampleShape.toList
        else sampleShape.toList.orderedInsert (· ≤ ·) 4 :=
  have hw : WF sampleTree sampleShape := ⟨rfl, by simp [sampleTree, sampleShape, Rep], by decide⟩
  have hrb : sampleShape.RB := by
    simp [sampleShape, Tree.RB, Tree.NoRedRed, Tree.Balanced, Tree.bh]
  have hb : sampleShape.BST := by simp [sampleShape, Tree.BST, Tree.toList]
  ⟨hw, hrb, hb, rfl, by decide, C16_insert_preserves sampleTree sampleShape 4 hw hrb hb rfl (by decide)⟩

/-- C20: for every well-formed red-black tree (consistent links, root without
parent, Black root, no Red node with a Red child, uniform black-height) whose
`Size` is the number of its nodes, and every key `k`, `Insert k` and `Delete k`
both return a tree: no step of `insert`, `insertFixUp`, `delete`, `deleteFixUp`
or of the rotations reads or writes through an absent pointer, and no descent
runs out of steps. -/
theorem C20_no_absent_dereference [LinearOrder K] (t : RBTree K) (T : Tree K) (k : K)
    (hw : WF t T) (hrb : T.RB) (hc : Size t = T.size) (hlt : T.size < uintModulus) :
    (∃ t1, Insert t k = .ok t1) ∧ (∃ t2, Delete t k = .ok t2) := by
  constructor
  · obtain ⟨t1, h1, -, -⟩ := Insert_spec k hw
    exact ⟨t1, h1⟩
  · cases hl : (T.lookup k).2
    · exact ⟨t, Delete_absent_ok hw hl⟩
    · obtain ⟨t2, -, h1, -⟩ := Delete_present hw hrb hc hlt hl
      exact ⟨t2, h1⟩

/-- C20 (witness): the key 2 on the three-node tree with root 2 and children 1 and 3. -/
theorem C20_no_absent_dereference_witness :
    WF sampleTree sampleShape ∧ sampleShape.RB ∧ Size sampleTree = sampleShape.size ∧
    sampleShape.size < uintModulus ∧
    (∃ t1, Insert sampleTree 2 = .ok t1) ∧ (∃ t2, Delete sampleTree 2 = .ok t2) :=
  have hw : WF sampleTree sampleShape := ⟨rfl, by simp [sampleTree, sampleShape, Rep], by decide⟩
  have hrb : sampleShape.RB := by
    simp [sampleShape, Tree.RB, Tree.NoRedRed, Tree.Balanced, Tree.bh]
  ⟨hw, hrb, rfl, by decide, C20_no_absent_dereference sampleTree sampleShape 2 hw hrb rfl (by decide)⟩

end RBT

namespace RBT

variable {K : Type}

/-! ## The nephews in `deleteFixUp` (C19) -/

/-- C19 (counterexample): the calls `Insert 2`, `Insert 1`, `Insert 4`, `Insert 3`,
`Insert 5` build the tree `fiveTree`: Black root 2, Black children 1 and 4, Red
nodes 3 and 5 below 4.  In `deleteFixUp` for the node 1 the sibling 4 is Black,
the close nephew 3 and the distant nephew 5 are both Red.  After `Delete 1` the
root does not hold the key 4. -/
theorem C19_root_key_is_not_four :
    runCalls fiveKeys NewRBTree = .ok fiveTree ∧
    ∃ t x, Delete fiveTree 1 = .ok t ∧ load t.heap t.root = .ok x ∧ x.Val ≠ 4 :=
  ⟨rfl, _, _, rfl, rfl, by decide⟩

/-- C19 (amended): in `deleteFixUp` for a Black node `n` with parent `p` and a Black
sibling `s` whose children are `sl` and `sr`, on either side (`b` true: `n` is
the left child, the close nephew is `sl` and the distant nephew `sr`; `b`
false: `n` is the right child, the close nephew is `sr` and the distant nephew
`sl`): when the close nephew is a Red node `c`, whatever the colour of the
distant nephew, the code does the close-nephew conversion and then the
terminal case, two rotations in all, and `c` ends up in the former position of
`p` with the colour `p` had, its children being `p` (Black, above `n` and the
subtree of `c` that was nearer to `n`) and `s` (Black, above the other subtree
of `c` and the distant nephew); when the close nephew is not Red and the
distant nephew is a Red node `d`, the terminal case applies directly with one
rotation and `s` ends up in the former position of `p`, above `p` and `d`, both
Black.  Every time the root is coloured Black at the end (`blackenRoot`).  In
particular `Delete 1` on `fiveTree` (built from 2, 1, 4, 3, 5) leaves the key 3
at the root, with the children 2 and 4 and `InOrder` `[2, 3, 4, 5]`; and on the
mirrored side `Delete 5` on `mirrorTree` (built from 4, 5, 2, 1, 3) leaves the
key 3 at the root, with the children 2 and 4 and `InOrder` `[1, 2, 3, 4]`. -/
theorem C19_nephew_cases (t : RBTree K) (up : Ctx K) (n p s : Nat) (cp : Color) (b : Bool)
    (l r sl sr : Tree K) (k kp sk : K)
    (hw : WF t (plug ({ isLeft := b, a := p, c := cp, k := kp, sib := .node s .Black sl sk sr } :: up) (.node n .Black l k r))) :
    (b = true → ∀ c cl ck cr, sl = .node c .Red cl ck cr →
      ∃ t', deleteFixUp (t.heap.length + 1) t (some n) = .ok t' ∧
        WF t' (plug (blackenRoot ({ isLeft := true, a := p, c := .Black, k := kp, sib := cl } :: { isLeft := true, a := c, c := cp, k := ck, sib := .node s .Black cr sk sr } :: up)) (.node n .Black l k r))) ∧
    (b = true → sl.isRed = false → ∀ d dl dk dr, sr = .node d .Red dl dk dr →
      ∃ t', deleteFixUp (t.heap.length + 1) t (some n) = .ok t' ∧
        WF t' (plug (blackenRoot ({ isLeft := true, a := p, c := .Black, k := kp, sib := sl } :: { isLeft := true, a := s, c := cp, k := sk, sib := .node d .Black dl dk dr } :: up)) (.node n .Black l k r))) ∧
    (b = false → ∀ c cl ck cr, sr = .node c .Red cl ck cr →
      ∃ t', deleteFixUp (t.heap.length + 1) t (some n) = .ok t' ∧
        WF t' (plug (blackenRoot ({ isLeft := false, a := p, c := .Black, k := kp, sib := cr } :: { isLeft := false, a := c, c := cp, k := ck, sib := .node s .Black sl sk cl } :: up)) (.node n .Black l k r))) ∧
    (b = false → sr.isRed = false → ∀ d dl dk dr, sl = .node d .Red dl dk dr →
      ∃ t', deleteFixUp (t.heap.length + 1) t (some n) = .ok t' ∧
        WF t' (plug (blackenRoot ({ isLeft := false, a := p, c := .Black, k := kp, sib := sr } :: { isLeft := false, a := s, c := cp, k := sk, sib := .node d .Black dl dk dr } :: up)) (.node n .Black l k r))) ∧
    (∃ t1 x y z, Delete fiveTree 1 = .ok t1 ∧ load t1.heap t1.root = .ok x ∧ x.Val = 3 ∧
      load t1.heap x.left = .ok y ∧ y.Val = 2 ∧ load t1.heap x.right = .ok z ∧ z.Val = 4 ∧
      InOrder t1 = .ok [2, 3, 4, 5]) ∧
    (runCalls mirrorKeys NewRBTree = .ok mirrorTree ∧
      ∃ t2 x y z, Delete mirrorTree 5 = .ok t2 ∧ load t2.heap t2.root = .ok x ∧ x.Val = 3 ∧
        load t2.heap x.left = .ok y ∧ y.Val = 2 ∧ load t2.heap x.right = .ok z ∧ z.Val = 4 ∧
        InOrder t2 = .ok [1, 2, 3, 4]) := by
  have hfuel := Nat.lt_succ_of_le (wf_ctx_length_le hw)
  refine ⟨?_, ?_, ?_, ?_, ⟨_, _, _, _, rfl, rfl, rfl, rfl, rfl, rfl, rfl, rfl⟩,
    rfl, _, _, _, _, rfl, rfl, rfl, rfl, rfl, rfl, rfl, rfl⟩
  · rintro rfl c cl ck cr rfl
    have hd : delFix ({ isLeft := true, a := p, c := cp, k := kp, sib := .node s .Black (.node c .Red cl ck cr) sk sr } :: up) =
        some (blackenRoot ({ isLeft := true, a := p, c := .Black, k := kp, sib := cl } :: { isLeft := true, a := c, c := cp, k := ck, sib := .node s .Black cr sk sr } :: up)) := by
      simp [delFix, delNephews, delCase3, delCase4]
    obtain ⟨t', h1, h2, -, -⟩ := deleteFixUp_spec _ hw hfuel hd
    exact ⟨t', h1, h2⟩
  · rintro rfl hsl d dl dk dr rfl
    have hd : delFix ({ isLeft := true, a := p, c := cp, k := kp, sib := .node s .Black sl sk (.node d .Red dl dk dr) } :: up) =
        some (blackenRoot ({ isLeft := true, a := p, c := .Black, k := kp, sib := sl } :: { isLeft := true, a := s, c := cp, k := sk, sib := .node d .Black dl dk dr } :: up)) := by
      simp [delFix, delNephews, delCase3_left_black hsl, delCase4, hsl]
    obtain ⟨t', h1, h2, -, -⟩ := deleteFixUp_spec _ hw hfuel hd
    exact ⟨t', h1, h2⟩
  · rintro rfl c cl ck cr rfl
    have hd : delFix ({ isLeft := false, a := p, c := cp, k := kp, sib := .node s .Black sl sk (.node c .Red cl ck cr) } :: up) =
        some (blackenRoot ({ isLeft := false, a := p, c := .Black, k := kp, sib := cr } :: { isLeft := false, a := c, c := cp, k := ck, sib := .node s .Black sl sk cl } :: up)) := by
      simp [delFix, delNephews, delCase3, delCase4]
    obtain ⟨t', h1, h2, -, -⟩ := deleteFixUp_spec _ hw hfuel hd
    exact ⟨t', h1, h2⟩
  · rintro rfl hsr d dl dk dr rfl
    have hd : delFix ({ isLeft := false, a := p, c := cp, k := kp, sib := .node s .Black (.node d .Red dl dk dr) sk sr } :: up) =
        some (blackenRoot ({ isLeft := false, a := p, c := .Black, k := kp, sib := sr } :: { isLeft := false, a := s, c := cp, k := sk, sib := .node d .Black dl dk dr } :: up)) := by
      simp [delFix, delNephews, delCase3_right_black hsr, delCase4, hsr]
    obtain ⟨t', h1, h2, -, -⟩ := deleteFixUp_spec _ hw hfuel hd
    exact ⟨t', h1, h2⟩

/-- C19 (witness): the node 1 of `fiveTree`, a left child whose sibling 4 has the Red
children 3 and 5, and the node 5 of `mirrorTree`, a right child whose sibling 2
has the Red children 1 and 3. -/
theorem C19_nephew_cases_witness :
    (WF fiveTree (plug [{ isLeft := true, a := 0, c := .Black, k := 2, sib := .node 2 .Black (.node 3 .Red .nil 3 .nil) 4 (.node 4 .Red .nil 5 .nil) }] (.node 1 .Black .nil 1 .nil)) ∧
     ∃ t', deleteFixUp (fiveTree.heap.length + 1) fiveTree (some 1) = .ok t' ∧
      WF t' (plug (blackenRoot [{ isLeft := true, a := 0, c := .Black, k := 2, sib := .nil }, { isLeft := true, a := 3, c := .Black, k := 3, sib := .node 2 .Black .nil 4 (.node 4 .Red .nil 5 .nil) }]) (.node 1 .Black .nil 1 .nil))) ∧
    (WF mirrorTree (plug [{ isLeft := false, a := 0, c := .Black, k := 4, sib := .node 2 .Black (.node 3 .Red .nil 1 .nil) 2 (.node 4 .Red .nil 3 .nil) }] (.node 1 .Black .nil 5 .nil)) ∧
     ∃ t', deleteFixUp (mirrorTree.heap.length + 1) mirrorTree (some 1) = .ok t' ∧
      WF t' (plug (blackenRoot [{ isLeft := false, a := 0, c := .Black, k := 4, sib := .nil }, { isLeft := false, a := 4, c := .Black, k := 3, sib := .node 2 .Black (.node 3 .Red .nil 1 .nil) 2 .nil }]) (.node 1 .Black .nil 5 .nil))) :=
  have hw : WF fiveTree (plug [{ isLeft := true, a := 0, c := .Black, k := 2, sib := .node 2 .Black (.node 3 .Red .nil 3 .nil) 4 (.node 4 .Red .nil 5 .nil) }] (.node 1 .Black .nil 1 .nil)) :=
    ⟨rfl, by simp [fiveTree, plug, Frame.fill, Rep], by decide⟩
  have hm : WF mirrorTree (plug [{ isLeft := false, a := 0, c := .Black, k := 4, sib := .node 2 .Black (.node 3 .Red .nil 1 .nil) 2 (.node 4 .Red .nil 3 .nil) }] (.node 1 .Black .nil 5 .nil)) :=
    ⟨rfl, by simp [mirrorTree, plug, Frame.fill, Rep], by decide⟩
  ⟨⟨hw, (C19_nephew_cases fiveTree [] 1 0 2 .Black true .nil .nil _ _ 1 2 4 hw).1 rfl 3 .nil 3 .nil rfl⟩,
   ⟨hm, (C19_nephew_cases mirrorTree [] 1 0 2 .Black false .nil .nil _ _ 5 4 2 hm).2.2.1 rfl 4 .nil 3 .nil rfl⟩⟩

end RBT

namespace RBT

variable {K : Type}

/-! ## Deleting a node with two children (C18) -/

/-- C18: for every well-formed red-black tree (consistent links, root without
parent, Black root, no Red node with a Red child, uniform black-height, keys in
strictly ascending order, `Size` equal to the number of nodes) and every node,
at address `a` at the end of the path `ctx`, that holds the key `k` and has two
children `l` and `r`: `Delete k` returns a well-formed tree `T'`; with `sk` the
first key of `r` in order and `s` the address of the leftmost node of `r`,
which held `sk` before the call, the node `a` is still in `T'` and now holds
`sk`, the node `s` is not in `T'`, `InOrder` lists the keys of `T'`, among which
`sk` occurs once and `k` does not occur. -/
theorem C18_two_children [LinearOrder K] (t : RBTree K) (ctx : Ctx K) (a : Nat) (c : Color)
    (l r : Tree K) (k : K)
    (hw : WF t (plug ctx (.node a c l k r))) (hrb : (plug ctx (.node a c l k r)).RB)
    (hb : (plug ctx (.node a c l k r)).BST) (hc : Size t = (plug ctx (.node a c l k r)).size)
    (hl : l ≠ .nil) (hr : r ≠ .nil) :
    ∃ t' T' s sk x y, Delete t k = .ok t' ∧ WF t' T' ∧
      r.toList.head? = some sk ∧ (leftSpine r []).2.ptr = some s ∧
      t.heap[s]? = some y ∧ y.Val = sk ∧
      a ∈ T'.addrs ∧ t'.heap[a]? = some x ∧ x.Val = sk ∧ s ∉ T'.addrs ∧
      InOrder t' = .ok T'.toList ∧ T'.toList.count sk = 1 ∧ k ∉ T'.toList := by
  have hl' : l.ptr ≠ none := fun e => hl (Tree.eq_nil_of_ptr e)
  have hr' : r.ptr ≠ none := fun e => hr (Tree.eq_nil_of_ptr e)
  obtain ⟨t', T', s, sk, P, Q, h1, h2, e1, e2, e3, e4⟩ := Delete_two_children hw hrb hb hc hl' hr'
  obtain ⟨y, hy, hyv⟩ := Rep_pairs hw.rep (show (s, sk) ∈ (plug ctx (.node a c l k r)).pairs by
    rw [e3]; simp)
  obtain ⟨x, hx, hxv⟩ := Rep_pairs h2.rep (show (a, sk) ∈ T'.pairs by rw [e4]; simp)
  have hnda : ((P ++ (a, k) :: (s, sk) :: Q).map Prod.fst).Nodup := by
    rw [← e3, pairs_fst]; exact hw.nodup
  have hndk : ((P ++ (a, k) :: (s, sk) :: Q).map Prod.snd).Nodup := by
    rw [← e3, pairs_snd]; exact ((BST_iff_sorted _).1 hb).nodup
  simp only [List.map_append, List.map_cons] at hnda hndk
  have hA : T'.addrs = P.map Prod.fst ++ a :: Q.map Prod.fst := by
    rw [← pairs_fst, e4]; simp
  have hL : T'.toList = P.map Prod.snd ++ sk :: Q.map Prod.snd := by
    rw [← pairs_snd, e4]; simp
  have hnd2 : (P.map Prod.snd ++ sk :: Q.map Prod.snd).Nodup :=
    hndk.sublist (List.Sublist.append_left (List.sublist_cons_self _ _) _)
  refine ⟨t', T', s, sk, x, y, h1, h2, e2, e1, hy, hyv, ?_, hx, hxv, ?_, isTree_InOrder h2.isTree,
    ?_, ?_⟩
  · rw [hA]; simp
  · rw [hA]
    have h3 := List.nodup_middle.1 (List.nodup_middle.1 hnda |>.of_cons)
    simp only [List.nodup_cons, List.mem_append, List.mem_cons, not_or] at h3
    have h4 := List.nodup_middle.1 hnda
    simp only [List.nodup_cons, List.mem_append, List.mem_cons, not_or] at h4
    simp only [List.mem_append, List.mem_cons, not_or]
    exact ⟨h3.1.1, fun e => h4.1.2.1 e.symm, h3.1.2⟩
  · rw [hL]
    exact List.count_eq_one_of_mem hnd2 (by simp)
  · rw [hL]
    have h4 := List.nodup_middle.1 hndk
    simp only [List.nodup_cons, List.mem_append, List.mem_cons, not_or] at h4
    simp only [List.mem_append, List.mem_cons, not_or]
    exact ⟨h4.1.1, h4.1.2.1, h4.1.2.2⟩

/-- C18 (witness): the root of the three-node tree with root 2 and children 1 and 3. -/
theorem C18_two_children_witness :
    WF sampleTree (plug [] (.node 0 .Black (.node 1 .Red .nil 1 .nil) 2 (.node 2 .Red .nil 3 .nil))) ∧
    (plug [] (.node 0 .Black (.node 1 .Red .nil (1 : Int) .nil) 2 (.node 2 .Red .nil 3 .nil))).RB ∧
    (plug [] (.node 0 .Black (.node 1 .Red .nil (1 : Int) .nil) 2 (.node 2 .Red .nil 3 .nil))).BST ∧
    ∃ t' T' s sk x y, Delete sampleTree 2 = .ok t' ∧ WF t' T' ∧
      (Tree.node 2 .Red .nil (3 : Int) .nil).toList.head? = some sk ∧
      (leftSpine (Tree.node 2 .Red .nil (3 : Int) .nil) []).2.ptr = some s ∧
      sampleTree.heap[s]? = some y ∧ y.Val = sk ∧
      0 ∈ T'.addrs ∧ t'.heap[0]? = some x ∧ x.Val = sk ∧ s ∉ T'.addrs ∧
      InOrder t' = .ok T'.toList ∧ T'.toList.count sk = 1 ∧ 2 ∉ T'.toList :=
  have hw : WF sampleTree
      (plug [] (.node 0 .Black (.node 1 .Red .nil 1 .nil) 2 (.node 2 .Red .nil 3 .nil))) :=
    ⟨rfl, by simp [sampleTree, plug, Rep], by decide⟩
  have hrb : (plug [] (.node 0 .Black (.node 1 .Red .nil (1 : Int) .nil) 2
      (.node 2 .Red .nil 3 .nil))).RB := by
    simp [plug, Tree.RB, Tree.NoRedRed, Tree.Balanced, Tree.bh]
  have hb : (plug [] (.node 0 .Black (.node 1 .Red .nil (1 : Int) .nil) 2
      (.node 2 .Red .nil 3 .nil))).BST := by
    simp [plug, Tree.BST, Tree.toList]
  ⟨hw, hrb, hb, C18_two_children sampleTree [] 0 .Black _ _ 2 hw hrb hb rfl (by simp) (by simp)⟩

end RBT
